import Mathlib

/-!
Range allocators of `engine/utils/freelist.hpp`: a shallow embedding of the two free-range-list
allocators of the engine:

* `FreeList<T, MemoryPoolBlockSize, SizeT>` (the owning, growable *RangeAllocator*), and
* `FreeListNonBacking<MemoryPoolBlockSize, SizeT>` (the non-owning *RangeTracker*).

Modelling conventions.

* The singly linked list of `LinkedSection` nodes that starts at `head` is a `List Section`,
  first node first; `head == nullptr` is the empty list.  Nodes live in a `MemoryPool`, whose only
  role here is to provide node storage, so linking a node is inserting an element and unlinking a
  node is deleting one.
* `SizeT` values are natural numbers.  Every index handled by `FreeList` addresses an element of
  an array that `new T[...]` has produced, so the values stay far below the width of `size_t`.
* The backing array `data` is a `List (Option T)`; `none` is an element whose value is
  indeterminate (storage obtained from `new T[...]` and never written).
* Dereferencing a null node pointer and running out of loop fuel are the two faults a call can
  end with; the `while (true)` loop of `FreeList::Allocate` takes the number of scans it may
  perform as an explicit fuel argument.

The slot pool of `engine/utils/memorypool.hpp` and the texture atlas of
`engine/utils/textureatlas.hpp` follow the range allocators, each with its own conventions.
-/

namespace engine.utils

/-- The `Section` struct: a run of `Count` elements that starts at `Index`. -/
structure Section where
  Index : Nat
  Count : Nat
deriving DecidableEq, Repr

/-- How a call can end without returning. -/
inductive Fault where
  | nullDeref
  | outOfFuel
deriving DecidableEq, Repr

/-- The members of `FreeList<T>`: the free-range list reached from `head`, the backing array
`data` and its length `totalCount`. -/
structure FreeList (T : Type) where
  head : List Section
  data : List (Option T)
  totalCount : Nat
deriving Repr

/-- The members of `FreeListNonBacking`: only the free-range list reached from `head`. -/
structure FreeListNonBacking where
  head : List Section
deriving DecidableEq, Repr

/-- What `FreeListNonBacking::Allocate` does: it returns a section, or it calls
`engine::log::Fatal`, whose default callback aborts the process. -/
inductive Outcome where
  | returned (ret : Section) (fl : FreeListNonBacking)
  | fatal (fl : FreeListNonBacking)
deriving DecidableEq, Repr

namespace FreeList

/-- The constructor `FreeList(SizeT initialCount)`. -/
def construct {T : Type} (initialCount : Nat) : FreeList T :=
  { head := [⟨0, initialCount⟩]
    data := List.replicate initialCount none
    totalCount := initialCount }

/-- The inner `while (current != nullptr)` loop of `Allocate`, started at `current` with
`previous != nullptr` given by the flag.  On a match it gives the returned section and the list
from `current` on as the loop leaves it; `none` when the loop runs off the end. -/
def search (count : Nat) : Bool → List Section → Option (Section × List Section)
  | _, [] => none
  | hasPrevious, current :: next =>
    if current.Count ≥ count then
      let ret : Section := ⟨current.Index, count⟩
      let carved : Section := ⟨current.Index + count, current.Count - count⟩
      if carved.Count = 0 then
        if hasPrevious then some (ret, next)
        else if next.isEmpty then some (ret, [carved])
        else some (ret, next)
      else some (ret, carved :: next)
    else
      match search count true next with
      | some (ret, rest) => some (ret, current :: rest)
      | none => none

/-- The statement `previous->Section.Count += totalCount` after a failed scan: `previous` is the
last node the scan visited, a null pointer when the list is empty. -/
def extendLast (amount : Nat) : List Section → Option (List Section)
  | [] => none
  | [last] => some [⟨last.Index, last.Count + amount⟩]
  | node :: next :: rest =>
    match extendLast amount (next :: rest) with
    | some grown => some (node :: grown)
    | none => none

/-- The array `newData` after `new T[totalCount * 2]` and the `memcpy` of `totalCount`
elements. -/
def growData {T : Type} (data : List (Option T)) (totalCount : Nat) : List (Option T) :=
  (List.range (totalCount * 2)).map fun i => if i < totalCount then data.getD i none else none

/-- The `while (true)` loop of `Allocate`, for `count != 0`, with fuel for the scans. -/
def allocateLoop {T : Type} (count : Nat) : Nat → FreeList T → Except Fault (Section × FreeList T)
  | 0, _ => .error .outOfFuel
  | fuel + 1, fl =>
    match search count false fl.head with
    | some (ret, rest) => .ok (ret, { fl with head := rest })
    | none =>
      match extendLast fl.totalCount fl.head with
      | none => .error .nullDeref
      | some grown =>
        allocateLoop count fuel
          { head := grown
            data := growData fl.data fl.totalCount
            totalCount := fl.totalCount * 2 }

/-- The method `FreeList::Allocate(count)`. -/
def Allocate {T : Type} (fuel : Nat) (fl : FreeList T) (count : Nat) :
    Except Fault (Section × FreeList T) :=
  if count = 0 then .ok (⟨0, 0⟩, fl) else allocateLoop count fuel fl

/-- The part of `Deallocate` that runs once `previous` is a node: the rest of the walk and the
three branches with `previous != nullptr`.  The result is the list from `previous` on. -/
def deallocateAfter (s : Section) : Section → List Section → List Section
  | previous, [] =>
    if previous.Index + s.Count = s.Index then [⟨previous.Index, previous.Count + s.Count⟩]
    else [previous, s]
  | previous, current :: next =>
    if s.Index > current.Index then previous :: deallocateAfter s current next
    else if s.Index + s.Count = current.Index then
      previous :: ⟨s.Index, current.Count + s.Count⟩ :: next
    else if previous.Index + previous.Count = s.Index then
      ⟨previous.Index, previous.Count + s.Count⟩ :: current :: next
    else previous :: s :: current :: next

/-- The free-range list after `Deallocate(s)`. -/
def deallocateList (s : Section) : List Section → Except Fault (List Section)
  | [] => .error .nullDeref
  | current :: next =>
    if s.Index > current.Index then .ok (deallocateAfter s current next)
    else if s.Index + s.Count = current.Index then
      .ok (⟨s.Index, current.Count + s.Count⟩ :: next)
    else .ok (s :: current :: next)

/-- The method `FreeList::Deallocate(section)`. -/
def Deallocate {T : Type} (fl : FreeList T) (s : Section) : Except Fault (FreeList T) :=
  match deallocateList s fl.head with
  | .ok rest => .ok { fl with head := rest }
  | .error e => .error e

/-- The method `FreeList::NumberOfElements()`. -/
def NumberOfElements {T : Type} (fl : FreeList T) : Nat := fl.totalCount

/-- The method `FreeList::SectionData(section)`: the backing array from `&data[section.Index]` on. -/
def SectionData {T : Type} (fl : FreeList T) (s : Section) : List (Option T) :=
  fl.data.drop s.Index

end FreeList

namespace FreeListNonBacking

/-- The constructor `FreeListNonBacking(SizeT capacity)`. -/
def construct (capacity : Nat) : FreeListNonBacking :=
  { head := [⟨0, capacity⟩] }

/-- The `while (current != nullptr)` loop of `Allocate`, started at `current` with
`previous != nullptr` given by the flag. -/
def search (count : Nat) : Bool → List Section → Option (Section × List Section)
  | _, [] => none
  | hasPrevious, current :: next =>
    if current.Count ≥ count then
      let ret : Section := ⟨current.Index, count⟩
      let carved : Section := ⟨current.Index + count, current.Count - count⟩
      if carved.Count = 0 then
        if hasPrevious then some (ret, next)
        else if next.isEmpty then some (ret, [carved])
        else some (ret, next)
      else some (ret, carved :: next)
    else
      match search count true next with
      | some (ret, rest) => some (ret, current :: rest)
      | none => none

/-- The method `FreeListNonBacking::Allocate(count)`. -/
def Allocate (fl : FreeListNonBacking) (count : Nat) : Outcome :=
  if count ≤ 0 then .returned ⟨0, 0⟩ fl
  else
    match search count false fl.head with
    | some (ret, rest) => .returned ret { head := rest }
    | none => .fatal fl

/-- The part of `Deallocate` that runs once `previous` is a node. -/
def deallocateAfter (s : Section) : Section → List Section → List Section
  | previous, [] =>
    if previous.Index + s.Count = s.Index then [⟨previous.Index, previous.Count + s.Count⟩]
    else [previous, s]
  | previous, current :: next =>
    if s.Index > current.Index then previous :: deallocateAfter s current next
    else if s.Index + s.Count = current.Index then
      previous :: ⟨s.Index, current.Count + s.Count⟩ :: next
    else if previous.Index + previous.Count = s.Index then
      ⟨previous.Index, previous.Count + s.Count⟩ :: current :: next
    else previous :: s :: current :: next

/-- The free-range list after `Deallocate(s)`. -/
def deallocateList (s : Section) : List Section → Except Fault (List Section)
  | [] => .error .nullDeref
  | current :: next =>
    if s.Index > current.Index then .ok (deallocateAfter s current next)
    else if s.Index + s.Count = current.Index then
      .ok (⟨s.Index, current.Count + s.Count⟩ :: next)
    else .ok (s :: current :: next)

/-- The method `FreeListNonBacking::Deallocate(section)`. -/
def Deallocate (fl : FreeListNonBacking) (s : Section) : Except Fault FreeListNonBacking :=
  match deallocateList s fl.head with
  | .ok rest => .ok { head := rest }
  | .error e => .error e

end FreeListNonBacking

/-- One call of a client on an allocator. -/
inductive Call where
  | allocate (count : Nat)
  | deallocate (s : Section)
deriving DecidableEq, Repr

/-- A `FreeList` together with the client's ledger: the sections that were returned by
`Allocate` and have not been passed to `Deallocate` since, most recent first. -/
structure Config (T : Type) where
  fl : FreeList T
  live : List Section

/-- A `FreeListNonBacking` together with the client's ledger of live sections. -/
structure TrackerConfig where
  fl : FreeListNonBacking
  live : List Section
deriving DecidableEq, Repr

namespace Config

/-- The state before the first call on a `FreeList` built with `initialCount`. -/
def start (T : Type) (initialCount : Nat) : Config T :=
  { fl := FreeList.construct initialCount, live := [] }

/-- One call of a valid call sequence: `Deallocate` is only passed a live section.  `none` when
the call is not valid or does not return. -/
def step {T : Type} (fuel : Nat) (cfg : Config T) : Call → Option (Config T)
  | .allocate count =>
    match FreeList.Allocate fuel cfg.fl count with
    | .ok (ret, fl) => some { fl := fl, live := ret :: cfg.live }
    | .error _ => none
  | .deallocate s =>
    if s ∈ cfg.live then
      match FreeList.Deallocate cfg.fl s with
      | .ok fl => some { fl := fl, live := cfg.live.erase s }
      | .error _ => none
    else none

/-- A call sequence, run from `cfg`; every `Allocate` gets `fuel` scans. -/
def run {T : Type} (fuel : Nat) : Config T → List Call → Option (Config T)
  | cfg, [] => some cfg
  | cfg, call :: calls =>
    match step fuel cfg call with
    | some next => run fuel next calls
    | none => none

end Config

namespace TrackerConfig

/-- The state before the first call on a `FreeListNonBacking` built with `capacity`. -/
def start (capacity : Nat) : TrackerConfig :=
  { fl := FreeListNonBacking.construct capacity, live := [] }

/-- One call of a valid call sequence on the tracker; `none` when the call is not valid, is
fatal or faults. -/
def step (cfg : TrackerConfig) : Call → Option TrackerConfig
  | .allocate count =>
    match FreeListNonBacking.Allocate cfg.fl count with
    | .returned ret fl => some { fl := fl, live := ret :: cfg.live }
    | .fatal _ => none
  | .deallocate s =>
    if s ∈ cfg.live then
      match FreeListNonBacking.Deallocate cfg.fl s with
      | .ok fl => some { fl := fl, live := cfg.live.erase s }
      | .error _ => none
    else none

/-- A call sequence on the tracker, run from `cfg`. -/
def run : TrackerConfig → List Call → Option TrackerConfig
  | cfg, [] => some cfg
  | cfg, call :: calls =>
    match step cfg call with
    | some next => run next calls
    | none => none

end TrackerConfig

/-- Two sections overlap as the index intervals `[Index, Index + Count)`. -/
def Section.overlaps (a b : Section) : Prop :=
  a.Index < b.Index + b.Count ∧ b.Index < a.Index + a.Count

instance (a b : Section) : Decidable (a.overlaps b) := by
  unfold Section.overlaps; infer_instance

/-- Some two consecutive nodes `P`, `Q` of the list have `P.Index + P.Count == Q.Index`. -/
def hasAdjacentNodes : List Section → Bool
  | P :: Q :: rest => P.Index + P.Count == Q.Index || hasAdjacentNodes (Q :: rest)
  | _ => false

/-- Every two consecutive nodes `P`, `Q` of the list have `P.Index < Q.Index` and
`P.Index + P.Count <= Q.Index`. -/
def isAscending : List Section → Bool
  | P :: Q :: rest =>
    decide (P.Index < Q.Index) && decide (P.Index + P.Count ≤ Q.Index) && isAscending (Q :: rest)
  | _ => true

/-- Sum of the `Count` fields of a list of sections. -/
def countSum (l : List Section) : Nat := (l.map Section.Count).sum

/-- The number of elements held by the sections of `l` that start below index `p`. -/
def massBelow (p : Nat) (l : List Section) : Nat :=
  ((l.filter fun y => decide (y.Index < p)).map Section.Count).sum

/-- The bookkeeping that keeps sections inside the array: the counts of all sections, free and
live, add up to `total`, and no section starts beyond the elements held by the sections that
start below it. -/
def Balanced (items : List Section) (total : Nat) : Prop :=
  countSum items = total ∧ ∀ x ∈ items, x.Index ≤ massBelow x.Index items

/-- The invariant of a `FreeList` and its client: the sections are balanced against the
capacity and `data` has `totalCount` elements. -/
def Config.Inv {T : Type} (cfg : Config T) : Prop :=
  Balanced (cfg.fl.head ++ cfg.live) cfg.fl.totalCount ∧ cfg.fl.data.length = cfg.fl.totalCount

/-!
The slot pool of `engine/utils/memorypool.hpp`.

Pointers are addresses, `nullptr` is 0.  The chain of blocks that starts at `currentBlock_` is the
list of the block addresses, newest first, and the intrusive list of freed slots that starts at
`freeSlots_` is the list of their addresses, most recently freed first.  What the C++
implementation fixes (sizes, alignment, the addresses `operator new` hands out) is a parameter.
-/

/-- What `MemoryPool<T, BlockSize>` takes from the implementation: `BlockSize`,
`sizeof(slot_type_)`, `alignof(slot_type_)`, `sizeof(slot_pointer_)`, and the address that the
`k`-th call of `operator new(BlockSize)` returns. -/
structure PoolLayout where
  BlockSize : Nat
  slotSize : Nat
  slotAlign : Nat
  pointerSize : Nat
  operatorNew : Nat → Nat

/-- The members of `MemoryPool`. -/
structure MemoryPool where
  currentBlock_ : List Nat
  currentSlot_ : Nat
  lastSlot_ : Nat
  freeSlots_ : List Nat
deriving DecidableEq, Repr

namespace MemoryPool

/-- The default constructor `MemoryPool()`. -/
def construct : MemoryPool :=
  { currentBlock_ := [], currentSlot_ := 0, lastSlot_ := 0, freeSlots_ := [] }

/-- The method `padPointer(p, align)`: `(align - p) % align` in 64-bit unsigned arithmetic. -/
def padPointer (p align : Nat) : Nat :=
  (align + 2 ^ 64 - p % 2 ^ 64) % 2 ^ 64 % align

/-- The method `allocateBlock()`. -/
def allocateBlock (L : PoolLayout) (pool : MemoryPool) : MemoryPool :=
  let newBlock := L.operatorNew pool.currentBlock_.length
  let body := newBlock + L.pointerSize
  let bodyPadding := padPointer body L.slotAlign
  { pool with
    currentBlock_ := newBlock :: pool.currentBlock_
    currentSlot_ := body + bodyPadding
    lastSlot_ := newBlock + L.BlockSize - L.slotSize + 1 }

/-- The method `MemoryPool::Allocate()`: the returned pointer and the pool afterwards. -/
def Allocate (L : PoolLayout) (pool : MemoryPool) : Nat × MemoryPool :=
  match pool.freeSlots_ with
  | result :: next => (result, { pool with freeSlots_ := next })
  | [] =>
    let grown := if pool.currentSlot_ ≥ pool.lastSlot_ then allocateBlock L pool else pool
    (grown.currentSlot_, { grown with currentSlot_ := grown.currentSlot_ + L.slotSize })

/-- The method `MemoryPool::Deallocate(p)`. -/
def Deallocate (pool : MemoryPool) (p : Nat) : MemoryPool :=
  if p ≠ 0 then { pool with freeSlots_ := p :: pool.freeSlots_ } else pool

end MemoryPool

/-- One call of a client on a `MemoryPool`. -/
inductive PoolCall where
  | allocate
  | deallocate (p : Nat)
deriving DecidableEq, Repr

/-- A `MemoryPool` together with the client's ledger: the handles that `Allocate` returned and
that have not been passed to `Deallocate` since, most recent first. -/
structure PoolConfig where
  pool : MemoryPool
  live : List Nat
deriving DecidableEq, Repr

namespace PoolConfig

/-- The state before the first call. -/
def start : PoolConfig := { pool := MemoryPool.construct, live := [] }

/-- One call of a valid call sequence: `Deallocate` is only passed a live, non-null handle. -/
def step (L : PoolLayout) (cfg : PoolConfig) : PoolCall → Option PoolConfig
  | .allocate =>
    let r := MemoryPool.Allocate L cfg.pool
    some { pool := r.2, live := r.1 :: cfg.live }
  | .deallocate p =>
    if p ≠ 0 ∧ p ∈ cfg.live then
      some { pool := MemoryPool.Deallocate cfg.pool p, live := cfg.live.erase p }
    else none

/-- A call sequence on the pool, run from `cfg`. -/
def run (L : PoolLayout) : PoolConfig → List PoolCall → Option PoolConfig
  | cfg, [] => some cfg
  | cfg, call :: calls =>
    match step L cfg call with
    | some next => run L next calls
    | none => none

end PoolConfig

/-- What C++ and the allocator guarantee about a layout: the alignment is positive and divides
into the slot size, a slot holds a pointer, the `static_assert` of the class holds, and the
blocks that `operator new` returns do not overlap. -/
def PoolLayout.Sound (L : PoolLayout) : Prop :=
  1 ≤ L.slotAlign ∧ L.slotAlign ≤ L.slotSize ∧ L.pointerSize ≤ L.slotSize ∧
  2 * L.slotSize ≤ L.BlockSize ∧
  ∀ i j, i < j →
    L.operatorNew i + L.BlockSize ≤ L.operatorNew j ∨
    L.operatorNew j + L.BlockSize ≤ L.operatorNew i

/-- The invariant of a pool and its client: no handle is both live and free or listed twice,
every handle lies in one of the blocks, below `currentSlot_` when that is the current block, and
`currentSlot_` and `lastSlot_` belong to the current block. -/
def PoolConfig.Inv (L : PoolLayout) (cfg : PoolConfig) : Prop :=
  (cfg.live ++ cfg.pool.freeSlots_).Nodup ∧
  (∀ a ∈ cfg.live ++ cfg.pool.freeSlots_, ∃ i, i < cfg.pool.currentBlock_.length ∧
    L.operatorNew i ≤ a ∧ a < L.operatorNew i + L.BlockSize ∧
    (i + 1 = cfg.pool.currentBlock_.length → a < cfg.pool.currentSlot_)) ∧
  (cfg.pool.currentBlock_ = [] → cfg.pool.currentSlot_ = 0 ∧ cfg.pool.lastSlot_ = 0) ∧
  (∀ k, cfg.pool.currentBlock_.length = k + 1 →
    L.operatorNew k ≤ cfg.pool.currentSlot_ ∧
    cfg.pool.lastSlot_ = L.operatorNew k + L.BlockSize - L.slotSize + 1)

/-!
The texture atlas of `engine/utils/textureatlas.hpp`.

`std::uint16_t` and `std::uint8_t` values are natural numbers, reduced modulo 65536 and 256 where
the code converts a wider value.  A `std::vector` is a list in index order (`back()` is the last
element) and the `std::stack` `freeChunks` is a list with the top first.  Calls that the C++
standard leaves undefined (an index outside an array, `back()` of an empty vector, a division by
zero, `std::bit_ceil` of a value whose result does not fit) end in `undefined`;
`engine::log::Fatal`, whose default callback aborts, ends a call in `fatal`.
-/

/-- Conversion to `std::uint16_t`. -/
def u16 (x : Nat) : Nat := x % 65536

/-- Conversion to `std::uint8_t`. -/
def u8 (x : Nat) : Nat := x % 256

/-- The loop behind `bit_width`: the number of halvings that take `x` to 0. -/
def bitWidthAux : Nat → Nat → Nat
  | 0, _ => 0
  | fuel + 1, x => if x = 0 then 0 else bitWidthAux fuel (x / 2) + 1

/-- The function `std::bit_width` on values below `2 ^ 64`: the number of bits of `x`. -/
def bit_width (x : Nat) : Nat := bitWidthAux 64 x

/-- The search behind `bit_ceil`: the first of `p`, `2 * p`, `4 * p`, ... that is at least `x`. -/
def bitCeilAux : Nat → Nat → Nat → Nat
  | 0, p, _ => p
  | fuel + 1, p, x => if x ≤ p then p else bitCeilAux fuel (2 * p) x

/-- The function `std::bit_ceil` on `std::uint16_t`: the smallest power of two that is not
smaller than `x`; the call is undefined (`none`) when that power does not fit in 16 bits. -/
def bit_ceil (x : Nat) : Option Nat :=
  let p := bitCeilAux 16 1 x
  if p < 65536 then some p else none

/-- The template parameters of `TextureAtlas`. -/
structure AtlasParams where
  AtlasSize : Nat
  MaxTextureSize : Nat
  MinTextureSize : Nat
deriving DecidableEq, Repr

/-- The class `TextureAtlas::Chunklet`. -/
structure Chunklet where
  ChunkID : Nat
  ChunkletID : Nat
  X : Nat
  Y : Nat
  Width : Nat
  Height : Nat
  Size : Nat
deriving DecidableEq, Repr

/-- The class `TextureAtlas::Chunk`. -/
structure Chunk where
  ChunkID : Nat
  AvailableChunkletIDs : List Nat
deriving DecidableEq, Repr

/-- The class `TextureAtlas::ChunkManager`. -/
structure ChunkManager where
  Size : Nat
  PartialChunks : List Nat
deriving DecidableEq, Repr

/-- The members of `TextureAtlas`; an element of `chunkAssignments` that was never written is
`none`. -/
structure TextureAtlas where
  chunks : List Chunk
  managers : List ChunkManager
  chunkAssignments : List (Option Nat)
  freeChunks : List Nat
deriving DecidableEq, Repr

/-- How `TextureAtlas::Allocate` ends. -/
inductive AtlasOutcome where
  | returned (chunklet : Chunklet) (atlas : TextureAtlas)
  | fatal
  | undefined
deriving DecidableEq, Repr

namespace AtlasParams

/-- The constant `maxBitWidth`. -/
def maxBitWidth (P : AtlasParams) : Nat := bit_width P.MaxTextureSize

/-- The constant `minBitWidth`. -/
def minBitWidth (P : AtlasParams) : Nat := bit_width P.MinTextureSize

/-- The constant `chunkCount`, a 64-bit quotient stored in a `std::uint16_t`. -/
def chunkCount (P : AtlasParams) : Nat :=
  u16 ((P.AtlasSize * P.AtlasSize) / (P.MaxTextureSize * P.MaxTextureSize))

/-- The constant `chunksPerRow`. -/
def chunksPerRow (P : AtlasParams) : Nat := P.AtlasSize / P.MaxTextureSize

/-- The local `managerCount` of the constructor: an `int` stored in a `std::uint16_t`. -/
def managerCount (P : AtlasParams) : Nat := u16 (P.maxBitWidth + 65536 + 1 - P.minBitWidth)

/-- The three `static_assert`s of the class, for `std::uint16_t` parameters: each size is a
power of two. -/
def StaticAsserts (P : AtlasParams) : Prop :=
  (∃ a, a ≤ 15 ∧ P.AtlasSize = 2 ^ a) ∧ (∃ m, m ≤ 15 ∧ P.MaxTextureSize = 2 ^ m) ∧
    (∃ n, n ≤ 15 ∧ P.MinTextureSize = 2 ^ n)

end AtlasParams

namespace TextureAtlas

/-- The constructor `TextureAtlas()`.  The stack gets `chunkCount - 1`, ..., `0` pushed, so `0`
is on top; the managers get the sizes `1 << (width - 1)` for `width` from `minBitWidth` to
`maxBitWidth`, which are below `2 ^ 16`. -/
def construct (P : AtlasParams) : TextureAtlas :=
  { chunks := (List.range P.chunkCount).map fun i => { ChunkID := i, AvailableChunkletIDs := [] }
    managers := (List.range P.managerCount).map fun j =>
      { Size := if P.minBitWidth + j ≤ P.maxBitWidth then 2 ^ (P.minBitWidth + j - 1) else 0
        PartialChunks := [] }
    chunkAssignments := List.replicate P.chunkCount none
    freeChunks := List.range P.chunkCount }

/-- The method `getChunkletCoordinates`; the sums are `int`s, stored in `std::uint16_t`
references. -/
def getChunkletCoordinates (P : AtlasParams) (chunkletSize chunkID chunkletID : Nat) :
    Option (Nat × Nat) :=
  if P.chunksPerRow = 0 ∨ chunkletSize = 0 ∨ P.MaxTextureSize / chunkletSize = 0 then none
  else
    let chunkX := P.MaxTextureSize * (chunkID % P.chunksPerRow)
    let chunkY := P.MaxTextureSize * (chunkID / P.chunksPerRow)
    let chunkletsPerRow := P.MaxTextureSize / chunkletSize
    some (u16 (chunkX + chunkletSize * (chunkletID % chunkletsPerRow)),
      u16 (chunkY + chunkletSize * (chunkletID / chunkletsPerRow)))

/-- The vector that the loop `for (auto i = numOfChunklets - 1; i >= 0; i--) push_back(i)`
appends: the `int`s from `numOfChunklets - 1` down to 0, each converted to `std::uint16_t`. -/
def pushedChunkletIDs (numOfChunklets : Nat) : List Nat :=
  (List.range numOfChunklets).reverse.map u16

/-- The first branch of `Allocate`: `manager.PartialChunks` is not empty. -/
def allocateFromPartialChunk (P : AtlasParams) (atlas : TextureAtlas) (managerIdx : Nat)
    (manager : ChunkManager) (width height size : Nat) : AtlasOutcome :=
  match manager.PartialChunks.getLast? with
  | none => .undefined
  | some back =>
    match atlas.chunks[back]? with
    | none => .undefined
    | some chunk =>
      match chunk.AvailableChunkletIDs.getLast? with
      | none => .undefined
      | some chunkletID =>
        let available := chunk.AvailableChunkletIDs.dropLast
        let managers :=
          if available.isEmpty then
            atlas.managers.set managerIdx
              { manager with PartialChunks := manager.PartialChunks.dropLast }
          else atlas.managers
        match getChunkletCoordinates P manager.Size chunk.ChunkID chunkletID with
        | none => .undefined
        | some (x, y) =>
          .returned
            { ChunkID := chunk.ChunkID, ChunkletID := chunkletID, X := x, Y := y
              Width := width, Height := height, Size := size }
            { atlas with
              chunks := atlas.chunks.set back { chunk with AvailableChunkletIDs := available }
              managers := managers }

/-- The value of `size` after the two tests at the start of `Allocate`, when the first one did
not end the call: `ceil` is `std::bit_ceil(std::max(width, height))`. -/
def chunkletSize (P : AtlasParams) (ceil : Nat) : Nat :=
  if ceil < P.MinTextureSize then P.MinTextureSize else ceil

/-- The local `managerIdx` of `Allocate`: an `int` difference stored in a `std::uint8_t`. -/
def managerIndex (P : AtlasParams) (size : Nat) : Nat :=
  u8 (bit_width size + 256 - P.minBitWidth)

/-- The atlas after the second branch of `Allocate` has claimed the chunk on top of
`freeChunks` and before it calls `Allocate` again. -/
def claimFreeChunk (P : AtlasParams) (atlas : TextureAtlas) (managerIdx : Nat)
    (manager : ChunkManager) (top : Nat) (rest : List Nat) (chunk : Chunk) (size : Nat) :
    TextureAtlas :=
  let numOfChunklets := (P.MaxTextureSize / size) * (P.MaxTextureSize / size)
  { chunks := atlas.chunks.set top
      { chunk with AvailableChunkletIDs :=
          chunk.AvailableChunkletIDs ++ pushedChunkletIDs numOfChunklets }
    managers := atlas.managers.set managerIdx
      { manager with PartialChunks := manager.PartialChunks ++ [chunk.ChunkID] }
    chunkAssignments := atlas.chunkAssignments.set chunk.ChunkID (some managerIdx)
    freeChunks := rest }

/-- The method `TextureAtlas::Allocate(width, height)`, with fuel for its recursion. -/
def AllocateAux (P : AtlasParams) : Nat → TextureAtlas → Nat → Nat → AtlasOutcome
  | 0, _, _, _ => .undefined
  | fuel + 1, atlas, width, height =>
    match bit_ceil (max width height) with
    | none => .undefined
    | some ceil =>
      if ceil > P.MaxTextureSize then .fatal
      else
        let size := chunkletSize P ceil
        let managerIdx := managerIndex P size
        match atlas.managers[managerIdx]? with
        | none => .undefined
        | some manager =>
          if !manager.PartialChunks.isEmpty then
            allocateFromPartialChunk P atlas managerIdx manager width height size
          else
            match atlas.freeChunks with
            | [] => .fatal
            | top :: rest =>
              match atlas.chunks[top]? with
              | none => .undefined
              | some chunk =>
                if chunk.ChunkID < atlas.chunkAssignments.length then
                  AllocateAux P fuel
                    (claimFreeChunk P atlas managerIdx manager top rest chunk size)
                    width height
                else .undefined

/-- The method `TextureAtlas::Allocate(width, height)`: it calls itself at most once, after it
has claimed a free chunk. -/
def Allocate (P : AtlasParams) (atlas : TextureAtlas) (width height : Nat) : AtlasOutcome :=
  AllocateAux P 2 atlas width height

/-- The method `TextureAtlas::Deallocate(chunklet)`; `none` when the call is undefined. -/
def Deallocate (P : AtlasParams) (atlas : TextureAtlas) (chunklet : Chunklet) :
    Option TextureAtlas :=
  match atlas.chunkAssignments[chunklet.ChunkID]? with
  | some (some managerIdx) =>
    match atlas.managers[managerIdx]?, atlas.chunks[chunklet.ChunkID]? with
    | some manager, some chunk =>
      if manager.Size = 0 then none
      else
        let numOfChunklets :=
          (P.MaxTextureSize / manager.Size) * (P.MaxTextureSize / manager.Size)
        let available := chunk.AvailableChunkletIDs ++ [chunklet.ChunkletID]
        if available.length = numOfChunklets then
          some
            { atlas with
              freeChunks := chunklet.ChunkID :: atlas.freeChunks
              chunks := atlas.chunks.set chunklet.ChunkID
                { chunk with AvailableChunkletIDs := [] }
              managers := atlas.managers.set managerIdx
                { manager with
                  PartialChunks := manager.PartialChunks.erase chunklet.ChunkID } }
        else if available.length = 1 then
          some
            { atlas with
              chunks := atlas.chunks.set chunklet.ChunkID
                { chunk with AvailableChunkletIDs := available }
              managers := atlas.managers.set managerIdx
                { manager with
                  PartialChunks := manager.PartialChunks ++ [chunklet.ChunkID] } }
        else
          some
            { atlas with
              chunks := atlas.chunks.set chunklet.ChunkID
                { chunk with AvailableChunkletIDs := available } }
    | _, _ => none
  | _ => none

end TextureAtlas

/-- One call of a client on a `TextureAtlas`. -/
inductive AtlasCall where
  | allocate (width height : Nat)
  | deallocate (chunklet : Chunklet)
deriving DecidableEq, Repr

/-- A `TextureAtlas` together with the client's ledger: the chunklets that `Allocate` returned
and that have not been passed to `Deallocate` since, most recent first. -/
structure AtlasConfig where
  atlas : TextureAtlas
  live : List Chunklet
deriving DecidableEq, Repr

namespace AtlasConfig

/-- The state before the first call. -/
def start (P : AtlasParams) : AtlasConfig :=
  { atlas := TextureAtlas.construct P, live := [] }

/-- One call of a valid call sequence: `Deallocate` is only passed a live chunklet; `none` when
the call is not valid or does not return. -/
def step (P : AtlasParams) (cfg : AtlasConfig) : AtlasCall → Option AtlasConfig
  | .allocate width height =>
    match TextureAtlas.Allocate P cfg.atlas width height with
    | .returned chunklet atlas => some { atlas := atlas, live := chunklet :: cfg.live }
    | _ => none
  | .deallocate chunklet =>
    if chunklet ∈ cfg.live then
      match TextureAtlas.Deallocate P cfg.atlas chunklet with
      | some atlas => some { atlas := atlas, live := cfg.live.erase chunklet }
      | none => none
    else none

/-- A call sequence on the atlas, run from `cfg`. -/
def run (P : AtlasParams) : AtlasConfig → List AtlasCall → Option AtlasConfig
  | cfg, [] => some cfg
  | cfg, call :: calls =>
    match step P cfg call with
    | some next => run P next calls
    | none => none

end AtlasConfig

namespace AtlasParams

/-- The size that the constructor gives the manager with index `j`: `1 << (width - 1)` for
`width = minBitWidth + j`. -/
def managerSize (P : AtlasParams) (j : Nat) : Nat := 2 ^ (P.minBitWidth + j - 1)

/-- The number of chunklets of a chunk that is assigned to the manager with index `j`. -/
def chunkletsOf (P : AtlasParams) (j : Nat) : Nat :=
  (P.MaxTextureSize / P.managerSize j) * (P.MaxTextureSize / P.managerSize j)

end AtlasParams

/-- The number of live chunklets of the chunk `c`. -/
def liveCount (live : List Chunklet) (c : Nat) : Nat :=
  live.countP fun k => decide (k.ChunkID = c)

/-- The invariant of a `TextureAtlas` and its client, for `MinTextureSize <= MaxTextureSize`.
The arrays have their lengths and fixed fields; a chunk is either on the `freeChunks` stack,
with nothing available and nothing live, or assigned to one manager, with available and live
chunklets adding up to the chunklets of that manager's size, and it is in the manager's
`PartialChunks`, once, exactly when something is available. -/
structure AtlasConfig.Inv (P : AtlasParams) (cfg : AtlasConfig) : Prop where
  chunks_length : cfg.atlas.chunks.length = P.chunkCount
  chunk_id : ∀ (i : Nat) (chunk : Chunk), cfg.atlas.chunks[i]? = some chunk → chunk.ChunkID = i
  assignments_length : cfg.atlas.chunkAssignments.length = P.chunkCount
  managers_length : cfg.atlas.managers.length = P.managerCount
  manager_size : ∀ (j : Nat) (manager : ChunkManager), cfg.atlas.managers[j]? = some manager →
    manager.Size = P.managerSize j
  free_nodup : cfg.atlas.freeChunks.Nodup
  free_lt : ∀ c ∈ cfg.atlas.freeChunks, c < P.chunkCount
  free_available : ∀ (c : Nat) (chunk : Chunk), c ∈ cfg.atlas.freeChunks → cfg.atlas.chunks[c]? = some chunk →
    chunk.AvailableChunkletIDs = []
  free_live : ∀ c ∈ cfg.atlas.freeChunks, ∀ k ∈ cfg.live, k.ChunkID ≠ c
  partial_nodup : ∀ (j : Nat) (manager : ChunkManager), cfg.atlas.managers[j]? = some manager →
    manager.PartialChunks.Nodup
  partial_chunk : ∀ (j : Nat) (manager : ChunkManager) (c : Nat), cfg.atlas.managers[j]? = some manager →
    c ∈ manager.PartialChunks →
    c ∉ cfg.atlas.freeChunks ∧ cfg.atlas.chunkAssignments[c]? = some (some j) ∧
      ∃ chunk : Chunk, cfg.atlas.chunks[c]? = some chunk ∧ chunk.AvailableChunkletIDs ≠ []
  assigned : ∀ (c : Nat) (chunk : Chunk), cfg.atlas.chunks[c]? = some chunk → c ∉ cfg.atlas.freeChunks →
    ∃ (j : Nat) (manager : ChunkManager), cfg.atlas.chunkAssignments[c]? = some (some j) ∧
      cfg.atlas.managers[j]? = some manager ∧
      chunk.AvailableChunkletIDs.length + liveCount cfg.live c = P.chunkletsOf j ∧
      (∀ id ∈ chunk.AvailableChunkletIDs, id < P.chunkletsOf j) ∧
      (chunk.AvailableChunkletIDs ≠ [] → c ∈ manager.PartialChunks)
  live_chunklet : ∀ k ∈ cfg.live, k.ChunkID < P.chunkCount ∧
    ∃ j, cfg.atlas.chunkAssignments[k.ChunkID]? = some (some j) ∧ j < P.managerCount ∧
      k.Size = P.managerSize j ∧ k.ChunkletID < P.chunkletsOf j

/-- What a chunklet that `Allocate(width, height)` returns looks like. -/
def Chunklet.Answers (P : AtlasParams) (c : Chunklet) (width height : Nat) : Prop :=
  ∃ ceil, bit_ceil (max width height) = some ceil ∧ ¬ ceil > P.MaxTextureSize ∧
    c.Size = TextureAtlas.chunkletSize P ceil ∧
    c.Size = P.managerSize (TextureAtlas.managerIndex P c.Size) ∧
    TextureAtlas.managerIndex P c.Size < P.managerCount ∧
    c.ChunkID < P.chunkCount ∧
    c.ChunkletID < (P.MaxTextureSize / c.Size) * (P.MaxTextureSize / c.Size) ∧
    TextureAtlas.getChunkletCoordinates P c.Size c.ChunkID c.ChunkletID = some (c.X, c.Y) ∧
    c.Width = width ∧ c.Height = height

/-- The chunklet a call of `Allocate` returned, if it returned. -/
def AtlasOutcome.chunklet? : AtlasOutcome → Option Chunklet
  | .returned chunklet _ => some chunklet
  | _ => none

/-- The spec's "next power of two `p >= x`": `p` is the least power of two that is at least
`x`. -/
def IsNextPowerOfTwo (p x : Nat) : Prop :=
  (∃ k, p = 2 ^ k) ∧ x ≤ p ∧ ∀ q, (∃ k, q = 2 ^ k) → x ≤ q → p ≤ q

/-- The state of an atlas in which nothing is live, no manager has a partial chunk, and the
chunk `c` is on top of the `freeChunks` stack. -/
structure AtlasConfig.Idle (P : AtlasParams) (cfg : AtlasConfig) (c : Nat) (rest : List Nat) :
    Prop where
  inv : cfg.Inv P
  live : cfg.live = []
  free : cfg.atlas.freeChunks = c :: rest
  partials : ∀ (j : Nat) (m : ChunkManager), cfg.atlas.managers[j]? = some m →
    m.PartialChunks = []

/-- The state of an atlas whose only chunk in use is `c`, assigned to the manager `idx`: every
live chunklet is in `c`, no other chunk is in a partial list, and the stack is `rest`. -/
structure AtlasConfig.Solo (P : AtlasParams) (cfg : AtlasConfig) (c idx : Nat)
    (rest : List Nat) : Prop where
  inv : cfg.Inv P
  free : cfg.atlas.freeChunks = rest
  not_free : c ∉ rest
  assigned : cfg.atlas.chunkAssignments[c]? = some (some idx)
  partials : ∀ (j : Nat) (m : ChunkManager) (d : Nat), cfg.atlas.managers[j]? = some m →
    d ∈ m.PartialChunks → d = c
  live_chunk : ∀ k ∈ cfg.live, k.ChunkID = c

/-- The state of an atlas while the chunk `c` is handed out chunklet by chunklet and none has
come back: what is still available, followed by the IDs of the live chunklets, is the vector
that the claim of the chunk filled. -/
structure AtlasConfig.Filling (P : AtlasParams) (cfg : AtlasConfig) (c idx : Nat)
    (rest : List Nat) extends AtlasConfig.Solo P cfg c idx rest : Prop where
  ids : ∃ chunk : Chunk, cfg.atlas.chunks[c]? = some chunk ∧
    chunk.AvailableChunkletIDs ++ cfg.live.map (fun k => k.ChunkletID)
      = TextureAtlas.pushedChunkletIDs (P.chunkletsOf idx)
  coords : ∀ k ∈ cfg.live,
    TextureAtlas.getChunkletCoordinates P k.Size k.ChunkID k.ChunkletID = some (k.X, k.Y)

/-- A request `(width, height)` that `Allocate` serves from the manager `idx`. -/
def AtlasParams.InClass (P : AtlasParams) (idx width height : Nat) : Prop :=
  ∃ ceil, bit_ceil (max width height) = some ceil ∧ ¬ ceil > P.MaxTextureSize ∧
    TextureAtlas.managerIndex P (TextureAtlas.chunkletSize P ceil) = idx

/-- The index `i` lies in one of the ranges of the list `l`. -/
def isFreeIndex (l : List Section) (i : Nat) : Bool :=
  l.any fun s => decide (s.Index ≤ i) && decide (i < s.Index + s.Count)

namespace PoolLayout

/-- The address of the first slot of the `k`-th block: `body + bodyPadding` in
`allocateBlock`. -/
def firstSlot (L : PoolLayout) (k : Nat) : Nat :=
  L.operatorNew k + L.pointerSize
    + MemoryPool.padPointer (L.operatorNew k + L.pointerSize) L.slotAlign

/-- The number of slots that the `k`-th block holds: the slots from `firstSlot` on that end
inside the block. -/
def slotsInBlock (L : PoolLayout) (k : Nat) : Nat :=
  (L.operatorNew k + L.BlockSize - L.firstSlot k) / L.slotSize

end PoolLayout

/-- The number of slots of the current block that `Allocate` has handed out: the slots between
the first slot of the block and `currentSlot_`. -/
def MemoryPool.issued (L : PoolLayout) (pool : MemoryPool) : Nat :=
  (pool.currentSlot_ - L.firstSlot (pool.currentBlock_.length - 1)) / L.slotSize

/-- Where `currentSlot_` stands when every block holds `K` slots: there is no block and the
three pointers are null, or `j` slots of the newest block have been handed out, for some `j`
from 1 to `K`. -/
def PoolConfig.Fill (L : PoolLayout) (K : Nat) (cfg : PoolConfig) : Prop :=
  (cfg.pool.currentBlock_ = [] ∧ cfg.pool.currentSlot_ = 0 ∧ cfg.pool.lastSlot_ = 0) ∨
  ∃ k j, cfg.pool.currentBlock_.length = k + 1 ∧ 1 ≤ j ∧ j ≤ K ∧
    cfg.pool.currentSlot_ = L.firstSlot k + j * L.slotSize ∧
    cfg.pool.lastSlot_ = L.operatorNew k + L.BlockSize - L.slotSize + 1

/-!
The free-slot list of `MemoryPool` at the level of pointers.

`freeSlots_` is a pointer and the list is threaded through the freed slots themselves: `next a`
is the `next` member of the slot at the address `a`.  `Deallocate(p)` writes that member of `p`
whether or not `p` is in the list already.  The blocks are counted, not chained.
-/

/-- The members of `MemoryPool` as pointers, the `next` members of the slots, and the number of
calls of `operator new` so far. -/
structure PoolHeap where
  currentBlock_ : Nat
  currentSlot_ : Nat
  lastSlot_ : Nat
  freeSlots_ : Nat
  next : Nat → Nat
  newCalls : Nat

namespace PoolHeap

/-- The default constructor `MemoryPool()`, on a heap with the contents `heap`. -/
def construct (heap : Nat → Nat) : PoolHeap :=
  { currentBlock_ := 0, currentSlot_ := 0, lastSlot_ := 0, freeSlots_ := 0, next := heap
    newCalls := 0 }

/-- The assignment `a->next = v`. -/
def store (next : Nat → Nat) (a v : Nat) : Nat → Nat :=
  fun x => if x = a then v else next x

/-- The method `allocateBlock()`. -/
def allocateBlock (L : PoolLayout) (h : PoolHeap) : PoolHeap :=
  let newBlock := L.operatorNew h.newCalls
  let body := newBlock + L.pointerSize
  let bodyPadding := MemoryPool.padPointer body L.slotAlign
  { h with
    next := store h.next newBlock h.currentBlock_
    currentBlock_ := newBlock
    currentSlot_ := body + bodyPadding
    lastSlot_ := newBlock + L.BlockSize - L.slotSize + 1
    newCalls := h.newCalls + 1 }

/-- The method `MemoryPool::Allocate()`: the returned pointer and the pool afterwards. -/
def Allocate (L : PoolLayout) (h : PoolHeap) : Nat × PoolHeap :=
  if h.freeSlots_ ≠ 0 then (h.freeSlots_, { h with freeSlots_ := h.next h.freeSlots_ })
  else
    let grown := if h.currentSlot_ ≥ h.lastSlot_ then allocateBlock L h else h
    (grown.currentSlot_, { grown with currentSlot_ := grown.currentSlot_ + L.slotSize })

/-- The method `MemoryPool::Deallocate(p)`. -/
def Deallocate (h : PoolHeap) (p : Nat) : PoolHeap :=
  if p ≠ 0 then { h with next := store h.next p h.freeSlots_, freeSlots_ := p } else h

/-- The slots reached from the pointer `a` through `next`, at most `fuel` of them. -/
def chain (next : Nat → Nat) : Nat → Nat → List Nat
  | 0, _ => []
  | fuel + 1, a => if a = 0 then [] else a :: chain next fuel (next a)

/-- The first `fuel` slots of the free-slot list. -/
def freeList (fuel : Nat) (h : PoolHeap) : List Nat := chain h.next fuel h.freeSlots_

/-- The list that starts at the pointer `a` consists of the slots `l` and ends there with a null
pointer. -/
def LinkedAs (next : Nat → Nat) : Nat → List Nat → Prop
  | a, [] => a = 0
  | a, b :: rest => a = b ∧ b ≠ 0 ∧ LinkedAs next (next b) rest

end PoolHeap

/-- A `PoolHeap` together with the client's ledgers: the handles that `Allocate` returned and
that have not been passed to `Deallocate` since, and the slots that were passed to `Deallocate`
and that `Allocate` has not returned since, each most recent first. -/
structure HeapConfig where
  heap : PoolHeap
  live : List Nat
  freed : List Nat

namespace HeapConfig

/-- The state before the first call. -/
def start (heap : Nat → Nat) : HeapConfig :=
  { heap := PoolHeap.construct heap, live := [], freed := [] }

/-- One call of a valid call sequence: `Deallocate` is only passed a live, non-null handle. -/
def step (L : PoolLayout) (cfg : HeapConfig) : PoolCall → Option HeapConfig
  | .allocate =>
    let r := PoolHeap.Allocate L cfg.heap
    some { heap := r.2, live := r.1 :: cfg.live, freed := cfg.freed.erase r.1 }
  | .deallocate p =>
    if p ≠ 0 ∧ p ∈ cfg.live then
      some { heap := PoolHeap.Deallocate cfg.heap p, live := cfg.live.erase p
             freed := p :: cfg.freed }
    else none

/-- A call sequence on the pool, run from `cfg`. -/
def run (L : PoolLayout) : HeapConfig → List PoolCall → Option HeapConfig
  | cfg, [] => some cfg
  | cfg, call :: calls =>
    match step L cfg call with
    | some next => run L next calls
    | none => none

/-- The pool of lists describes the pool of pointers: same ledger of live handles, same
pointers into the current block, one block per call of `operator new`, and the free-slot list
of the one is the list that the other reaches from `freeSlots_`, which is the ledger of freed
slots. -/
def Matches (hc : HeapConfig) (pc : PoolConfig) : Prop :=
  pc.live = hc.live ∧ pc.pool.freeSlots_ = hc.freed ∧
  PoolHeap.LinkedAs hc.heap.next hc.heap.freeSlots_ hc.freed ∧
  pc.pool.currentSlot_ = hc.heap.currentSlot_ ∧ pc.pool.lastSlot_ = hc.heap.lastSlot_ ∧
  pc.pool.currentBlock_.length = hc.heap.newCalls

end HeapConfig

/-- Every chunk that is not on the `freeChunks` stack holds a live chunklet. -/
def AtlasConfig.Busy (cfg : AtlasConfig) : Prop :=
  ∀ c, c < cfg.atlas.chunks.length → c ∉ cfg.atlas.freeChunks → 1 ≤ liveCount cfg.live c

/-! Lemmas. -/

theorem countSum_nil : countSum [] = 0 := rfl

theorem countSum_cons (x : Section) (l : List Section) :
    countSum (x :: l) = x.Count + countSum l := by
  simp [countSum]

theorem countSum_append (a b : List Section) :
    countSum (a ++ b) = countSum a + countSum b := by
  simp [countSum]

theorem massBelow_nil (p : Nat) : massBelow p [] = 0 := rfl

theorem massBelow_cons (p : Nat) (x : Section) (l : List Section) :
    massBelow p (x :: l) = (if x.Index < p then x.Count else 0) + massBelow p l := by
  by_cases h : x.Index < p <;> simp [massBelow, List.filter_cons, h]

theorem massBelow_append (p : Nat) (a b : List Section) :
    massBelow p (a ++ b) = massBelow p a + massBelow p b := by
  simp [massBelow, List.filter_append]

theorem countSum_erase (s : Section) :
    ∀ l : List Section, s ∈ l → countSum l = s.Count + countSum (l.erase s) := by
  intro l
  induction l with
  | nil => intro h; simp at h
  | cons x l ih =>
    intro h
    by_cases hx : x = s
    · subst hx; simp [countSum_cons]
    · have hs : s ∈ l := by
        rcases List.mem_cons.1 h with h | h
        · exact absurd h.symm hx
        · exact h
      have hb : (x == s) = false := by simpa using hx
      rw [List.erase_cons, hb]
      simp only [Bool.false_eq_true, if_false, countSum_cons, ih hs]
      omega

theorem massBelow_erase (p : Nat) (s : Section) :
    ∀ l : List Section, s ∈ l →
      massBelow p l = (if s.Index < p then s.Count else 0) + massBelow p (l.erase s) := by
  intro l
  induction l with
  | nil => intro h; simp at h
  | cons x l ih =>
    intro h
    by_cases hx : x = s
    · subst hx; simp [massBelow_cons]
    · have hs : s ∈ l := by
        rcases List.mem_cons.1 h with h | h
        · exact absurd h.symm hx
        · exact h
      have hb : (x == s) = false := by simpa using hx
      rw [List.erase_cons, hb]
      simp only [Bool.false_eq_true, if_false, massBelow_cons, ih hs]
      omega

theorem massBelow_mono {q p : Nat} (h : q ≤ p) :
    ∀ l : List Section, massBelow q l ≤ massBelow p l := by
  intro l
  induction l with
  | nil => simp [massBelow_nil]
  | cons x l ih =>
    simp only [massBelow_cons]
    by_cases h1 : x.Index < q
    · have h2 : x.Index < p := by omega
      simp [h1, h2, ih]
    · simp only [h1, if_false]
      omega

/-- A section that starts in `[q, p)` is counted below `p` and not below `q`. -/
theorem massBelow_add_mem {q p : Nat} (x : Section) (hq : q ≤ x.Index) (hp : x.Index < p) :
    ∀ l : List Section, x ∈ l → massBelow q l + x.Count ≤ massBelow p l := by
  intro l
  induction l with
  | nil => intro h; simp at h
  | cons y l ih =>
    intro h
    have hqp : q ≤ p := by omega
    simp only [massBelow_cons]
    rcases List.mem_cons.1 h with rfl | h
    · have h1 : ¬ x.Index < q := by omega
      have := massBelow_mono hqp l
      simp only [h1, hp, if_false, if_true]
      omega
    · have := ih h
      by_cases h1 : y.Index < q
      · have h2 : y.Index < p := by omega
        simp only [h1, h2, if_true]; omega
      · simp only [h1, if_false]; omega

theorem massBelow_add_le_countSum (x : Section) :
    ∀ l : List Section, x ∈ l → massBelow x.Index l + x.Count ≤ countSum l := by
  intro l
  induction l with
  | nil => intro h; simp at h
  | cons y l ih =>
    intro h
    simp only [massBelow_cons, countSum_cons]
    have hle : massBelow x.Index l ≤ countSum l := by
      clear ih h
      induction l with
      | nil => simp [massBelow_nil, countSum_nil]
      | cons z l ih2 =>
        simp only [massBelow_cons, countSum_cons]
        split <;> omega
    rcases List.mem_cons.1 h with rfl | h
    · simp only [lt_self_iff_false, if_false]; omega
    · have := ih h
      split <;> omega

theorem FreeList.search_first (count : Nat) (n : Section) (after : List Section)
    (hn : count ≤ n.Count) :
    ∀ (before : List Section) (hasPrevious : Bool), (∀ m ∈ before, m.Count < count) →
      FreeList.search count hasPrevious (before ++ n :: after) =
        some (⟨n.Index, count⟩,
          before ++ (if n.Count = count ∧ (hasPrevious = true ∨ before ≠ [] ∨ after ≠ []) then after
            else ⟨n.Index + count, n.Count - count⟩ :: after)) := by
  intro before
  induction before with
  | nil =>
    intro hp _
    have hz : n.Count - count = 0 ↔ n.Count = count := by omega
    cases hp <;> cases after <;> by_cases hc : n.Count = count <;>
      simp [FreeList.search, hn, hz, hc]
  | cons m before ih =>
    intro hp hb
    have hm : ¬ count ≤ m.Count := by
      have := hb m (List.mem_cons_self _ _); omega
    have ih' := ih true (fun x hx => hb x (List.mem_cons_of_mem _ hx))
    simp only [List.cons_append, FreeList.search, ge_iff_le, hm, if_false, List.append_eq]
    rw [ih']
    simp

theorem FreeList.search_eq_none (count : Nat) :
    ∀ (l : List Section) (hasPrevious : Bool),
      FreeList.search count hasPrevious l = none ↔ ∀ n ∈ l, n.Count < count := by
  intro l
  induction l with
  | nil => intro hp; simp [FreeList.search]
  | cons m l ih =>
    intro hp
    by_cases hm : count ≤ m.Count
    · have : FreeList.search count hp (m :: l) ≠ none := by
        have := FreeList.search_first count m l hm [] hp (by simp)
        simp only [List.nil_append] at this
        rw [this]; simp
      constructor
      · intro h; exact absurd h this
      · intro h; have := h m (List.mem_cons_self _ _); omega
    · have hrec := ih true
      simp only [FreeList.search, ge_iff_le, hm, if_false]
      cases hs : FreeList.search count true l with
      | none =>
        simp only [true_iff]
        intro n hn
        rcases List.mem_cons.1 hn with rfl | hn
        · omega
        · exact (hrec.1 hs) n hn
      | some r =>
        constructor
        · intro h; simp at h
        · intro h
          have := hrec.2 (fun n hn => h n (List.mem_cons_of_mem _ hn))
          rw [hs] at this; exact absurd this (by simp)

theorem FreeListNonBacking.search_eq (count : Nat) :
    ∀ (l : List Section) (hasPrevious : Bool),
      FreeListNonBacking.search count hasPrevious l = FreeList.search count hasPrevious l := by
  intro l
  induction l with
  | nil => intro hp; rfl
  | cons m l ih =>
    intro hp
    simp only [FreeListNonBacking.search, FreeList.search, ih]

theorem FreeList.allocateLoop_first {T : Type} (fl : FreeList T) (fuel count : Nat)
    (before : List Section) (n : Section) (after : List Section)
    (hhead : fl.head = before ++ n :: after) (hb : ∀ m ∈ before, m.Count < count)
    (hn : count ≤ n.Count) :
    FreeList.allocateLoop count (fuel + 1) fl =
      .ok (⟨n.Index, count⟩,
        { fl with head := before ++ (if n.Count = count ∧ (before ≠ [] ∨ after ≠ []) then after
            else ⟨n.Index + count, n.Count - count⟩ :: after) }) := by
  have h := FreeList.search_first count n after hn before false hb
  simp only [FreeList.allocateLoop, hhead, h]
  simp

theorem FreeList.Allocate_first {T : Type} (fl : FreeList T) (fuel count : Nat)
    (before : List Section) (n : Section) (after : List Section)
    (hcount : 0 < count)
    (hhead : fl.head = before ++ n :: after) (hb : ∀ m ∈ before, m.Count < count)
    (hn : count ≤ n.Count) :
    FreeList.Allocate (fuel + 1) fl count =
      .ok (⟨n.Index, count⟩,
        { head := before ++ (if n.Count = count ∧ (before ≠ [] ∨ after ≠ []) then after
            else ⟨n.Index + count, n.Count - count⟩ :: after)
          data := fl.data
          totalCount := fl.totalCount }) := by
  have h := FreeList.allocateLoop_first fl fuel count before n after hhead hb hn
  have hc : count ≠ 0 := by omega
  simp only [FreeList.Allocate, hc, if_false, h]

theorem FreeList.growData_getElem? {T : Type} (data : List (Option T)) (i : Nat)
    (hi : i < data.length) :
    (FreeList.growData data data.length)[i]? = data[i]? := by
  have h2 : i < data.length * 2 := by omega
  simp [FreeList.growData, List.getElem?_map, List.getElem?_range, hi, h2, List.getD_eq_getElem?_getD]

theorem FreeList.growData_length {T : Type} (data : List (Option T)) (n : Nat) :
    (FreeList.growData data n).length = n * 2 := by
  simp [FreeList.growData]

theorem FreeList.Allocate_after_full {T : Type} (N fuel : Nat) (hN : 1 ≤ N)
    (contents : List (Option T)) :
    FreeList.Allocate (fuel + 2) { head := [⟨N, 0⟩], data := contents, totalCount := N } 1 =
      .ok (⟨N, 1⟩,
        { head := [⟨N + 1, N - 1⟩]
          data := FreeList.growData contents N
          totalCount := N * 2 }) := by
  have hs : FreeList.search 1 false [(⟨N, 0⟩ : Section)] = none := by
    simp [FreeList.search]
  have hl := FreeList.allocateLoop_first
    ({ head := [⟨N, 0 + N⟩], data := FreeList.growData contents N, totalCount := N * 2 } :
      FreeList T) fuel 1 [] ⟨N, 0 + N⟩ [] rfl (by simp) (by simp; omega)
  simp only [FreeList.Allocate, one_ne_zero, if_false]
  rw [FreeList.allocateLoop]
  simp only [hs, FreeList.extendLast]
  rw [hl]
  simp


theorem Balanced.end_le {items : List Section} {total : Nat} (h : Balanced items total)
    {x : Section} (hx : x ∈ items) : x.Index + x.Count ≤ total := by
  have h1 := h.2 x hx
  have h2 := massBelow_add_le_countSum x items hx
  have h3 := h.1
  omega

/-- Sections may be merged or enlarged as long as no start index is invented and nothing moves
to the right. -/
theorem Balanced.transfer {items items' : List Section} {total total' : Nat}
    (h : Balanced items total) (hsum : countSum items' = total')
    (hmass : ∀ p, massBelow p items ≤ massBelow p items')
    (hidx : ∀ x ∈ items', ∃ y ∈ items, y.Index = x.Index) : Balanced items' total' := by
  refine ⟨hsum, ?_⟩
  intro x hx
  obtain ⟨y, hy, hyx⟩ := hidx x hx
  have h1 := h.2 y hy
  have h2 := hmass x.Index
  rw [hyx] at h1
  omega

theorem FreeList.search_some {count : Nat} :
    ∀ (l : List Section) (hasPrevious : Bool) (ret : Section) (rest : List Section),
      FreeList.search count hasPrevious l = some (ret, rest) →
      ∃ (before : List Section) (n : Section) (after : List Section),
        l = before ++ n :: after ∧ (∀ m ∈ before, m.Count < count) ∧ count ≤ n.Count ∧
        ret = ⟨n.Index, count⟩ ∧
        (rest = before ++ after ∧ n.Count = count ∨
          rest = before ++ ⟨n.Index + count, n.Count - count⟩ :: after) := by
  intro l
  induction l with
  | nil => intro hp ret rest h; simp [FreeList.search] at h
  | cons m l ih =>
    intro hp ret rest h
    by_cases hm : count ≤ m.Count
    · have hf := FreeList.search_first count m l hm [] hp (by simp)
      rw [List.nil_append] at hf
      rw [hf] at h
      simp only [Option.some.injEq, Prod.mk.injEq] at h
      refine ⟨[], m, l, rfl, by simp, hm, h.1.symm, ?_⟩
      rw [← h.2]
      split
      · next hc => exact Or.inl ⟨by simp, hc.1⟩
      · exact Or.inr (by simp)
    · simp only [FreeList.search, ge_iff_le, hm, if_false] at h
      cases hs : FreeList.search count true l with
      | none => rw [hs] at h; simp at h
      | some r =>
        obtain ⟨ret', rest'⟩ := r
        rw [hs] at h
        simp only [Option.some.injEq, Prod.mk.injEq] at h
        obtain ⟨before, n, after, hl, hb, hn, hret, hrest⟩ := ih true ret' rest' hs
        refine ⟨m :: before, n, after, by simp [hl], ?_, hn, by rw [← h.1, hret], ?_⟩
        · intro x hx
          rcases List.mem_cons.1 hx with rfl | hx
          · omega
          · exact hb x hx
        · rw [← h.2]
          rcases hrest with ⟨h1, h2⟩ | h1
          · exact Or.inl ⟨by simp [h1], h2⟩
          · exact Or.inr (by simp [h1])

theorem FreeList.extendLast_concat (amount : Nat) (last : Section) :
    ∀ init : List Section,
      FreeList.extendLast amount (init ++ [last]) =
        some (init ++ [⟨last.Index, last.Count + amount⟩]) := by
  intro init
  induction init with
  | nil => simp [FreeList.extendLast]
  | cons x init ih =>
    cases init with
    | nil => simp [FreeList.extendLast]
    | cons y init =>
      simp only [List.cons_append] at ih ⊢
      rw [FreeList.extendLast, ih]

theorem FreeList.extendLast_some {amount : Nat} {l grown : List Section}
    (h : FreeList.extendLast amount l = some grown) :
    ∃ (init : List Section) (last : Section),
      l = init ++ [last] ∧ grown = init ++ [⟨last.Index, last.Count + amount⟩] := by
  rcases List.eq_nil_or_concat l with rfl | ⟨init, last, rfl⟩
  · simp [FreeList.extendLast] at h
  · rw [List.concat_eq_append] at h ⊢
    rw [FreeList.extendLast_concat] at h
    exact ⟨init, last, rfl, by simpa using h.symm⟩

theorem FreeList.deallocateAfter_countSum (s : Section) :
    ∀ (l : List Section) (previous : Section),
      countSum (FreeList.deallocateAfter s previous l) = countSum (previous :: l) + s.Count := by
  intro l
  induction l with
  | nil =>
    intro previous
    by_cases h : previous.Index + s.Count = s.Index <;>
      simp [FreeList.deallocateAfter, h, countSum_cons, countSum_nil]
  | cons c l ih =>
    intro previous
    by_cases h1 : s.Index > c.Index
    · simp only [FreeList.deallocateAfter, h1, if_true, countSum_cons, ih c]
      omega
    · by_cases h2 : s.Index + s.Count = c.Index
      · simp only [FreeList.deallocateAfter, h1, h2, if_true, if_false, countSum_cons]
        omega
      · by_cases h3 : previous.Index + previous.Count = s.Index
        · simp only [FreeList.deallocateAfter, h1, h2, h3, if_true, if_false, countSum_cons]
          omega
        · simp only [FreeList.deallocateAfter, h1, h2, h3, if_false, countSum_cons]
          omega

theorem FreeList.deallocateAfter_massBelow (s : Section) (p : Nat) :
    ∀ (l : List Section) (previous : Section),
      massBelow p (previous :: l) + (if s.Index < p then s.Count else 0) ≤
        massBelow p (FreeList.deallocateAfter s previous l) := by
  intro l
  induction l with
  | nil =>
    intro previous
    by_cases h : previous.Index + s.Count = s.Index
    · simp only [FreeList.deallocateAfter, h, if_true, massBelow_cons, massBelow_nil]
      split_ifs <;> omega
    · simp only [FreeList.deallocateAfter, h, if_false, massBelow_cons, massBelow_nil]
      split_ifs <;> omega
  | cons c l ih =>
    intro previous
    by_cases h1 : s.Index > c.Index
    · have := ih c
      simp only [FreeList.deallocateAfter, h1, if_true, massBelow_cons] at this ⊢
      omega
    · by_cases h2 : s.Index + s.Count = c.Index
      · simp only [FreeList.deallocateAfter, h1, h2, if_true, if_false, massBelow_cons]
        split_ifs <;> omega
      · by_cases h3 : previous.Index + previous.Count = s.Index
        · simp only [FreeList.deallocateAfter, h1, h2, h3, if_true, if_false, massBelow_cons]
          split_ifs <;> omega
        · simp only [FreeList.deallocateAfter, h1, h2, h3, if_false, massBelow_cons]
          split_ifs <;> omega

theorem FreeList.deallocateAfter_index (s : Section) :
    ∀ (l : List Section) (previous : Section),
      ∀ x ∈ FreeList.deallocateAfter s previous l,
        x.Index = s.Index ∨ ∃ y ∈ previous :: l, y.Index = x.Index := by
  intro l
  induction l with
  | nil =>
    intro previous x hx
    by_cases h : previous.Index + s.Count = s.Index
    · simp only [FreeList.deallocateAfter, h, if_true, List.mem_singleton] at hx
      subst hx
      exact Or.inr ⟨previous, by simp, rfl⟩
    · simp only [FreeList.deallocateAfter, h, if_false, List.mem_cons, List.mem_singleton,
        List.not_mem_nil, or_false] at hx
      rcases hx with rfl | rfl
      · exact Or.inr ⟨x, by simp, rfl⟩
      · exact Or.inl rfl
  | cons c l ih =>
    intro previous x hx
    by_cases h1 : s.Index > c.Index
    · simp only [FreeList.deallocateAfter, h1, if_true, List.mem_cons] at hx
      rcases hx with rfl | hx
      · exact Or.inr ⟨x, by simp, rfl⟩
      · rcases ih c x hx with h | ⟨y, hy, hyx⟩
        · exact Or.inl h
        · exact Or.inr ⟨y, List.mem_cons_of_mem _ hy, hyx⟩
    · by_cases h2 : s.Index + s.Count = c.Index
      · simp only [FreeList.deallocateAfter, h1, h2, if_true, if_false, List.mem_cons] at hx
        rcases hx with rfl | rfl | hx
        · exact Or.inr ⟨x, by simp, rfl⟩
        · exact Or.inl rfl
        · exact Or.inr ⟨x, by simp [hx], rfl⟩
      · by_cases h3 : previous.Index + previous.Count = s.Index
        · simp only [FreeList.deallocateAfter, h1, h2, h3, if_true, if_false,
            List.mem_cons] at hx
          rcases hx with rfl | rfl | hx
          · exact Or.inr ⟨previous, by simp, rfl⟩
          · exact Or.inr ⟨x, by simp, rfl⟩
          · exact Or.inr ⟨x, by simp [hx], rfl⟩
        · simp only [FreeList.deallocateAfter, h1, h2, h3, if_false, List.mem_cons] at hx
          rcases hx with rfl | rfl | rfl | hx
          · exact Or.inr ⟨x, by simp, rfl⟩
          · exact Or.inl rfl
          · exact Or.inr ⟨x, by simp, rfl⟩
          · exact Or.inr ⟨x, by simp [hx], rfl⟩

theorem FreeList.deallocateList_ok (s : Section) {l rest : List Section}
    (h : FreeList.deallocateList s l = .ok rest) :
    countSum rest = countSum l + s.Count ∧
    (∀ p, massBelow p l + (if s.Index < p then s.Count else 0) ≤ massBelow p rest) ∧
    (∀ x ∈ rest, x.Index = s.Index ∨ ∃ y ∈ l, y.Index = x.Index) := by
  cases l with
  | nil => simp [FreeList.deallocateList] at h
  | cons c l =>
    by_cases h1 : s.Index > c.Index
    · simp only [FreeList.deallocateList, h1, if_true, Except.ok.injEq] at h
      subst h
      exact ⟨FreeList.deallocateAfter_countSum s l c,
        fun p => FreeList.deallocateAfter_massBelow s p l c,
        FreeList.deallocateAfter_index s l c⟩
    · by_cases h2 : s.Index + s.Count = c.Index
      · simp only [FreeList.deallocateList, h1, h2, if_true, if_false, Except.ok.injEq] at h
        subst h
        refine ⟨by simp only [countSum_cons]; omega, ?_, ?_⟩
        · intro p
          simp only [massBelow_cons]
          split_ifs <;> omega
        · intro x hx
          rcases List.mem_cons.1 hx with rfl | hx
          · exact Or.inl rfl
          · exact Or.inr ⟨x, List.mem_cons_of_mem _ hx, rfl⟩
      · simp only [FreeList.deallocateList, h1, h2, if_false, Except.ok.injEq] at h
        subst h
        refine ⟨by simp only [countSum_cons]; omega, ?_, ?_⟩
        · intro p
          simp only [massBelow_cons]
          split_ifs <;> omega
        · intro x hx
          rcases List.mem_cons.1 hx with rfl | hx
          · exact Or.inl rfl
          · exact Or.inr ⟨x, hx, rfl⟩

theorem Balanced.deallocate {head live rest : List Section} {total : Nat} {s : Section}
    (h : Balanced (head ++ live) total) (hs : s ∈ live)
    (hd : FreeList.deallocateList s head = .ok rest) :
    Balanced (rest ++ live.erase s) total := by
  obtain ⟨h1, h2, h3⟩ := FreeList.deallocateList_ok s hd
  refine h.transfer ?_ ?_ ?_
  · have := countSum_erase s live hs
    have := h.1
    simp only [countSum_append] at *
    omega
  · intro p
    have := massBelow_erase p s live hs
    have := h2 p
    simp only [massBelow_append]
    omega
  · intro x hx
    rcases List.mem_append.1 hx with hx | hx
    · rcases h3 x hx with h | ⟨y, hy, hyx⟩
      · exact ⟨s, List.mem_append_right _ hs, h.symm⟩
      · exact ⟨y, List.mem_append_left _ hy, hyx⟩
    · exact ⟨x, List.mem_append_right _ (List.mem_of_mem_erase hx), rfl⟩

theorem Balanced.grow {head live grown : List Section} {total : Nat}
    (h : Balanced (head ++ live) total)
    (hg : FreeList.extendLast total head = some grown) :
    Balanced (grown ++ live) (total * 2) := by
  obtain ⟨init, last, rfl, rfl⟩ := FreeList.extendLast_some hg
  refine h.transfer ?_ ?_ ?_
  · have := h.1
    simp only [countSum_append, countSum_cons, countSum_nil] at *
    omega
  · intro p
    simp only [massBelow_append, massBelow_cons, massBelow_nil]
    split_ifs <;> omega
  · intro x hx
    simp only [List.mem_append, List.mem_singleton] at hx
    rcases hx with (hx | rfl) | hx
    · exact ⟨x, by simp [hx], rfl⟩
    · exact ⟨last, by simp, rfl⟩
    · exact ⟨x, by simp [hx], rfl⟩

theorem Balanced.carve_aux {before after live c : List Section} {n : Section} {count total : Nat}
    (h : Balanced ((before ++ n :: after) ++ live) total) (hn : count ≤ n.Count)
    (hsum : countSum c = n.Count - count)
    (hmass : ∀ p, massBelow p c = if n.Index + count < p then n.Count - count else 0)
    (hidx : ∀ x ∈ c, x.Index = n.Index + count) :
    Balanced ((before ++ c ++ after) ++ ⟨n.Index, count⟩ :: live) total := by
  have hnmem : n ∈ (before ++ n :: after) ++ live := by simp
  have hJn := h.2 n hnmem
  refine ⟨?_, ?_⟩
  · have := h.1
    simp only [countSum_append, countSum_cons] at *
    omega
  · intro x hx
    have hold : (∃ y ∈ (before ++ n :: after) ++ live, y.Index = x.Index) ∨
        (n.Index < x.Index ∧ x.Index ≤ n.Index + count) := by
      simp only [List.mem_append, List.mem_cons] at hx
      rcases hx with ((hx | hx) | hx) | rfl | hx
      · exact Or.inl ⟨x, by simp [hx], rfl⟩
      · have := hidx x hx
        by_cases h0 : count = 0
        · exact Or.inl ⟨n, hnmem, by omega⟩
        · exact Or.inr ⟨by omega, by omega⟩
      · exact Or.inl ⟨x, by simp [hx], rfl⟩
      · exact Or.inl ⟨n, hnmem, rfl⟩
      · exact Or.inl ⟨x, by simp [hx], rfl⟩
    by_cases hB : n.Index < x.Index ∧ x.Index ≤ n.Index + count
    · have m1 := massBelow_mono (le_of_lt hB.1) before
      have m2 := massBelow_mono (le_of_lt hB.1) after
      have m3 := massBelow_mono (le_of_lt hB.1) live
      have hc := hmass x.Index
      simp only [massBelow_append, massBelow_cons, lt_self_iff_false, if_false] at hJn ⊢
      simp only [hB.1, if_true]
      omega
    · rcases hold with ⟨y, hy, hyx⟩ | hB'
      · have hJy := h.2 y hy
        rw [hyx] at hJy
        have hc := hmass x.Index
        simp only [massBelow_append, massBelow_cons] at hJy ⊢
        rw [hc]
        split_ifs at hJy ⊢ <;> omega
      · exact absurd hB' hB

theorem Balanced.carve {head live rest : List Section} {ret : Section} {count total : Nat}
    {hasPrevious : Bool}
    (h : Balanced (head ++ live) total)
    (hs : FreeList.search count hasPrevious head = some (ret, rest)) :
    Balanced (rest ++ ret :: live) total := by
  obtain ⟨before, n, after, rfl, -, hn, rfl, hrest⟩ := FreeList.search_some _ _ _ _ hs
  rcases hrest with ⟨rfl, hc⟩ | rfl
  · have := Balanced.carve_aux (c := []) h hn (by simp [countSum_nil, hc])
      (by intro p; simp [massBelow_nil, hc]) (by simp)
    simpa using this
  · have := Balanced.carve_aux (c := [⟨n.Index + count, n.Count - count⟩]) h hn
      (by simp [countSum_cons, countSum_nil])
      (by intro p; simp [massBelow_cons, massBelow_nil]) (by simp)
    simpa using this

theorem Balanced.allocateLoop {T : Type} {live : List Section} {count : Nat} :
    ∀ (fuel : Nat) (fl fl' : FreeList T) (ret : Section),
      Balanced (fl.head ++ live) fl.totalCount → fl.data.length = fl.totalCount →
      FreeList.allocateLoop count fuel fl = .ok (ret, fl') →
      Balanced (fl'.head ++ ret :: live) fl'.totalCount ∧ fl'.data.length = fl'.totalCount := by
  intro fuel
  induction fuel with
  | zero => intro fl fl' ret _ _ h; simp [FreeList.allocateLoop] at h
  | succ k ih =>
    intro fl fl' ret hb hlen h
    rw [FreeList.allocateLoop] at h
    cases hs : FreeList.search count false fl.head with
    | some r =>
      obtain ⟨ret', rest⟩ := r
      rw [hs] at h
      simp only [Except.ok.injEq, Prod.mk.injEq] at h
      obtain ⟨rfl, rfl⟩ := h
      exact ⟨hb.carve hs, hlen⟩
    | none =>
      rw [hs] at h
      cases hg : FreeList.extendLast fl.totalCount fl.head with
      | none => rw [hg] at h; simp at h
      | some grown =>
        rw [hg] at h
        exact ih _ fl' ret (hb.grow hg) (FreeList.growData_length _ _) h

theorem FreeList.allocateLoop_fuel_mono {T : Type} {count : Nat} (extra : Nat) :
    ∀ (fuel : Nat) (fl : FreeList T) (r : Section × FreeList T),
      FreeList.allocateLoop count fuel fl = .ok r →
      FreeList.allocateLoop count (fuel + extra) fl = .ok r := by
  intro fuel
  induction fuel with
  | zero => intro fl r h; simp [FreeList.allocateLoop] at h
  | succ k ih =>
    intro fl r h
    rw [show k + 1 + extra = (k + extra) + 1 by omega]
    rw [FreeList.allocateLoop] at h ⊢
    cases hs : FreeList.search count false fl.head with
    | some p => rw [hs] at h; simpa using h
    | none =>
      rw [hs] at h
      cases hg : FreeList.extendLast fl.totalCount fl.head with
      | none => rw [hg] at h; simp at h
      | some grown =>
        rw [hg] at h
        exact ih _ r h

theorem FreeList.allocateLoop_terminates {T : Type} {count : Nat} :
    ∀ (d : Nat) (fl : FreeList T) (init : List Section) (last : Section),
      fl.head = init ++ [last] → count - last.Count ≤ d → 1 ≤ fl.totalCount →
      ∃ (ret : Section) (fl' : FreeList T),
        FreeList.allocateLoop count (d + 1) fl = .ok (ret, fl') ∧ ret.Count = count := by
  intro d
  induction d with
  | zero =>
    intro fl init last hh hd _
    have hne : FreeList.search count false fl.head ≠ none := by
      intro hn
      have := (FreeList.search_eq_none count fl.head false).1 hn last (by simp [hh])
      omega
    cases hs : FreeList.search count false fl.head with
    | none => exact absurd hs hne
    | some r =>
      obtain ⟨ret, rest⟩ := r
      obtain ⟨_, n, _, _, _, _, hret, _⟩ := FreeList.search_some _ _ _ _ hs
      refine ⟨ret, { fl with head := rest }, ?_, by rw [hret]⟩
      rw [FreeList.allocateLoop, hs]
  | succ k ih =>
    intro fl init last hh hd ht
    cases hs : FreeList.search count false fl.head with
    | some r =>
      obtain ⟨ret, rest⟩ := r
      obtain ⟨_, n, _, _, _, _, hret, _⟩ := FreeList.search_some _ _ _ _ hs
      refine ⟨ret, { fl with head := rest }, ?_, by rw [hret]⟩
      rw [FreeList.allocateLoop, hs]
    | none =>
      have hg := FreeList.extendLast_concat fl.totalCount last init
      rw [← hh] at hg
      obtain ⟨ret, fl', h1, h2⟩ := ih
        { head := init ++ [⟨last.Index, last.Count + fl.totalCount⟩]
          data := FreeList.growData fl.data fl.totalCount
          totalCount := fl.totalCount * 2 } init ⟨last.Index, last.Count + fl.totalCount⟩ rfl
        (by simp only; omega) (by simp only; omega)
      refine ⟨ret, fl', ?_, h2⟩
      rw [FreeList.allocateLoop, hs, hg]
      exact h1

theorem Config.Inv_start (T : Type) (N : Nat) : (Config.start T N).Inv := by
  refine ⟨⟨?_, ?_⟩, ?_⟩
  · simp [Config.start, FreeList.construct, countSum]
  · intro x hx
    simp [Config.start, FreeList.construct] at hx
    subst hx
    simp
  · simp [Config.start, FreeList.construct]

theorem Config.Inv_allocate {T : Type} {cfg : Config T} (h : cfg.Inv) {fuel count : Nat}
    {ret : Section} {fl : FreeList T} (ha : FreeList.Allocate fuel cfg.fl count = .ok (ret, fl)) :
    Config.Inv { fl := fl, live := ret :: cfg.live } := by
  unfold FreeList.Allocate at ha
  by_cases hc : count = 0
  · simp only [hc, if_true, Except.ok.injEq, Prod.mk.injEq] at ha
    obtain ⟨rfl, rfl⟩ := ha
    refine ⟨⟨?_, ?_⟩, h.2⟩
    · have := h.1.1
      simp only [countSum_append, countSum_cons] at *
      omega
    · intro x hx
      have hold : x = ⟨0, 0⟩ ∨ x ∈ cfg.fl.head ++ cfg.live := by
        simp only [List.mem_append, List.mem_cons] at hx ⊢
        tauto
      rcases hold with rfl | hold
      · exact Nat.zero_le _
      · have := h.1.2 x hold
        simp only [massBelow_append, massBelow_cons] at this ⊢
        omega
  · simp only [hc, if_false] at ha
    exact Balanced.allocateLoop fuel cfg.fl fl ret h.1 h.2 ha

theorem Config.Inv_step {T : Type} {fuel : Nat} {cfg next : Config T} {call : Call}
    (h : cfg.Inv) (hs : Config.step fuel cfg call = some next) : next.Inv := by
  cases call with
  | allocate count =>
    simp only [Config.step] at hs
    cases ha : FreeList.Allocate fuel cfg.fl count with
    | error e => rw [ha] at hs; simp at hs
    | ok r =>
      obtain ⟨ret, fl⟩ := r
      rw [ha] at hs
      simp only [Option.some.injEq] at hs
      subst hs
      exact Config.Inv_allocate h ha
  | deallocate s =>
    simp only [Config.step] at hs
    by_cases hm : s ∈ cfg.live
    · simp only [hm, if_true, FreeList.Deallocate] at hs
      cases hd : FreeList.deallocateList s cfg.fl.head with
      | error e => rw [hd] at hs; simp at hs
      | ok rest =>
        rw [hd] at hs
        simp only [Option.some.injEq] at hs
        subst hs
        exact ⟨h.1.deallocate hm hd, h.2⟩
    · simp [hm] at hs

theorem Config.Inv_run {T : Type} {fuel : Nat} :
    ∀ (calls : List Call) (cfg final : Config T),
      cfg.Inv → Config.run fuel cfg calls = some final → final.Inv := by
  intro calls
  induction calls with
  | nil =>
    intro cfg final h hr
    simp only [Config.run, Option.some.injEq] at hr
    subst hr; exact h
  | cons call calls ih =>
    intro cfg final h hr
    simp only [Config.run] at hr
    cases hs : Config.step fuel cfg call with
    | none => rw [hs] at hr; simp at hr
    | some next =>
      rw [hs] at hr
      exact ih next final (Config.Inv_step h hs) hr

theorem Config.Inv.section_inside {T : Type} {cfg : Config T} (h : cfg.Inv) {s : Section}
    (hs : s ∈ cfg.live) :
    s.Index + s.Count ≤ cfg.fl.NumberOfElements ∧
      ((cfg.fl.SectionData s).take s.Count).length = s.Count := by
  have hle : s.Index + s.Count ≤ cfg.fl.totalCount :=
    h.1.end_le (List.mem_append_right _ hs)
  refine ⟨hle, ?_⟩
  simp only [FreeList.SectionData, List.length_take, List.length_drop, h.2]
  omega


theorem FreeList.Allocate_fuel_mono {T : Type} {fuel count : Nat} {fl : FreeList T}
    {r : Section × FreeList T} (extra : Nat) (h : FreeList.Allocate fuel fl count = .ok r) :
    FreeList.Allocate (fuel + extra) fl count = .ok r := by
  unfold FreeList.Allocate at h ⊢
  by_cases hc : count = 0
  · simpa [hc] using h
  · simp only [hc, if_false] at h ⊢
    exact FreeList.allocateLoop_fuel_mono extra fuel fl r h

theorem Config.step_fuel_mono {T : Type} {fuel : Nat} {cfg next : Config T} {call : Call}
    (extra : Nat) (h : Config.step fuel cfg call = some next) :
    Config.step (fuel + extra) cfg call = some next := by
  cases call with
  | allocate count =>
    simp only [Config.step] at h ⊢
    cases ha : FreeList.Allocate fuel cfg.fl count with
    | error e => rw [ha] at h; simp at h
    | ok r =>
      rw [FreeList.Allocate_fuel_mono extra ha]
      rw [ha] at h
      exact h
  | deallocate s => exact h

/-- A run that returns with some fuel returns the same with more: the fuel only has to cover the
longest `Allocate` of the sequence. -/
theorem Config.run_fuel_mono {T : Type} {fuel : Nat} (extra : Nat) :
    ∀ (calls : List Call) (cfg final : Config T),
      Config.run fuel cfg calls = some final →
      Config.run (fuel + extra) cfg calls = some final := by
  intro calls
  induction calls with
  | nil => intro cfg final h; exact h
  | cons call calls ih =>
    intro cfg final h
    simp only [Config.run] at h ⊢
    cases hs : Config.step fuel cfg call with
    | none => rw [hs] at h; simp at h
    | some next =>
      rw [Config.step_fuel_mono extra hs]
      rw [hs] at h
      exact ih next final h

theorem FreeListNonBacking.deallocateAfter_eq (s : Section) :
    ∀ (l : List Section) (previous : Section),
      FreeListNonBacking.deallocateAfter s previous l = FreeList.deallocateAfter s previous l := by
  intro l
  induction l with
  | nil => intro previous; rfl
  | cons c l ih =>
    intro previous
    simp only [FreeListNonBacking.deallocateAfter, FreeList.deallocateAfter, ih]

theorem FreeListNonBacking.deallocateList_eq (s : Section) (l : List Section) :
    FreeListNonBacking.deallocateList s l = FreeList.deallocateList s l := by
  cases l with
  | nil => rfl
  | cons c l =>
    simp only [FreeListNonBacking.deallocateList, FreeList.deallocateList,
      FreeListNonBacking.deallocateAfter_eq]

/-- With fuel for one scan `FreeList::Allocate` returns exactly when it does not grow, and then
the list it leaves and the section it returns are those of the scan. -/
theorem FreeList.Allocate_one_scan {T : Type} {fl fl' : FreeList T} {count : Nat}
    {ret : Section} (h : FreeList.Allocate 1 fl count = .ok (ret, fl')) :
    fl'.data = fl.data ∧ fl'.totalCount = fl.totalCount ∧
    ((count = 0 ∧ ret = ⟨0, 0⟩ ∧ fl'.head = fl.head) ∨
      (count ≠ 0 ∧ FreeList.search count false fl.head = some (ret, fl'.head))) := by
  unfold FreeList.Allocate at h
  by_cases hc : count = 0
  · simp only [hc, if_true, Except.ok.injEq, Prod.mk.injEq] at h
    obtain ⟨rfl, rfl⟩ := h
    exact ⟨rfl, rfl, Or.inl ⟨hc, rfl, rfl⟩⟩
  · simp only [hc, if_false] at h
    rw [FreeList.allocateLoop] at h
    cases hs : FreeList.search count false fl.head with
    | some r =>
      obtain ⟨ret', rest⟩ := r
      rw [hs] at h
      simp only [Except.ok.injEq, Prod.mk.injEq] at h
      obtain ⟨rfl, rfl⟩ := h
      exact ⟨rfl, rfl, Or.inr ⟨hc, rfl⟩⟩
    | none =>
      rw [hs] at h
      cases hg : FreeList.extendLast fl.totalCount fl.head with
      | none => rw [hg] at h; simp at h
      | some grown => rw [hg] at h; simp [FreeList.allocateLoop] at h

/-- One call that the allocator answers without growing is answered by the tracker with the same
section, the same list and the same ledger. -/
theorem TrackerConfig.step_simulates {T : Type} {cfg next : Config T} {tr : TrackerConfig}
    {call : Call} (hh : tr.fl.head = cfg.fl.head) (hl : tr.live = cfg.live)
    (h : Config.step 1 cfg call = some next) :
    ∃ tnext, TrackerConfig.step tr call = some tnext ∧
      tnext.fl.head = next.fl.head ∧ tnext.live = next.live := by
  cases call with
  | allocate count =>
    simp only [Config.step] at h
    cases ha : FreeList.Allocate 1 cfg.fl count with
    | error e => rw [ha] at h; simp at h
    | ok r =>
      obtain ⟨ret, fl'⟩ := r
      rw [ha] at h
      simp only [Option.some.injEq] at h
      subst h
      obtain ⟨-, -, h0 | h1⟩ := FreeList.Allocate_one_scan ha
      · obtain ⟨hc, rfl, hhd⟩ := h0
        refine ⟨⟨tr.fl, ⟨0, 0⟩ :: tr.live⟩, ?_, ?_, ?_⟩
        · simp [TrackerConfig.step, FreeListNonBacking.Allocate, hc]
        · simp [hh, hhd]
        · simp [hl]
      · obtain ⟨hc, hs⟩ := h1
        refine ⟨⟨⟨fl'.head⟩, ret :: tr.live⟩, ?_, rfl, ?_⟩
        · have hc' : ¬ count ≤ 0 := by omega
          simp [TrackerConfig.step, FreeListNonBacking.Allocate, hc',
            FreeListNonBacking.search_eq, hh, hs]
        · simp [hl]
  | deallocate s =>
    simp only [Config.step] at h
    by_cases hm : s ∈ cfg.live
    · simp only [hm, if_true, FreeList.Deallocate] at h
      cases hd : FreeList.deallocateList s cfg.fl.head with
      | error e => rw [hd] at h; simp at h
      | ok rest =>
        rw [hd] at h
        simp only [Option.some.injEq] at h
        subst h
        refine ⟨⟨⟨rest⟩, tr.live.erase s⟩, ?_, rfl, ?_⟩
        · simp [TrackerConfig.step, FreeListNonBacking.Deallocate,
            FreeListNonBacking.deallocateList_eq, hh, hl, hm, hd]
        · simp [hl]
    · simp [hm] at h

theorem TrackerConfig.run_simulates {T : Type} :
    ∀ (calls : List Call) (cfg final : Config T) (tr : TrackerConfig),
      tr.fl.head = cfg.fl.head → tr.live = cfg.live →
      Config.run 1 cfg calls = some final →
      ∃ tfinal, TrackerConfig.run tr calls = some tfinal ∧
        tfinal.fl.head = final.fl.head ∧ tfinal.live = final.live := by
  intro calls
  induction calls with
  | nil =>
    intro cfg final tr hh hl h
    simp only [Config.run, Option.some.injEq] at h
    subst h
    exact ⟨tr, rfl, hh, hl⟩
  | cons call calls ih =>
    intro cfg final tr hh hl h
    simp only [Config.run] at h
    cases hs : Config.step 1 cfg call with
    | none => rw [hs] at h; simp at h
    | some next =>
      rw [hs] at h
      obtain ⟨tnext, h1, h2, h3⟩ := TrackerConfig.step_simulates hh hl hs
      obtain ⟨tfinal, h4, h5, h6⟩ := ih next final tnext h2 h3 h
      exact ⟨tfinal, by simp [TrackerConfig.run, h1, h4], h5, h6⟩

theorem Config.run_take {T : Type} {fuel : Nat} :
    ∀ (calls : List Call) (k : Nat) (cfg final : Config T),
      Config.run fuel cfg calls = some final →
      ∃ mid, Config.run fuel cfg (calls.take k) = some mid := by
  intro calls
  induction calls with
  | nil => intro k cfg final h; exact ⟨cfg, by simp [Config.run]⟩
  | cons call calls ih =>
    intro k cfg final h
    cases k with
    | zero => exact ⟨cfg, by simp [Config.run]⟩
    | succ k =>
      simp only [Config.run] at h
      cases hs : Config.step fuel cfg call with
      | none => rw [hs] at h; simp at h
      | some next =>
        rw [hs] at h
        obtain ⟨mid, hm⟩ := ih k next final h
        exact ⟨mid, by simp [Config.run, hs, hm]⟩

theorem MemoryPool.padPointer_lt (p align : Nat) (h : 1 ≤ align) :
    MemoryPool.padPointer p align < align := by
  unfold MemoryPool.padPointer
  exact Nat.mod_lt _ (by omega)

theorem PoolConfig.inv_of_start (L : PoolLayout) : PoolConfig.start.Inv L := by
  refine ⟨by simp [PoolConfig.start, MemoryPool.construct], ?_, ?_, ?_⟩
  · intro a ha; simp [PoolConfig.start, MemoryPool.construct] at ha
  · intro _; simp [PoolConfig.start, MemoryPool.construct]
  · intro k hk; simp [PoolConfig.start, MemoryPool.construct] at hk

/-- The handle `Allocate` returns is not live. -/
theorem PoolConfig.Inv.fresh {L : PoolLayout} (hL : L.Sound) {cfg : PoolConfig}
    (h : cfg.Inv L) : (MemoryPool.Allocate L cfg.pool).1 ∉ cfg.live := by
  obtain ⟨hnd, hin, hnil, hcur⟩ := h
  obtain ⟨ha1, ha2, hp, hb, hdis⟩ := hL
  unfold MemoryPool.Allocate
  cases hf : cfg.pool.freeSlots_ with
  | cons result next =>
    simp only
    rw [hf] at hnd
    intro hmem
    have := List.nodup_append.1 hnd
    exact this.2.2 hmem (List.mem_cons_self _ _) 
  | nil =>
    simp only
    by_cases hg : cfg.pool.currentSlot_ ≥ cfg.pool.lastSlot_
    · rw [if_pos hg]
      intro hmem
      obtain ⟨i, hi, hlo, hhi, hlast⟩ := hin _ (List.mem_append_left _ hmem)
      simp only [MemoryPool.allocateBlock] at hlo hhi
      have hpad := MemoryPool.padPointer_lt
        (L.operatorNew cfg.pool.currentBlock_.length + L.pointerSize) L.slotAlign ha1
      rcases hdis i _ hi with h1 | h1 <;> omega
    · rw [if_neg hg]
      intro hmem
      obtain ⟨i, hi, hlo, hhi, hlast⟩ := hin _ (List.mem_append_left _ hmem)
      cases hlen : cfg.pool.currentBlock_.length with
      | zero =>
        have := hnil (List.length_eq_zero.1 hlen)
        omega
      | succ k =>
        obtain ⟨hk1, hk2⟩ := hcur k hlen
        by_cases hik : i = k
        · subst hik
          have := hlast (by omega)
          omega
        · rcases Nat.lt_or_gt_of_ne hik with hlt | hgt
          · rcases hdis i k hlt with h1 | h1 <;> omega
          · omega

theorem PoolConfig.inv_of_allocate {L : PoolLayout} (hL : L.Sound) {cfg : PoolConfig}
    (h : cfg.Inv L) :
    PoolConfig.Inv L
      { pool := (MemoryPool.Allocate L cfg.pool).2
        live := (MemoryPool.Allocate L cfg.pool).1 :: cfg.live } := by
  have hfresh := h.fresh hL
  obtain ⟨hnd, hin, hnil, hcur⟩ := h
  obtain ⟨ha1, ha2, hp, hb, hdis⟩ := hL
  unfold MemoryPool.Allocate at hfresh ⊢
  cases hf : cfg.pool.freeSlots_ with
  | cons result next =>
    rw [hf] at hnd hin
    simp only
    refine ⟨?_, ?_, hnil, hcur⟩
    · have hperm : (cfg.live ++ result :: next).Perm ((result :: cfg.live) ++ next) := by
        exact List.perm_middle
      exact hperm.nodup_iff.1 hnd
    · intro a ha
      apply hin
      simp only [List.cons_append, List.mem_cons, List.mem_append] at ha ⊢
      tauto
  | nil =>
    rw [hf] at hnd hin hfresh
    simp only [List.append_nil] at hnd hin hfresh ⊢
    by_cases hg : cfg.pool.currentSlot_ ≥ cfg.pool.lastSlot_
    · rw [if_pos hg] at hfresh ⊢
      have hpad := MemoryPool.padPointer_lt
        (L.operatorNew cfg.pool.currentBlock_.length + L.pointerSize) L.slotAlign ha1
      refine ⟨?_, ?_, ?_, ?_⟩
      · simpa [MemoryPool.allocateBlock, hf] using And.intro hfresh hnd
      · intro a ha
        simp only [MemoryPool.allocateBlock, hf, List.append_nil, List.mem_cons,
          List.length_cons] at ha ⊢
        rcases ha with rfl | ha
        · exact ⟨cfg.pool.currentBlock_.length, by omega, by omega, by omega, fun _ => by omega⟩
        · obtain ⟨i, hi, hlo, hhi, -⟩ := hin a ha
          exact ⟨i, by omega, hlo, hhi, fun hc => by omega⟩
      · intro hc; simp [MemoryPool.allocateBlock] at hc
      · intro k hk
        simp only [MemoryPool.allocateBlock, List.length_cons] at hk ⊢
        have : k = cfg.pool.currentBlock_.length := by omega
        subst this
        exact ⟨by omega, rfl⟩
    · rw [if_neg hg] at hfresh ⊢
      cases hlen : cfg.pool.currentBlock_.length with
      | zero =>
        have := hnil (List.length_eq_zero.1 hlen)
        omega
      | succ k =>
        obtain ⟨hk1, hk2⟩ := hcur k hlen
        refine ⟨?_, ?_, ?_, ?_⟩
        · simpa [hf] using And.intro hfresh hnd
        · intro a ha
          simp only [hf, List.append_nil, List.mem_cons] at ha ⊢
          rcases ha with rfl | ha
          · exact ⟨k, by omega, hk1, by omega, fun _ => by omega⟩
          · obtain ⟨i, hi, hlo, hhi, hlast⟩ := hin a ha
            exact ⟨i, hi, hlo, hhi, fun hc => by have := hlast hc; omega⟩
        · intro hc; simp only at hc; rw [hc] at hlen; simp at hlen
        · intro k' hk'
          simp only at hk' ⊢
          have : k' = k := by omega
          subst this
          exact ⟨by omega, hk2⟩

theorem PoolConfig.inv_of_deallocate {L : PoolLayout} {cfg : PoolConfig} (h : cfg.Inv L)
    {p : Nat} (hp0 : p ≠ 0) (hp : p ∈ cfg.live) :
    PoolConfig.Inv L
      { pool := MemoryPool.Deallocate cfg.pool p, live := cfg.live.erase p } := by
  obtain ⟨hnd, hin, hnil, hcur⟩ := h
  have hperm : (cfg.live ++ cfg.pool.freeSlots_).Perm
      (cfg.live.erase p ++ p :: cfg.pool.freeSlots_) := by
    have h1 : cfg.live.Perm (p :: cfg.live.erase p) := List.perm_cons_erase hp
    have h2 := h1.append_right cfg.pool.freeSlots_
    have h3 : (cfg.live.erase p ++ p :: cfg.pool.freeSlots_).Perm
        (p :: (cfg.live.erase p ++ cfg.pool.freeSlots_)) := List.perm_middle
    exact h2.trans (by simpa using h3.symm)
  simp only [MemoryPool.Deallocate, hp0, ne_eq, not_false_eq_true, if_true]
  refine ⟨hperm.nodup_iff.1 hnd, ?_, hnil, hcur⟩
  intro a ha
  exact hin a (hperm.mem_iff.2 ha)

theorem PoolConfig.inv_of_step {L : PoolLayout} (hL : L.Sound) {cfg next : PoolConfig}
    {call : PoolCall} (h : cfg.Inv L) (hs : PoolConfig.step L cfg call = some next) :
    next.Inv L := by
  cases call with
  | allocate =>
    simp only [PoolConfig.step, Option.some.injEq] at hs
    subst hs
    exact PoolConfig.inv_of_allocate hL h
  | deallocate p =>
    simp only [PoolConfig.step] at hs
    by_cases hc : p ≠ 0 ∧ p ∈ cfg.live
    · rw [if_pos hc] at hs
      simp only [Option.some.injEq] at hs
      subst hs
      exact PoolConfig.inv_of_deallocate h hc.1 hc.2
    · rw [if_neg hc] at hs; simp at hs

theorem PoolConfig.inv_of_run {L : PoolLayout} (hL : L.Sound) :
    ∀ (calls : List PoolCall) (cfg final : PoolConfig),
      cfg.Inv L → PoolConfig.run L cfg calls = some final → final.Inv L := by
  intro calls
  induction calls with
  | nil =>
    intro cfg final h hr
    simp only [PoolConfig.run, Option.some.injEq] at hr
    subst hr; exact h
  | cons call calls ih =>
    intro cfg final h hr
    simp only [PoolConfig.run] at hr
    cases hs : PoolConfig.step L cfg call with
    | none => rw [hs] at hr; simp at hr
    | some next =>
      rw [hs] at hr
      exact ih next final (PoolConfig.inv_of_step hL h hs) hr

theorem bitWidthAux_zero (fuel : Nat) : bitWidthAux fuel 0 = 0 := by
  cases fuel <;> simp [bitWidthAux]

theorem bitWidthAux_pow (k : Nat) : ∀ fuel, k < fuel → bitWidthAux fuel (2 ^ k) = k + 1 := by
  induction k with
  | zero =>
    intro fuel h
    cases fuel with
    | zero => omega
    | succ f => simp [bitWidthAux, bitWidthAux_zero]
  | succ k ih =>
    intro fuel h
    cases fuel with
    | zero => omega
    | succ f =>
      have h2 : 2 ^ (k + 1) / 2 = 2 ^ k := by
        rw [Nat.pow_succ]; exact Nat.mul_div_cancel _ (by decide)
      have h3 : 2 ^ (k + 1) ≠ 0 := by positivity
      simp only [bitWidthAux, h3, if_false, h2]
      rw [ih f (by omega)]

theorem bit_width_pow {k : Nat} (h : k ≤ 15) : bit_width (2 ^ k) = k + 1 :=
  bitWidthAux_pow k 64 (by omega)

theorem bitCeilAux_spec (x : Nat) :
    ∀ (fuel j : Nat), ∃ k, j ≤ k ∧ k ≤ j + fuel ∧ bitCeilAux fuel (2 ^ j) x = 2 ^ k ∧
      (x ≤ 2 ^ k ∨ k = j + fuel) ∧ ∀ i, j ≤ i → i < k → 2 ^ i < x := by
  intro fuel
  induction fuel with
  | zero =>
    intro j
    exact ⟨j, le_refl _, le_refl _, rfl, Or.inr rfl, fun i h1 h2 => by omega⟩
  | succ f ih =>
    intro j
    by_cases hx : x ≤ 2 ^ j
    · exact ⟨j, le_refl _, by omega, by simp [bitCeilAux, hx], Or.inl hx,
        fun i h1 h2 => by omega⟩
    · obtain ⟨k, h1, h2, h3, h4, h5⟩ := ih (j + 1)
      refine ⟨k, by omega, by omega, ?_, ?_, ?_⟩
      · simp only [bitCeilAux, hx, if_false]
        rw [← h3, Nat.pow_succ, Nat.mul_comm]
      · rcases h4 with h4 | h4
        · exact Or.inl h4
        · exact Or.inr (by omega)
      · intro i hi1 hi2
        by_cases hij : i = j
        · subst hij; omega
        · exact h5 i (by omega) hi2

/-- What `std::bit_ceil` returns: the least power of two that is at least `x`. -/
theorem bit_ceil_spec {x p : Nat} (h : bit_ceil x = some p) :
    ∃ k, k ≤ 15 ∧ p = 2 ^ k ∧ x ≤ p ∧ ∀ i, i < k → 2 ^ i < x := by
  unfold bit_ceil at h
  obtain ⟨k, -, h2, h3, h4, h5⟩ := bitCeilAux_spec x 16 0
  simp only [pow_zero] at h3
  simp only [h3] at h
  by_cases hp : 2 ^ k < 65536
  · simp only [hp, if_true, Option.some.injEq] at h
    have hk : k ≤ 15 := by
      by_contra hc
      have : 2 ^ 16 ≤ 2 ^ k := Nat.pow_le_pow_right (by decide) (by omega)
      omega
    refine ⟨k, hk, h.symm, ?_, fun i hi => h5 i (Nat.zero_le _) hi⟩
    rcases h4 with h4 | h4
    · rw [← h]; exact h4
    · omega
  · simp [hp] at h

/-- The call `std::bit_ceil(x)` is defined for every `x` up to `2 ^ 15`. -/
theorem bit_ceil_defined {x : Nat} (hx : x ≤ 32768) : ∃ p, bit_ceil x = some p := by
  unfold bit_ceil
  obtain ⟨k, -, h2, h3, h4, h5⟩ := bitCeilAux_spec x 16 0
  simp only [pow_zero] at h3
  have hk : k ≤ 15 := by
    by_contra hc
    have h15 := h5 15 (Nat.zero_le _) (by omega)
    norm_num at h15
    omega
  have : 2 ^ k < 65536 := by
    have : 2 ^ k ≤ 2 ^ 15 := Nat.pow_le_pow_right (by decide) hk
    omega
  exact ⟨2 ^ k, by simp [h3, this]⟩

/-- Above `2 ^ 15` the call `std::bit_ceil(x)` on `std::uint16_t` is undefined. -/
theorem bit_ceil_undefined {x : Nat} (hx : 32768 < x) : bit_ceil x = none := by
  cases h : bit_ceil x with
  | none => rfl
  | some p =>
    obtain ⟨k, hk, hp, hxp, -⟩ := bit_ceil_spec h
    have : 2 ^ k ≤ 2 ^ 15 := Nat.pow_le_pow_right (by decide) hk
    omega

theorem AtlasParams.widths {P : AtlasParams} (hP : P.StaticAsserts) :
    ∃ a m n, a ≤ 15 ∧ m ≤ 15 ∧ n ≤ 15 ∧ P.AtlasSize = 2 ^ a ∧ P.MaxTextureSize = 2 ^ m ∧
      P.MinTextureSize = 2 ^ n ∧ P.maxBitWidth = m + 1 ∧ P.minBitWidth = n + 1 := by
  obtain ⟨⟨a, ha, hA⟩, ⟨m, hm, hM⟩, ⟨n, hn, hN⟩⟩ := hP
  refine ⟨a, m, n, ha, hm, hn, hA, hM, hN, ?_, ?_⟩
  · simp [AtlasParams.maxBitWidth, hM, bit_width_pow hm]
  · simp [AtlasParams.minBitWidth, hN, bit_width_pow hn]

theorem pow_two_le_iff {i j : Nat} : 2 ^ i ≤ 2 ^ j ↔ i ≤ j :=
  Nat.pow_le_pow_iff_right (by decide)

theorem pow_two_lt_iff {i j : Nat} : 2 ^ i < 2 ^ j ↔ i < j :=
  Nat.pow_lt_pow_iff_right (by decide)

theorem pow_two_mul_div {i j : Nat} (h : i ≤ j) : 2 ^ i * (2 ^ j / 2 ^ i) = 2 ^ j := by
  rw [Nat.pow_div h (by decide), ← Nat.pow_add]
  congr 1; omega

/-- With `MinTextureSize <= MaxTextureSize` the constructor makes one manager per size. -/
theorem AtlasParams.manager_facts {P : AtlasParams} (hP : P.StaticAsserts)
    (hle : P.MinTextureSize ≤ P.MaxTextureSize) {j : Nat} (hj : j < P.managerCount) :
    P.minBitWidth + j ≤ P.maxBitWidth ∧ 1 ≤ P.managerSize j ∧
    P.managerSize j ≤ P.MaxTextureSize ∧
    P.managerSize j * (P.MaxTextureSize / P.managerSize j) = P.MaxTextureSize ∧
    1 ≤ P.MaxTextureSize / P.managerSize j := by
  obtain ⟨a, m, n, ha, hm, hn, hA, hM, hN, hmax, hmin⟩ := P.widths hP
  have hnm : n ≤ m := by rw [hM, hN] at hle; exact pow_two_le_iff.1 hle
  have hcount : P.managerCount = m - n + 1 := by
    simp only [AtlasParams.managerCount, hmax, hmin, u16]; omega
  have hj' : n + j ≤ m := by omega
  have hsize : P.managerSize j = 2 ^ (n + j) := by
    simp only [AtlasParams.managerSize, hmin]; congr 1; omega
  rw [hsize, hM, hmax, hmin]
  refine ⟨by omega, Nat.one_le_two_pow, pow_two_le_iff.2 hj', pow_two_mul_div hj', ?_⟩
  rw [Nat.pow_div hj' (by decide)]
  exact Nat.one_le_two_pow

/-- With `MinTextureSize <= MaxTextureSize`, the size that `Allocate` settles on is the size of
the manager it indexes. -/
theorem AtlasParams.size_facts {P : AtlasParams} (hP : P.StaticAsserts)
    (hle : P.MinTextureSize ≤ P.MaxTextureSize) {x ceil : Nat}
    (hc : bit_ceil x = some ceil) (hmax : ¬ ceil > P.MaxTextureSize) :
    TextureAtlas.managerIndex P (TextureAtlas.chunkletSize P ceil) < P.managerCount ∧
    P.managerSize (TextureAtlas.managerIndex P (TextureAtlas.chunkletSize P ceil))
      = TextureAtlas.chunkletSize P ceil := by
  obtain ⟨a, m, n, ha, hm, hn, hA, hM, hN, hmaxw, hminw⟩ := P.widths hP
  obtain ⟨k, hk, hp, -, -⟩ := bit_ceil_spec hc
  have hnm : n ≤ m := by rw [hM, hN] at hle; exact pow_two_le_iff.1 hle
  have hkm : k ≤ m := by
    rw [hM, hp] at hmax
    exact pow_two_le_iff.1 (by omega)
  have hcount : P.managerCount = m - n + 1 := by
    simp only [AtlasParams.managerCount, hmaxw, hminw, u16]; omega
  by_cases hlt : k < n
  · have hs : TextureAtlas.chunkletSize P ceil = 2 ^ n := by
      simp [TextureAtlas.chunkletSize, hp, hN, pow_two_lt_iff.2 hlt]
    have hi : TextureAtlas.managerIndex P (2 ^ n) = 0 := by
      simp only [TextureAtlas.managerIndex, bit_width_pow hn, hminw, u8]; omega
    rw [hs, hi]
    exact ⟨by omega, by simp [AtlasParams.managerSize, hminw]⟩
  · have hs : TextureAtlas.chunkletSize P ceil = 2 ^ k := by
      have : ¬ (2 : Nat) ^ k < 2 ^ n := fun h => hlt (pow_two_lt_iff.1 h)
      simp [TextureAtlas.chunkletSize, hp, hN, this]
    have hi : TextureAtlas.managerIndex P (2 ^ k) = k - n := by
      simp only [TextureAtlas.managerIndex, bit_width_pow hk, hminw, u8]; omega
    rw [hs, hi]
    refine ⟨by omega, ?_⟩
    simp only [AtlasParams.managerSize, hminw]
    congr 1; omega

theorem getElem?_set_some {α : Type} {l : List α} {i j : Nat} {a b : α}
    (h : (l.set i a)[j]? = some b) : (j = i ∧ b = a) ∨ (j ≠ i ∧ l[j]? = some b) := by
  by_cases hij : i = j
  · subst hij
    rw [List.getElem?_set_self'] at h
    cases hl : l[i]? with
    | none => rw [hl] at h; simp at h
    | some x => rw [hl] at h; simp at h; exact Or.inl ⟨rfl, h.symm⟩
  · rw [List.getElem?_set_ne hij] at h
    exact Or.inr ⟨fun h' => hij h'.symm, h⟩

theorem getElem?_set_same {α : Type} {l : List α} {i : Nat} {a x : α}
    (h : l[i]? = some x) : (l.set i a)[i]? = some a := by
  rw [List.getElem?_set_self', h]; rfl

theorem getElem?_lt {α : Type} {l : List α} {i : Nat} {x : α} (h : l[i]? = some x) :
    i < l.length := by
  obtain ⟨h', -⟩ := List.getElem?_eq_some_iff.1 h
  exact h'

theorem liveCount_cons (k : Chunklet) (live : List Chunklet) (c : Nat) :
    liveCount (k :: live) c = liveCount live c + (if k.ChunkID = c then 1 else 0) := by
  simp [liveCount, List.countP_cons]

theorem liveCount_erase {k : Chunklet} {live : List Chunklet} (hk : k ∈ live) (c : Nat) :
    liveCount live c = liveCount (live.erase k) c + (if k.ChunkID = c then 1 else 0) := by
  have hperm : live.Perm (k :: live.erase k) := List.perm_cons_erase hk
  have := hperm.countP_eq fun k => decide (k.ChunkID = c)
  unfold liveCount
  rw [this, List.countP_cons]
  simp

theorem liveCount_eq_zero {live : List Chunklet} {c : Nat} :
    liveCount live c = 0 ↔ ∀ k ∈ live, k.ChunkID ≠ c := by
  simp [liveCount, List.countP_eq_zero]

/-- What the first branch of `Allocate` has done when it returns. -/
theorem TextureAtlas.allocateFromPartialChunk_returned {P : AtlasParams}
    {atlas atlas' : TextureAtlas} {idx : Nat} {manager : ChunkManager}
    {width height size : Nat} {c : Chunklet}
    (h : TextureAtlas.allocateFromPartialChunk P atlas idx manager width height size
      = .returned c atlas') :
    ∃ (ps : List Nat) (back : Nat) (chunk : Chunk) (av : List Nat) (id x y : Nat),
      manager.PartialChunks = ps ++ [back] ∧ atlas.chunks[back]? = some chunk ∧
      chunk.AvailableChunkletIDs = av ++ [id] ∧
      TextureAtlas.getChunkletCoordinates P manager.Size chunk.ChunkID id = some (x, y) ∧
      c = ⟨chunk.ChunkID, id, x, y, width, height, size⟩ ∧
      atlas' =
        { atlas with
          chunks := atlas.chunks.set back { chunk with AvailableChunkletIDs := av }
          managers :=
            if av.isEmpty then atlas.managers.set idx { manager with PartialChunks := ps }
            else atlas.managers } := by
  unfold TextureAtlas.allocateFromPartialChunk at h
  cases hb : manager.PartialChunks.getLast? with
  | none => rw [hb] at h; simp at h
  | some back =>
    rw [hb] at h
    simp only at h
    cases hc : atlas.chunks[back]? with
    | none => rw [hc] at h; simp at h
    | some chunk =>
      rw [hc] at h
      simp only at h
      cases hi : chunk.AvailableChunkletIDs.getLast? with
      | none => rw [hi] at h; simp at h
      | some id =>
        rw [hi] at h
        simp only at h
        cases hxy : TextureAtlas.getChunkletCoordinates P manager.Size chunk.ChunkID id with
        | none => rw [hxy] at h; simp at h
        | some xy =>
          obtain ⟨x, y⟩ := xy
          rw [hxy] at h
          simp only [AtlasOutcome.returned.injEq] at h
          obtain ⟨ps, hps⟩ := List.getLast?_eq_some_iff.1 hb
          obtain ⟨av, hav⟩ := List.getLast?_eq_some_iff.1 hi
          refine ⟨ps, back, chunk, av, id, x, y, hps, hc, hav, hxy, h.1.symm, ?_⟩
          rw [← h.2, hps, hav]
          simp

/-- The first branch of `Allocate` keeps the invariant, and the chunklet it returns is one of
the chunklets of the manager's size in a chunk of the atlas. -/
theorem AtlasConfig.Inv.allocate_partial {P : AtlasParams} {cfg : AtlasConfig}
    (h : cfg.Inv P) {idx : Nat} {manager : ChunkManager} {width height size : Nat}
    {c : Chunklet} {atlas' : TextureAtlas}
    (hm : cfg.atlas.managers[idx]? = some manager) (hidx : idx < P.managerCount)
    (hsize : size = P.managerSize idx)
    (hr : TextureAtlas.allocateFromPartialChunk P cfg.atlas idx manager width height size
      = .returned c atlas') :
    AtlasConfig.Inv P ⟨atlas', c :: cfg.live⟩ ∧ c.ChunkID < P.chunkCount ∧
      c.ChunkletID < P.chunkletsOf idx ∧
      TextureAtlas.getChunkletCoordinates P size c.ChunkID c.ChunkletID = some (c.X, c.Y) ∧
      c.Width = width ∧ c.Height = height ∧ c.Size = size := by
  subst hsize
  obtain ⟨ps, back, chunk, av, id, x, y, hps, hchunk, hav, hxy, rfl, rfl⟩ :=
    TextureAtlas.allocateFromPartialChunk_returned hr
  have hback_mem : back ∈ manager.PartialChunks := by rw [hps]; simp
  obtain ⟨hbfree, hbassign, -⟩ := h.partial_chunk idx manager back hm hback_mem
  have hcid : chunk.ChunkID = back := h.chunk_id back chunk hchunk
  have hblt : back < P.chunkCount := by
    have := getElem?_lt hchunk
    rw [h.chunks_length] at this; exact this
  have hnd := h.partial_nodup idx manager hm
  rw [hps] at hnd
  have hback_ps : back ∉ ps := by
    intro hc
    have := List.nodup_append.1 hnd
    exact this.2.2 hc (by simp) 
  obtain ⟨j0, m0, hj0, hm0, hcount0, hids0, hpart0⟩ := h.assigned back chunk hchunk hbfree
  have hj0' : j0 = idx := by
    rw [hbassign] at hj0; simp at hj0; exact hj0.symm
  subst hj0'
  have hmsize := h.manager_size j0 manager hm
  -- the managers after the call
  have hman : ∀ (j : Nat) (m : ChunkManager),
      (if av.isEmpty then cfg.atlas.managers.set j0 { manager with PartialChunks := ps }
        else cfg.atlas.managers)[j]? = some m →
      (j = j0 ∧ av = [] ∧ m = { manager with PartialChunks := ps }) ∨
      (cfg.atlas.managers[j]? = some m ∧ (j = j0 → av ≠ [])) := by
    intro j m hjm
    by_cases hemp : av = []
    · subst hemp
      simp only [List.isEmpty_nil, if_true] at hjm
      rcases getElem?_set_some hjm with ⟨h1, h2⟩ | ⟨h1, h2⟩
      · exact Or.inl ⟨h1, rfl, h2⟩
      · exact Or.inr ⟨h2, fun hc => absurd hc h1⟩
    · have : av.isEmpty = false := by
        cases av with
        | nil => exact absurd rfl hemp
        | cons _ _ => rfl
      rw [this] at hjm
      exact Or.inr ⟨hjm, fun _ => hemp⟩
  refine ⟨?_, by simpa [hcid] using hblt, ?_, ?_, rfl, rfl, rfl⟩
  · refine
      { chunks_length := by simpa using h.chunks_length
        chunk_id := ?_
        assignments_length := h.assignments_length
        managers_length := ?_
        manager_size := ?_
        free_nodup := h.free_nodup
        free_lt := h.free_lt
        free_available := ?_
        free_live := ?_
        partial_nodup := ?_
        partial_chunk := ?_
        assigned := ?_
        live_chunklet := ?_ }
    · intro i ch hi
      rcases getElem?_set_some hi with ⟨h1, h2⟩ | ⟨h1, h2⟩
      · subst h1; subst h2; exact hcid
      · exact h.chunk_id i ch h2
    · show (if av.isEmpty then _ else _ : List ChunkManager).length = _
      split
      · simpa using h.managers_length
      · exact h.managers_length
    · intro j m hjm
      rcases hman j m hjm with ⟨h1, -, h3⟩ | ⟨h1, -⟩
      · subst h1; subst h3; exact hmsize
      · exact h.manager_size j m h1
    · intro c ch hc hi
      rcases getElem?_set_some hi with ⟨h1, h2⟩ | ⟨h1, h2⟩
      · subst h1; exact absurd hc hbfree
      · exact h.free_available c ch hc h2
    · intro c hc k hk
      rcases List.mem_cons.1 hk with rfl | hk
      · simp only [hcid]
        intro heq; subst heq; exact hbfree hc
      · exact h.free_live c hc k hk
    · intro j m hjm
      rcases hman j m hjm with ⟨h1, -, h3⟩ | ⟨h1, -⟩
      · subst h3
        exact (List.nodup_append.1 hnd).1
      · exact h.partial_nodup j m h1
    · intro j m c hjm hc
      have hcases : c ≠ back ∨ (c = back ∧ av ≠ []) := by
        rcases hman j m hjm with ⟨h1, h2, h3⟩ | ⟨h1, h2⟩
        · subst h3
          left; intro heq; subst heq; exact hback_ps hc
        · by_cases hcb : c = back
          · right
            subst hcb
            have := (h.partial_chunk j m c h1 hc).2.1
            rw [hbassign] at this
            simp at this
            exact ⟨rfl, h2 this.symm⟩
          · exact Or.inl hcb
      have hcold : ∃ m0 : ChunkManager, cfg.atlas.managers[j]? = some m0 ∧
          c ∈ m0.PartialChunks := by
        rcases hman j m hjm with ⟨h1, h2, h3⟩ | ⟨h1, h2⟩
        · subst h1; subst h3
          exact ⟨manager, hm, by rw [hps]; exact List.mem_append_left _ hc⟩
        · exact ⟨m, h1, hc⟩
      obtain ⟨m1, hm1, hc1⟩ := hcold
      obtain ⟨hf, ha, ch, hch, hne⟩ := h.partial_chunk j m1 c hm1 hc1
      refine ⟨hf, ha, ?_⟩
      rcases hcases with hcb | ⟨hcb, havne⟩
      · exact ⟨ch, by
          show (cfg.atlas.chunks.set back _)[c]? = some ch
          rw [List.getElem?_set_ne (fun h' => hcb h'.symm)]; exact hch, hne⟩
      · subst hcb
        exact ⟨{ chunk with AvailableChunkletIDs := av }, getElem?_set_same hchunk, havne⟩
    · intro c ch hi hcf
      rcases getElem?_set_some hi with ⟨h1, h2⟩ | ⟨h1, h2⟩
      · subst h1; subst h2
        have hcount : av.length + liveCount (⟨chunk.ChunkID, id, x, y, width, height,
            P.managerSize j0⟩ :: cfg.live) c = P.chunkletsOf j0 := by
          rw [liveCount_cons, ← hcount0, hav]
          simp [hcid]
          omega
        have hids : ∀ i ∈ av, i < P.chunkletsOf j0 := fun i hi' =>
          hids0 i (by rw [hav]; exact List.mem_append_left _ hi')
        by_cases hemp : av = []
        · subst hemp
          exact ⟨j0, { manager with PartialChunks := ps }, hbassign,
            by simp only [List.isEmpty_nil, if_true]; exact getElem?_set_same hm,
            hcount, hids, fun hc => absurd rfl hc⟩
        · have hie : av.isEmpty = false := by
            cases av with
            | nil => exact absurd rfl hemp
            | cons _ _ => rfl
          exact ⟨j0, manager, hbassign, by simp only [hie]; exact hm,
            hcount, hids, fun _ => hback_mem⟩
      · obtain ⟨j, m, hj, hmj, hcnt, hids, hpart⟩ := h.assigned c ch h2 hcf
        have hcnt' : ch.AvailableChunkletIDs.length + liveCount (⟨chunk.ChunkID, id, x, y,
            width, height, P.managerSize j0⟩ :: cfg.live) c = P.chunkletsOf j := by
          rw [liveCount_cons, ← hcnt]
          have : ¬ chunk.ChunkID = c := by rw [hcid]; exact fun h' => h1 h'.symm
          simp [this]
        by_cases hcase : j = j0 ∧ av = []
        · obtain ⟨hjj, hemp⟩ := hcase
          subst hjj; subst hemp
          refine ⟨j, { manager with PartialChunks := ps }, hj,
            by simp only [List.isEmpty_nil, if_true]; exact getElem?_set_same hm,
            hcnt', hids, ?_⟩
          intro hne
          have hmm : m = manager := by rw [hm] at hmj; simp at hmj; exact hmj.symm
          have := hpart hne
          rw [hmm, hps] at this
          rcases List.mem_append.1 this with h' | h'
          · exact h'
          · simp at h'; exact absurd h' h1
        · refine ⟨j, m, hj, ?_, hcnt', hids, hpart⟩
          by_cases hemp : av = []
          · subst hemp
            simp only [List.isEmpty_nil, if_true]
            have hjne : j ≠ j0 := fun hc => hcase ⟨hc, rfl⟩
            rw [List.getElem?_set_ne (fun h' => hjne h'.symm)]; exact hmj
          · have hie : av.isEmpty = false := by
              cases av with
              | nil => exact absurd rfl hemp
              | cons _ _ => rfl
            simp only [hie]; exact hmj
    · intro k hk
      rcases List.mem_cons.1 hk with rfl | hk
      · simp only [hcid]
        exact ⟨hblt, j0, hbassign, hidx, rfl, hids0 id (by rw [hav]; simp)⟩
      · exact h.live_chunklet k hk
  · exact hids0 id (by rw [hav]; simp)
  · rw [← hmsize]; exact hxy

theorem TextureAtlas.pushedChunkletIDs_length (n : Nat) :
    (TextureAtlas.pushedChunkletIDs n).length = n := by
  simp [TextureAtlas.pushedChunkletIDs]

theorem TextureAtlas.pushedChunkletIDs_lt {n id : Nat}
    (h : id ∈ TextureAtlas.pushedChunkletIDs n) : id < n := by
  simp only [TextureAtlas.pushedChunkletIDs, List.mem_map, List.mem_reverse,
    List.mem_range] at h
  obtain ⟨i, hi, rfl⟩ := h
  have : u16 i ≤ i := Nat.mod_le _ _
  omega

/-- Claiming the chunk on top of `freeChunks` for a manager with no partial chunk keeps the
invariant. -/
theorem AtlasConfig.Inv.claim {P : AtlasParams} {cfg : AtlasConfig} (h : cfg.Inv P)
    {idx : Nat} {manager : ChunkManager} {top : Nat} {rest : List Nat} {chunk : Chunk}
    (hm : cfg.atlas.managers[idx]? = some manager)
    (hemp : manager.PartialChunks = []) (hfree : cfg.atlas.freeChunks = top :: rest)
    (hchunk : cfg.atlas.chunks[top]? = some chunk)
    (hn : 1 ≤ P.MaxTextureSize / P.managerSize idx) :
    AtlasConfig.Inv P
      ⟨TextureAtlas.claimFreeChunk P cfg.atlas idx manager top rest chunk (P.managerSize idx),
        cfg.live⟩ ∧
    (TextureAtlas.claimFreeChunk P cfg.atlas idx manager top rest chunk
        (P.managerSize idx)).managers[idx]?
      = some { manager with PartialChunks := [top] } := by
  have hcid : chunk.ChunkID = top := h.chunk_id top chunk hchunk
  have htop_mem : top ∈ cfg.atlas.freeChunks := by rw [hfree]; simp
  have hav : chunk.AvailableChunkletIDs = [] := h.free_available top chunk htop_mem hchunk
  have htlt : top < P.chunkCount := h.free_lt top htop_mem
  have hnd := h.free_nodup
  rw [hfree] at hnd
  have htop_rest : top ∉ rest := (List.nodup_cons.1 hnd).1
  have hlive0 : liveCount cfg.live top = 0 :=
    liveCount_eq_zero.2 (h.free_live top htop_mem)
  have hmem_rest : ∀ c, c ∈ rest → c ∈ cfg.atlas.freeChunks := by
    intro c hc; rw [hfree]; exact List.mem_cons_of_mem _ hc
  have hnot_rest : ∀ c, c ≠ top → c ∉ rest → c ∉ cfg.atlas.freeChunks := by
    intro c h1 h2 hc
    rw [hfree] at hc
    rcases List.mem_cons.1 hc with h' | h'
    · exact h1 h'
    · exact h2 h'
  have hnpos : 1 ≤ P.chunkletsOf idx := by
    unfold AtlasParams.chunkletsOf
    exact Nat.mul_pos hn hn
  have hmanset : (cfg.atlas.managers.set idx
      { manager with PartialChunks := manager.PartialChunks ++ [chunk.ChunkID] })[idx]?
      = some { manager with PartialChunks := [top] } := by
    rw [getElem?_set_same hm, hemp, hcid]; rfl
  have hassign_top : (cfg.atlas.chunkAssignments.set chunk.ChunkID (some idx))[top]?
      = some (some idx) := by
    rw [hcid, List.getElem?_set_self (by rw [h.assignments_length]; exact htlt)]
  refine ⟨?_, hmanset⟩
  refine
    { chunks_length := by simpa [TextureAtlas.claimFreeChunk] using h.chunks_length
      chunk_id := ?_
      assignments_length := by
        simpa [TextureAtlas.claimFreeChunk] using h.assignments_length
      managers_length := by simpa [TextureAtlas.claimFreeChunk] using h.managers_length
      manager_size := ?_
      free_nodup := (List.nodup_cons.1 hnd).2
      free_lt := fun c hc => h.free_lt c (hmem_rest c hc)
      free_available := ?_
      free_live := fun c hc => h.free_live c (hmem_rest c hc)
      partial_nodup := ?_
      partial_chunk := ?_
      assigned := ?_
      live_chunklet := ?_ }
  · intro i ch hi
    rcases getElem?_set_some hi with ⟨h1, h2⟩ | ⟨h1, h2⟩
    · subst h1; subst h2; exact hcid
    · exact h.chunk_id i ch h2
  · intro j m hjm
    rcases getElem?_set_some hjm with ⟨h1, h2⟩ | ⟨h1, h2⟩
    · subst h1; subst h2; exact h.manager_size j manager hm
    · exact h.manager_size j m h2
  · intro c ch hc hi
    rcases getElem?_set_some hi with ⟨h1, h2⟩ | ⟨h1, h2⟩
    · subst h1; exact absurd hc htop_rest
    · exact h.free_available c ch (hmem_rest c hc) h2
  · intro j m hjm
    rcases getElem?_set_some hjm with ⟨h1, h2⟩ | ⟨h1, h2⟩
    · subst h2; simp [hemp]
    · exact h.partial_nodup j m h2
  · intro j m c hjm hc
    rcases getElem?_set_some hjm with ⟨h1, h2⟩ | ⟨h1, h2⟩
    · subst h1; subst h2
      simp only [hemp, List.nil_append, List.mem_singleton, hcid] at hc
      subst hc
      refine ⟨htop_rest, hassign_top, _, getElem?_set_same hchunk, ?_⟩
      simp only [hav, List.nil_append]
      intro hc
      have := TextureAtlas.pushedChunkletIDs_length
        (P.MaxTextureSize / P.managerSize j * (P.MaxTextureSize / P.managerSize j))
      rw [hc] at this
      simp only [List.length_nil] at this
      unfold AtlasParams.chunkletsOf at hnpos
      omega
    · obtain ⟨hf, ha, ch, hch, hne⟩ := h.partial_chunk j m c h2 hc
      have hct : c ≠ top := fun heq => hf (heq ▸ htop_mem)
      refine ⟨fun hc' => hf (hmem_rest c hc'), ?_, ch, ?_, hne⟩
      · show (cfg.atlas.chunkAssignments.set chunk.ChunkID (some idx))[c]? = _
        rw [hcid, List.getElem?_set_ne (fun h' => hct h'.symm)]; exact ha
      · show (cfg.atlas.chunks.set top _)[c]? = _
        rw [List.getElem?_set_ne (fun h' => hct h'.symm)]; exact hch
  · intro c ch hi hcf
    rcases getElem?_set_some hi with ⟨h1, h2⟩ | ⟨h1, h2⟩
    · subst h1; subst h2
      refine ⟨idx, _, hassign_top, hmanset, ?_, ?_, fun _ => by simp⟩
      · simp only [hav, List.nil_append, TextureAtlas.pushedChunkletIDs_length, hlive0]
        rfl
      · intro id hid
        simp only [hav, List.nil_append] at hid
        exact TextureAtlas.pushedChunkletIDs_lt hid
    · obtain ⟨j, m, hj, hmj, hcnt, hids, hpart⟩ :=
        h.assigned c ch h2 (hnot_rest c h1 hcf)
      have hassign : (cfg.atlas.chunkAssignments.set chunk.ChunkID (some idx))[c]?
          = some (some j) := by
        rw [hcid, List.getElem?_set_ne (fun h' => h1 h'.symm)]; exact hj
      by_cases hji : j = idx
      · subst hji
        have hmm : m = manager := by rw [hm] at hmj; simp at hmj; exact hmj.symm
        subst hmm
        refine ⟨j, _, hassign, hmanset, hcnt, hids, ?_⟩
        intro hne
        have := hpart hne
        rw [hemp] at this
        simp at this
      · refine ⟨j, m, hassign, ?_, hcnt, hids, hpart⟩
        show (cfg.atlas.managers.set idx _)[j]? = _
        rw [List.getElem?_set_ne (fun h' => hji h'.symm)]; exact hmj
  · intro k hk
    obtain ⟨h1, j, h2, h3, h4, h5⟩ := h.live_chunklet k hk
    have hkt : k.ChunkID ≠ top := h.free_live top htop_mem k hk
    refine ⟨h1, j, ?_, h3, h4, h5⟩
    show (cfg.atlas.chunkAssignments.set chunk.ChunkID (some idx))[k.ChunkID]? = _
    rw [hcid, List.getElem?_set_ne (fun h' => hkt h'.symm)]; exact h2

/-- A call of `Allocate` that returns keeps the invariant and returns a chunklet of the
requested size class inside a chunk of the atlas. -/
theorem AtlasConfig.Inv.allocateAux {P : AtlasParams} (hP : P.StaticAsserts)
    (hle : P.MinTextureSize ≤ P.MaxTextureSize) {width height : Nat} :
    ∀ (fuel : Nat) (cfg : AtlasConfig) (c : Chunklet) (atlas' : TextureAtlas),
      cfg.Inv P → TextureAtlas.AllocateAux P fuel cfg.atlas width height = .returned c atlas' →
      AtlasConfig.Inv P ⟨atlas', c :: cfg.live⟩ ∧ c.Answers P width height := by
  intro fuel
  induction fuel with
  | zero => intro cfg c atlas' _ h; simp [TextureAtlas.AllocateAux] at h
  | succ f ih =>
    intro cfg c atlas' hinv h
    rw [TextureAtlas.AllocateAux] at h
    cases hc : bit_ceil (max width height) with
    | none => rw [hc] at h; simp at h
    | some ceil =>
      rw [hc] at h
      simp only at h
      by_cases hmax : ceil > P.MaxTextureSize
      · rw [if_pos hmax] at h; simp at h
      · rw [if_neg hmax] at h
        obtain ⟨hidx, hsize⟩ := P.size_facts hP hle hc hmax
        generalize hsz : TextureAtlas.chunkletSize P ceil = size at h hidx hsize
        generalize hix : TextureAtlas.managerIndex P size = idx at h hidx hsize
        subst hsize
        cases hm : cfg.atlas.managers[idx]? with
        | none => rw [hm] at h; simp at h
        | some manager =>
          rw [hm] at h
          simp only at h
          by_cases hemp : manager.PartialChunks.isEmpty = true
          · simp only [hemp, Bool.not_true, Bool.false_eq_true, if_false] at h
            cases hf : cfg.atlas.freeChunks with
            | nil => rw [hf] at h; simp at h
            | cons top rest =>
              rw [hf] at h
              simp only at h
              cases hch : cfg.atlas.chunks[top]? with
              | none => rw [hch] at h; simp at h
              | some chunk =>
                rw [hch] at h
                simp only at h
                by_cases hlt : chunk.ChunkID < cfg.atlas.chunkAssignments.length
                · rw [if_pos hlt] at h
                  have hn := (P.manager_facts hP hle hidx).2.2.2.2
                  have hclaim := (hinv.claim hm (List.isEmpty_iff.1 hemp) hf hch hn).1
                  exact ih ⟨TextureAtlas.claimFreeChunk P cfg.atlas idx manager top rest chunk
                    (P.managerSize idx), cfg.live⟩ c atlas' hclaim h
                · rw [if_neg hlt] at h; simp at h
          · simp only [hemp, Bool.not_false, if_true] at h
            obtain ⟨h1, h2, h3, h4, h5, h6, h7⟩ :=
              hinv.allocate_partial hm hidx rfl h
            refine ⟨h1, ceil, hc, hmax, by rw [h7, hsz], ?_, ?_, h2, ?_, ?_, h5, h6⟩
            · rw [h7, hix]
            · rw [h7, hix]; exact hidx
            · rw [h7]; exact h3
            · rw [h7]; exact h4

/-- The three ways `Deallocate` leaves the atlas, for a chunk and a manager that exist. -/
theorem TextureAtlas.Deallocate_eq {P : AtlasParams} {atlas : TextureAtlas} {k : Chunklet}
    {j : Nat} {manager : ChunkManager} {chunk : Chunk}
    (ha : atlas.chunkAssignments[k.ChunkID]? = some (some j))
    (hm : atlas.managers[j]? = some manager) (hc : atlas.chunks[k.ChunkID]? = some chunk)
    (hs : manager.Size = P.managerSize j) (hpos : 1 ≤ P.managerSize j) :
    TextureAtlas.Deallocate P atlas k =
      if chunk.AvailableChunkletIDs.length + 1 = P.chunkletsOf j then
        some
          { atlas with
            freeChunks := k.ChunkID :: atlas.freeChunks
            chunks := atlas.chunks.set k.ChunkID { chunk with AvailableChunkletIDs := [] }
            managers := atlas.managers.set j
              { manager with PartialChunks := manager.PartialChunks.erase k.ChunkID } }
      else if chunk.AvailableChunkletIDs = [] then
        some
          { atlas with
            chunks := atlas.chunks.set k.ChunkID
              { chunk with AvailableChunkletIDs := [k.ChunkletID] }
            managers := atlas.managers.set j
              { manager with PartialChunks := manager.PartialChunks ++ [k.ChunkID] } }
      else
        some
          { atlas with
            chunks := atlas.chunks.set k.ChunkID
              { chunk with
                AvailableChunkletIDs := chunk.AvailableChunkletIDs ++ [k.ChunkletID] } } := by
  have hne : manager.Size ≠ 0 := by rw [hs]; omega
  have hN : P.MaxTextureSize / manager.Size * (P.MaxTextureSize / manager.Size)
      = P.chunkletsOf j := by rw [hs]; rfl
  unfold TextureAtlas.Deallocate
  simp only [ha, hm, hc, hne, if_false, List.length_append, List.length_singleton, hN]
  by_cases h1 : chunk.AvailableChunkletIDs.length + 1 = P.chunkletsOf j
  · simp only [h1, if_true]
  · simp only [h1, if_false]
    by_cases h2 : chunk.AvailableChunkletIDs = []
    · simp [h2]
    · have : ¬ chunk.AvailableChunkletIDs.length + 1 = 1 := by
        have := List.length_pos.2 h2
        omega
      simp [h2, this]

theorem set_getElem?_self {α : Type} {l : List α} {i : Nat} {a : α} (h : l[i]? = some a) :
    l.set i a = l := by
  apply List.ext_getElem?
  intro n
  by_cases hn : i = n
  · subst hn; rw [getElem?_set_same h, h]
  · rw [List.getElem?_set_ne hn]

/-- A change of one assigned chunk `c` and of the partial list of its manager keeps the
invariant when the ledger only loses chunklets and the chunk either stays assigned, with its
counts in step, or goes back on the stack with nothing available and nothing live. -/
theorem AtlasConfig.Inv.update {P : AtlasParams} {cfg : AtlasConfig} (h : cfg.Inv P)
    {c j : Nat} {chunk : Chunk} {manager : ChunkManager} {X Y F : List Nat}
    {L : List Chunklet}
    (hc : cfg.atlas.chunks[c]? = some chunk) (hm : cfg.atlas.managers[j]? = some manager)
    (ha : cfg.atlas.chunkAssignments[c]? = some (some j)) (hcf : c ∉ cfg.atlas.freeChunks)
    (hF : F = cfg.atlas.freeChunks ∨ F = c :: cfg.atlas.freeChunks)
    (hlive : ∀ k, k ∈ L → k ∈ cfg.live)
    (hother : ∀ c', c' ≠ c → liveCount L c' = liveCount cfg.live c')
    (hYnd : Y.Nodup) (hY : ∀ c', c' ≠ c → (c' ∈ Y ↔ c' ∈ manager.PartialChunks))
    (hfreed : F = c :: cfg.atlas.freeChunks → X = [] ∧ c ∉ Y ∧ liveCount L c = 0)
    (hkept : F = cfg.atlas.freeChunks →
      X.length + liveCount L c = P.chunkletsOf j ∧ (∀ id ∈ X, id < P.chunkletsOf j) ∧
        (X ≠ [] ↔ c ∈ Y)) :
    AtlasConfig.Inv P
      ⟨{ cfg.atlas with
          chunks := cfg.atlas.chunks.set c { chunk with AvailableChunkletIDs := X }
          managers := cfg.atlas.managers.set j { manager with PartialChunks := Y }
          freeChunks := F }, L⟩ := by
  have hcid : chunk.ChunkID = c := h.chunk_id c chunk hc
  have hclt : c < P.chunkCount := by
    have := getElem?_lt hc
    rw [h.chunks_length] at this; exact this
  have hFmem : ∀ x, x ∈ F → x = c ∨ x ∈ cfg.atlas.freeChunks := by
    intro x hx
    rcases hF with rfl | rfl
    · exact Or.inr hx
    · exact List.mem_cons.1 hx
  have hFsup : ∀ x, x ∈ cfg.atlas.freeChunks → x ∈ F := by
    intro x hx
    rcases hF with rfl | rfl
    · exact hx
    · exact List.mem_cons_of_mem _ hx
  have hcF : c ∈ F → F = c :: cfg.atlas.freeChunks := by
    intro hx
    rcases hF with rfl | rfl
    · exact absurd hx hcf
    · rfl
  have hcnF : c ∉ F → F = cfg.atlas.freeChunks := by
    intro hx
    rcases hF with rfl | rfl
    · rfl
    · exact absurd (List.mem_cons_self _ _) hx
  refine
    { chunks_length := by simpa using h.chunks_length
      chunk_id := ?_
      assignments_length := h.assignments_length
      managers_length := by simpa using h.managers_length
      manager_size := ?_
      free_nodup := ?_
      free_lt := ?_
      free_available := ?_
      free_live := ?_
      partial_nodup := ?_
      partial_chunk := ?_
      assigned := ?_
      live_chunklet := fun k hk => h.live_chunklet k (hlive k hk) }
  · intro i ch hi
    rcases getElem?_set_some hi with ⟨h1, h2⟩ | ⟨h1, h2⟩
    · subst h1; subst h2; exact hcid
    · exact h.chunk_id i ch h2
  · intro j' m hjm
    rcases getElem?_set_some hjm with ⟨h1, h2⟩ | ⟨h1, h2⟩
    · subst h1; subst h2; exact h.manager_size j' manager hm
    · exact h.manager_size j' m h2
  · rcases hF with rfl | rfl
    · exact h.free_nodup
    · exact List.nodup_cons.2 ⟨hcf, h.free_nodup⟩
  · intro x hx
    rcases hFmem x hx with rfl | hx'
    · exact hclt
    · exact h.free_lt x hx'
  · intro x ch hx hi
    rcases getElem?_set_some hi with ⟨h1, h2⟩ | ⟨h1, h2⟩
    · subst h1; subst h2
      exact (hfreed (hcF hx)).1
    · rcases hFmem x hx with h' | h'
      · exact absurd h' h1
      · exact h.free_available x ch h' h2
  · intro x hx k hk
    rcases hFmem x hx with rfl | hx'
    · exact liveCount_eq_zero.1 (hfreed (hcF hx)).2.2 k hk
    · exact h.free_live x hx' k (hlive k hk)
  · intro j' m hjm
    rcases getElem?_set_some hjm with ⟨h1, h2⟩ | ⟨h1, h2⟩
    · subst h2; exact hYnd
    · exact h.partial_nodup j' m h2
  · intro j' m x hjm hx
    rcases getElem?_set_some hjm with ⟨h1, h2⟩ | ⟨h1, h2⟩
    · subst h1; subst h2
      by_cases hxc : x = c
      · subst hxc
        have hcnF' : x ∉ F := fun hx' => (hfreed (hcF hx')).2.1 hx
        refine ⟨hcnF', ha, _, getElem?_set_same hc, ?_⟩
        exact (hkept (hcnF hcnF')).2.2.2 hx
      · obtain ⟨hf, ha', ch, hch, hne⟩ :=
          h.partial_chunk j' manager x hm ((hY x hxc).1 hx)
        refine ⟨fun hx' => ?_, ha', ch, ?_, hne⟩
        · rcases hFmem x hx' with h' | h'
          · exact hxc h'
          · exact hf h'
        · show (cfg.atlas.chunks.set c _)[x]? = _
          rw [List.getElem?_set_ne (fun h' => hxc h'.symm)]; exact hch
    · obtain ⟨hf, ha', ch, hch, hne⟩ := h.partial_chunk j' m x h2 hx
      have hxc : x ≠ c := by
        intro heq; subst heq
        rw [ha] at ha'; simp at ha'; exact h1 ha'.symm
      refine ⟨fun hx' => ?_, ha', ch, ?_, hne⟩
      · rcases hFmem x hx' with h' | h'
        · exact hxc h'
        · exact hf h'
      · show (cfg.atlas.chunks.set c _)[x]? = _
        rw [List.getElem?_set_ne (fun h' => hxc h'.symm)]; exact hch
  · intro x ch hi hxF
    rcases getElem?_set_some hi with ⟨h1, h2⟩ | ⟨h1, h2⟩
    · subst h1; subst h2
      obtain ⟨k1, k2, k3⟩ := hkept (hcnF hxF)
      exact ⟨j, _, ha, getElem?_set_same hm, k1, k2, fun hne => k3.1 hne⟩
    · obtain ⟨j', m, hj', hmj', hcnt, hids, hpart⟩ :=
        h.assigned x ch h2 (fun hx' => hxF (hFsup x hx'))
      rw [← hother x h1] at hcnt
      by_cases hjj : j' = j
      · subst hjj
        have hmm : m = manager := by rw [hm] at hmj'; simp at hmj'; exact hmj'.symm
        subst hmm
        exact ⟨j', _, hj', getElem?_set_same hm, hcnt, hids,
          fun hne => (hY x h1).2 (hpart hne)⟩
      · refine ⟨j', m, hj', ?_, hcnt, hids, hpart⟩
        show (cfg.atlas.managers.set j _)[j']? = _
        rw [List.getElem?_set_ne (fun h' => hjj h'.symm)]; exact hmj'

/-- A `Deallocate` of a live chunklet is defined and keeps the invariant. -/
theorem AtlasConfig.Inv.deallocate_inv {P : AtlasParams} (hP : P.StaticAsserts)
    (hle : P.MinTextureSize ≤ P.MaxTextureSize) {cfg : AtlasConfig} (h : cfg.Inv P)
    {k : Chunklet} (hk : k ∈ cfg.live) :
    ∃ atlas', TextureAtlas.Deallocate P cfg.atlas k = some atlas' ∧
      AtlasConfig.Inv P ⟨atlas', cfg.live.erase k⟩ := by
  obtain ⟨hclt, j, ha, hj, hksize, hkid⟩ := h.live_chunklet k hk
  have hcf : k.ChunkID ∉ cfg.atlas.freeChunks := fun hc => h.free_live _ hc k hk rfl
  obtain ⟨chunk, hc⟩ : ∃ chunk, cfg.atlas.chunks[k.ChunkID]? = some chunk := by
    have : k.ChunkID < cfg.atlas.chunks.length := by rw [h.chunks_length]; exact hclt
    exact ⟨_, List.getElem?_eq_getElem this⟩
  obtain ⟨j', manager, ha', hm, hcnt, hids, hpart⟩ := h.assigned _ chunk hc hcf
  have hjj : j' = j := by rw [ha] at ha'; simp at ha'; exact ha'.symm
  subst hjj
  have hfacts := P.manager_facts hP hle hj
  have hs := h.manager_size j' manager hm
  rw [TextureAtlas.Deallocate_eq ha hm hc hs hfacts.2.1]
  have hlc := liveCount_erase hk k.ChunkID
  simp only [if_true] at hlc
  have hother : ∀ c', c' ≠ k.ChunkID →
      liveCount (cfg.live.erase k) c' = liveCount cfg.live c' := by
    intro c' hc'
    have := liveCount_erase hk c'
    have hne : ¬ k.ChunkID = c' := fun h' => hc' h'.symm
    simp only [hne, if_false, Nat.add_zero] at this
    exact this.symm
  have hlive : ∀ x, x ∈ cfg.live.erase k → x ∈ cfg.live := fun x hx =>
    List.mem_of_mem_erase hx
  have hnd := h.partial_nodup j' manager hm
  by_cases h1 : chunk.AvailableChunkletIDs.length + 1 = P.chunkletsOf j'
  · rw [if_pos h1]
    refine ⟨_, rfl, ?_⟩
    exact h.update hc hm ha hcf (Or.inr rfl) hlive hother (hnd.erase _)
      (fun c' hc' => by rw [List.mem_erase_of_ne hc'])
      (fun _ => ⟨rfl, hnd.not_mem_erase, by omega⟩)
      (fun hF => by
        have : (k.ChunkID :: cfg.atlas.freeChunks).length = cfg.atlas.freeChunks.length := by
          rw [hF]
        simp at this)
  · rw [if_neg h1]
    by_cases h2 : chunk.AvailableChunkletIDs = []
    · rw [if_pos h2]
      refine ⟨_, rfl, ?_⟩
      have hnp : k.ChunkID ∉ manager.PartialChunks := by
        intro hmem
        obtain ⟨-, -, ch, hch, hne⟩ := h.partial_chunk j' manager _ hm hmem
        rw [hc] at hch; simp at hch; subst hch
        exact hne h2
      refine h.update hc hm ha hcf (Or.inl rfl) hlive hother ?_ ?_ ?_ ?_
      · exact List.nodup_append.2 ⟨hnd, by simp, by
          intro a ha1 ha2
          simp at ha2; subst ha2; exact hnp ha1⟩
      · intro c' hc'
        simp [hc']
      · intro hF
        have : (k.ChunkID :: cfg.atlas.freeChunks).length = cfg.atlas.freeChunks.length := by
          rw [← hF]
        simp at this
      · intro _
        rw [h2] at hcnt
        simp only [List.length_nil, Nat.zero_add] at hcnt
        refine ⟨by simp only [List.length_singleton]; omega, ?_, by simp⟩
        intro id hid
        simp only [List.mem_singleton] at hid
        subst hid; exact hkid
    · rw [if_neg h2]
      refine ⟨_, rfl, ?_⟩
      have := h.update (X := chunk.AvailableChunkletIDs ++ [k.ChunkletID])
        (Y := manager.PartialChunks) (F := cfg.atlas.freeChunks) (L := cfg.live.erase k)
        hc hm ha hcf (Or.inl rfl) hlive hother hnd (fun _ _ => Iff.rfl)
        (fun hF => by
          have : (k.ChunkID :: cfg.atlas.freeChunks).length
              = cfg.atlas.freeChunks.length := by rw [← hF]
          simp at this)
        (fun _ => by
          refine ⟨by simp only [List.length_append, List.length_singleton]; omega, ?_, ?_⟩
          · intro id hid
            rcases List.mem_append.1 hid with h' | h'
            · exact hids id h'
            · simp only [List.mem_singleton] at h'; subst h'; exact hkid
          · simp only [ne_eq, List.append_eq_nil, List.cons_ne_self, and_false,
              not_false_eq_true, true_iff]
            exact hpart h2)
      rw [show ({ manager with PartialChunks := manager.PartialChunks } : ChunkManager)
        = manager from rfl, set_getElem?_self hm] at this
      exact this

theorem TextureAtlas.construct_chunk {P : AtlasParams} {i : Nat} {chunk : Chunk}
    (h : (TextureAtlas.construct P).chunks[i]? = some chunk) :
    i < P.chunkCount ∧ chunk = ⟨i, []⟩ := by
  simp only [TextureAtlas.construct, List.getElem?_map] at h
  cases hr : (List.range P.chunkCount)[i]? with
  | none => rw [hr] at h; simp at h
  | some x =>
    rw [hr] at h
    have hlt := getElem?_lt hr
    simp only [List.length_range] at hlt
    rw [List.getElem?_range hlt] at hr
    simp only [Option.some.injEq] at hr
    subst hr
    simp only [Option.map_some', Option.some.injEq] at h
    exact ⟨hlt, h.symm⟩

theorem TextureAtlas.construct_manager {P : AtlasParams} {j : Nat} {manager : ChunkManager}
    (h : (TextureAtlas.construct P).managers[j]? = some manager) :
    j < P.managerCount ∧
    manager = ⟨if P.minBitWidth + j ≤ P.maxBitWidth then 2 ^ (P.minBitWidth + j - 1) else 0,
      []⟩ := by
  simp only [TextureAtlas.construct, List.getElem?_map] at h
  cases hr : (List.range P.managerCount)[j]? with
  | none => rw [hr] at h; simp at h
  | some x =>
    rw [hr] at h
    have hlt := getElem?_lt hr
    simp only [List.length_range] at hlt
    rw [List.getElem?_range hlt] at hr
    simp only [Option.some.injEq] at hr
    subst hr
    simp only [Option.map_some', Option.some.injEq] at h
    exact ⟨hlt, h.symm⟩

/-- The constructor establishes the invariant. -/
theorem AtlasConfig.atlas_inv_start {P : AtlasParams} (hP : P.StaticAsserts)
    (hle : P.MinTextureSize ≤ P.MaxTextureSize) : (AtlasConfig.start P).Inv P := by
  refine
    { chunks_length := by simp [AtlasConfig.start, TextureAtlas.construct]
      chunk_id := ?_
      assignments_length := by simp [AtlasConfig.start, TextureAtlas.construct]
      managers_length := by simp [AtlasConfig.start, TextureAtlas.construct]
      manager_size := ?_
      free_nodup := by
        simp only [AtlasConfig.start, TextureAtlas.construct]; exact List.nodup_range _
      free_lt := by
        intro c hc
        simpa [AtlasConfig.start, TextureAtlas.construct] using hc
      free_available := ?_
      free_live := by intro c _ k hk; simp [AtlasConfig.start] at hk
      partial_nodup := ?_
      partial_chunk := ?_
      assigned := ?_
      live_chunklet := by intro k hk; simp [AtlasConfig.start] at hk }
  · intro i chunk hi
    obtain ⟨-, rfl⟩ := TextureAtlas.construct_chunk hi
    rfl
  · intro j m hj
    obtain ⟨hlt, rfl⟩ := TextureAtlas.construct_manager hj
    have := (P.manager_facts hP hle hlt).1
    simp [this, AtlasParams.managerSize]
  · intro c chunk _ hi
    obtain ⟨-, rfl⟩ := TextureAtlas.construct_chunk hi
    rfl
  · intro j m hj
    obtain ⟨-, rfl⟩ := TextureAtlas.construct_manager hj
    simp
  · intro j m c hj hc
    obtain ⟨-, rfl⟩ := TextureAtlas.construct_manager hj
    simp at hc
  · intro c chunk hi hcf
    obtain ⟨hlt, -⟩ := TextureAtlas.construct_chunk hi
    exact absurd (by simpa [AtlasConfig.start, TextureAtlas.construct] using hlt) hcf

theorem AtlasConfig.atlas_inv_step {P : AtlasParams} (hP : P.StaticAsserts)
    (hle : P.MinTextureSize ≤ P.MaxTextureSize) {cfg next : AtlasConfig} {call : AtlasCall}
    (h : cfg.Inv P) (hs : AtlasConfig.step P cfg call = some next) : next.Inv P := by
  cases call with
  | allocate width height =>
    simp only [AtlasConfig.step] at hs
    cases ha : TextureAtlas.Allocate P cfg.atlas width height with
    | returned c atlas' =>
      rw [ha] at hs
      simp only [Option.some.injEq] at hs
      subst hs
      exact (AtlasConfig.Inv.allocateAux hP hle 2 cfg c atlas' h ha).1
    | fatal => rw [ha] at hs; simp at hs
    | undefined => rw [ha] at hs; simp at hs
  | deallocate k =>
    simp only [AtlasConfig.step] at hs
    by_cases hk : k ∈ cfg.live
    · rw [if_pos hk] at hs
      obtain ⟨atlas', hd, hinv⟩ := h.deallocate_inv hP hle hk
      rw [hd] at hs
      simp only [Option.some.injEq] at hs
      subst hs
      exact hinv
    · rw [if_neg hk] at hs; simp at hs

theorem AtlasConfig.atlas_inv_run {P : AtlasParams} (hP : P.StaticAsserts)
    (hle : P.MinTextureSize ≤ P.MaxTextureSize) :
    ∀ (calls : List AtlasCall) (cfg final : AtlasConfig),
      cfg.Inv P → AtlasConfig.run P cfg calls = some final → final.Inv P := by
  intro calls
  induction calls with
  | nil =>
    intro cfg final h hr
    simp only [AtlasConfig.run, Option.some.injEq] at hr
    subst hr; exact h
  | cons call calls ih =>
    intro cfg final h hr
    simp only [AtlasConfig.run] at hr
    cases hs : AtlasConfig.step P cfg call with
    | none => rw [hs] at hr; simp at hr
    | some next =>
      rw [hs] at hr
      exact ih next final (AtlasConfig.atlas_inv_step hP hle h hs) hr

/-- With `MaxTextureSize < MinTextureSize` no `Allocate` on a fresh atlas returns: the chunk it
claims gets no chunklet, and `back()` is then called on its empty vector. -/
theorem TextureAtlas.construct_stuck {P : AtlasParams}
    (hlt : P.MaxTextureSize < P.MinTextureSize) (width height : Nat) (c : Chunklet)
    (atlas' : TextureAtlas) :
    TextureAtlas.Allocate P (TextureAtlas.construct P) width height ≠ .returned c atlas' := by
  intro h
  unfold TextureAtlas.Allocate at h
  rw [TextureAtlas.AllocateAux] at h
  cases hc : bit_ceil (max width height) with
  | none => rw [hc] at h; simp at h
  | some ceil =>
    rw [hc] at h
    simp only at h
    by_cases hmax : ceil > P.MaxTextureSize
    · rw [if_pos hmax] at h; simp at h
    · rw [if_neg hmax] at h
      have hsz : TextureAtlas.chunkletSize P ceil = P.MinTextureSize := by
        unfold TextureAtlas.chunkletSize
        rw [if_pos (by omega)]
      have hix : TextureAtlas.managerIndex P P.MinTextureSize = 0 := by
        simp only [TextureAtlas.managerIndex, AtlasParams.minBitWidth, u8]
        omega
      rw [hsz, hix] at h
      cases hm : (TextureAtlas.construct P).managers[0]? with
      | none => rw [hm] at h; simp at h
      | some manager =>
        rw [hm] at h
        obtain ⟨-, rfl⟩ := TextureAtlas.construct_manager hm
        simp only [List.isEmpty_nil, Bool.not_true, Bool.false_eq_true, if_false] at h
        cases hf : (TextureAtlas.construct P).freeChunks with
        | nil => rw [hf] at h; simp at h
        | cons top rest =>
          rw [hf] at h
          simp only at h
          cases hch : (TextureAtlas.construct P).chunks[top]? with
          | none => rw [hch] at h; simp at h
          | some chunk =>
            rw [hch] at h
            obtain ⟨htop, rfl⟩ := TextureAtlas.construct_chunk hch
            simp only at h
            by_cases hl : top < (TextureAtlas.construct P).chunkAssignments.length
            · rw [if_pos hl] at h
              rw [TextureAtlas.AllocateAux, hc] at h
              simp only [if_neg hmax, hsz, hix] at h
              have hdiv : P.MaxTextureSize / P.MinTextureSize = 0 := Nat.div_eq_of_lt hlt
              have hm' : (TextureAtlas.claimFreeChunk P (TextureAtlas.construct P) 0
                  ⟨if P.minBitWidth + 0 ≤ P.maxBitWidth then 2 ^ (P.minBitWidth + 0 - 1)
                    else 0, []⟩ top rest ⟨top, []⟩ P.MinTextureSize).managers[0]?
                  = some ⟨if P.minBitWidth + 0 ≤ P.maxBitWidth then
                      2 ^ (P.minBitWidth + 0 - 1) else 0, [top]⟩ := by
                simp only [TextureAtlas.claimFreeChunk]
                rw [getElem?_set_same hm]; rfl
              have hch' : (TextureAtlas.claimFreeChunk P (TextureAtlas.construct P) 0
                  ⟨if P.minBitWidth + 0 ≤ P.maxBitWidth then 2 ^ (P.minBitWidth + 0 - 1)
                    else 0, []⟩ top rest ⟨top, []⟩ P.MinTextureSize).chunks[top]?
                  = some ⟨top, []⟩ := by
                simp only [TextureAtlas.claimFreeChunk, hdiv, Nat.mul_zero,
                  TextureAtlas.pushedChunkletIDs, List.range_zero, List.reverse_nil,
                  List.map_nil, List.append_nil]
                exact getElem?_set_same hch
              rw [hm'] at h
              simp only [List.isEmpty_cons, Bool.not_false, if_true,
                TextureAtlas.allocateFromPartialChunk, List.getLast?_singleton] at h
              rw [hch'] at h
              simp at h
            · rw [if_neg hl] at h; simp at h

/-- With `MaxTextureSize < MinTextureSize` the only state a valid call sequence reaches is the
fresh atlas. -/
theorem AtlasConfig.run_stuck {P : AtlasParams} (hlt : P.MaxTextureSize < P.MinTextureSize)
    {calls : List AtlasCall} {cfg : AtlasConfig}
    (h : AtlasConfig.run P (AtlasConfig.start P) calls = some cfg) :
    cfg = AtlasConfig.start P := by
  cases calls with
  | nil => simp only [AtlasConfig.run, Option.some.injEq] at h; exact h.symm
  | cons call calls =>
    simp only [AtlasConfig.run] at h
    cases call with
    | allocate width height =>
      simp only [AtlasConfig.step] at h
      cases ha : TextureAtlas.Allocate P (AtlasConfig.start P).atlas width height with
      | returned c atlas' =>
        exact absurd ha (TextureAtlas.construct_stuck hlt width height c atlas')
      | fatal => rw [ha] at h; simp at h
      | undefined => rw [ha] at h; simp at h
    | deallocate k => simp [AtlasConfig.step, AtlasConfig.start] at h

/-- An atlas that has a chunk is at least as wide as a chunk, and its chunks fill a square grid
of `chunksPerRow` rows. -/
theorem AtlasParams.chunk_facts {P : AtlasParams} (hP : P.StaticAsserts) {c : Nat}
    (hc : c < P.chunkCount) :
    P.MaxTextureSize * P.chunksPerRow = P.AtlasSize ∧ 1 ≤ P.chunksPerRow ∧
    c < P.chunksPerRow * P.chunksPerRow ∧ P.AtlasSize ≤ 32768 := by
  obtain ⟨a, m, n, ha, hm, hn, hA, hM, hN, -, -⟩ := P.widths hP
  have hpos : 0 < P.AtlasSize * P.AtlasSize / (P.MaxTextureSize * P.MaxTextureSize) := by
    apply Nat.pos_of_ne_zero
    intro h0'
    simp [AtlasParams.chunkCount, u16, h0'] at hc
  have hsq : ∀ e : Nat, (2 : Nat) ^ e * 2 ^ e = 2 ^ (2 * e) := by
    intro e; rw [← Nat.pow_add]; congr 1; omega
  have hma : m ≤ a := by
    by_contra hlt
    have : P.AtlasSize * P.AtlasSize < P.MaxTextureSize * P.MaxTextureSize := by
      rw [hA, hM, hsq, hsq]
      exact pow_two_lt_iff.2 (by omega)
    rw [Nat.div_eq_of_lt this] at hpos
    exact absurd hpos (by decide)
  have hrow : P.chunksPerRow = 2 ^ (a - m) := by
    simp only [AtlasParams.chunksPerRow, hA, hM]
    exact Nat.pow_div hma (by decide)
  have hquot : P.AtlasSize * P.AtlasSize / (P.MaxTextureSize * P.MaxTextureSize)
      = P.chunksPerRow * P.chunksPerRow := by
    rw [hrow, hA, hM, hsq, hsq, hsq, Nat.pow_div (by omega) (by decide)]
    congr 1; omega
  refine ⟨?_, ?_, ?_, ?_⟩
  · rw [hrow, hA, hM, ← Nat.pow_add]; congr 1; omega
  · rw [hrow]; exact Nat.one_le_two_pow
  · have : P.chunkCount ≤ P.chunksPerRow * P.chunksPerRow := by
      simp only [AtlasParams.chunkCount, u16, hquot]
      exact Nat.mod_le _ _
    omega
  · rw [hA]
    have : (2 : Nat) ^ a ≤ 2 ^ 15 := pow_two_le_iff.2 ha
    omega

theorem grid_offset {d q r : Nat} (h : r < q) : d * r + d ≤ d * q := by
  have : d * (r + 1) ≤ d * q := Nat.mul_le_mul_left d h
  rw [Nat.mul_add, Nat.mul_one] at this
  exact this

/-- The coordinates of a chunklet that `Allocate` returned: origin of the chunk plus offset of
the chunklet, no conversion to 16 bits changes a value, and the square lies in its chunk and in
the atlas. -/
theorem Chunklet.Answers.coordinates {P : AtlasParams} (hP : P.StaticAsserts)
    (hle : P.MinTextureSize ≤ P.MaxTextureSize) {c : Chunklet} {width height : Nat}
    (h : c.Answers P width height) :
    c.X = P.MaxTextureSize * (c.ChunkID % P.chunksPerRow)
      + c.Size * (c.ChunkletID % (P.MaxTextureSize / c.Size)) ∧
    c.Y = P.MaxTextureSize * (c.ChunkID / P.chunksPerRow)
      + c.Size * (c.ChunkletID / (P.MaxTextureSize / c.Size)) ∧
    c.X + c.Size ≤ P.MaxTextureSize * (c.ChunkID % P.chunksPerRow) + P.MaxTextureSize ∧
    c.Y + c.Size ≤ P.MaxTextureSize * (c.ChunkID / P.chunksPerRow) + P.MaxTextureSize ∧
    c.X + c.Size ≤ P.AtlasSize ∧ c.Y + c.Size ≤ P.AtlasSize := by
  obtain ⟨ceil, -, -, -, hsize, hidx, hcid, hid, hxy, -, -⟩ := h
  obtain ⟨-, hs1, hs2, hs3, hs4⟩ := P.manager_facts hP hle hidx
  rw [← hsize] at hs1 hs2 hs3 hs4
  obtain ⟨hrow, hrow1, hcsq, hA⟩ := P.chunk_facts hP hcid
  have hcond : ¬ (P.chunksPerRow = 0 ∨ c.Size = 0 ∨ P.MaxTextureSize / c.Size = 0) := by
    omega
  simp only [TextureAtlas.getChunkletCoordinates, hcond, if_false, Option.some.injEq,
    Prod.mk.injEq] at hxy
  have hmod : c.ChunkID % P.chunksPerRow < P.chunksPerRow := Nat.mod_lt _ (by omega)
  have hdiv : c.ChunkID / P.chunksPerRow < P.chunksPerRow :=
    Nat.div_lt_of_lt_mul hcsq
  have hmod' : c.ChunkletID % (P.MaxTextureSize / c.Size) < P.MaxTextureSize / c.Size :=
    Nat.mod_lt _ (by omega)
  have hdiv' : c.ChunkletID / (P.MaxTextureSize / c.Size) < P.MaxTextureSize / c.Size :=
    Nat.div_lt_of_lt_mul hid
  have g1 := grid_offset (d := P.MaxTextureSize) hmod
  have g2 := grid_offset (d := P.MaxTextureSize) hdiv
  have g3 := grid_offset (d := c.Size) hmod'
  have g4 := grid_offset (d := c.Size) hdiv'
  rw [hrow] at g1 g2
  rw [hs3] at g3 g4
  have hx : c.X = P.MaxTextureSize * (c.ChunkID % P.chunksPerRow)
      + c.Size * (c.ChunkletID % (P.MaxTextureSize / c.Size)) := by
    rw [← hxy.1, u16]
    exact Nat.mod_eq_of_lt (by omega)
  have hy : c.Y = P.MaxTextureSize * (c.ChunkID / P.chunksPerRow)
      + c.Size * (c.ChunkletID / (P.MaxTextureSize / c.Size)) := by
    rw [← hxy.2, u16]
    exact Nat.mod_eq_of_lt (by omega)
  refine ⟨hx, hy, ?_, ?_, ?_, ?_⟩ <;> omega

/-- What a valid call sequence reaches: either the sizes are in order and the invariant holds,
or they are not and nothing has happened. -/
theorem AtlasConfig.reachable {P : AtlasParams} (hP : P.StaticAsserts)
    {calls : List AtlasCall} {cfg : AtlasConfig}
    (h : AtlasConfig.run P (AtlasConfig.start P) calls = some cfg) :
    (P.MinTextureSize ≤ P.MaxTextureSize ∧ cfg.Inv P) ∨
    (P.MaxTextureSize < P.MinTextureSize ∧ cfg = AtlasConfig.start P) := by
  by_cases hle : P.MinTextureSize ≤ P.MaxTextureSize
  · exact Or.inl ⟨hle, AtlasConfig.atlas_inv_run hP hle calls _ cfg (AtlasConfig.atlas_inv_start hP hle) h⟩
  · exact Or.inr ⟨by omega, AtlasConfig.run_stuck (by omega) h⟩

/-- A chunklet that `Allocate` returns in a reachable state. -/
theorem AtlasConfig.reachable_allocate {P : AtlasParams} (hP : P.StaticAsserts)
    {calls : List AtlasCall} {cfg : AtlasConfig}
    (h : AtlasConfig.run P (AtlasConfig.start P) calls = some cfg)
    {width height : Nat} {c : Chunklet} {atlas' : TextureAtlas}
    (ha : TextureAtlas.Allocate P cfg.atlas width height = .returned c atlas') :
    P.MinTextureSize ≤ P.MaxTextureSize ∧ c.Answers P width height := by
  rcases AtlasConfig.reachable hP h with ⟨hle, hinv⟩ | ⟨hlt, rfl⟩
  · exact ⟨hle, (AtlasConfig.Inv.allocateAux hP hle 2 cfg c atlas' hinv ha).2⟩
  · exact absurd ha (TextureAtlas.construct_stuck hlt width height c atlas')

theorem AtlasOutcome.chunklet?_eq_some {o : AtlasOutcome} {c : Chunklet}
    (h : o.chunklet? = some c) : ∃ atlas', o = .returned c atlas' := by
  cases o with
  | returned c' atlas' =>
    simp only [AtlasOutcome.chunklet?, Option.some.injEq] at h
    subst h; exact ⟨atlas', rfl⟩
  | fatal => simp [AtlasOutcome.chunklet?] at h
  | undefined => simp [AtlasOutcome.chunklet?] at h

theorem bit_ceil_isNext {x p : Nat} (h : bit_ceil x = some p) : IsNextPowerOfTwo p x := by
  obtain ⟨k, hk, hp, hxp, hmin⟩ := bit_ceil_spec h
  refine ⟨⟨k, hp⟩, hxp, ?_⟩
  rintro q ⟨j, rfl⟩ hxq
  rw [hp]
  apply pow_two_le_iff.2
  by_contra hlt
  have := hmin j (by omega)
  omega

theorem bit_ceil_of_isNext {x p : Nat} (h : IsNextPowerOfTwo p x) (hp : p ≤ 32768) :
    bit_ceil x = some p := by
  obtain ⟨⟨k, hk⟩, hxp, hleast⟩ := h
  obtain ⟨p', hp'⟩ := bit_ceil_defined (x := x) (by omega)
  obtain ⟨k', hk', hpk', hxp', hmin'⟩ := bit_ceil_spec hp'
  have h1 : p ≤ p' := hleast p' ⟨k', hpk'⟩ hxp'
  have h2 : p' ≤ p := by
    rw [hpk', hk]
    apply pow_two_le_iff.2
    by_contra hlt
    have := hmin' k (by omega)
    omega
  rw [hp']; congr 1; omega

/-- The first branch of `Allocate` returns: in a state with the invariant, a request whose
manager has a partial chunk gets the last available chunklet of the last partial chunk. -/
theorem AtlasConfig.Inv.allocate_from_partial {P : AtlasParams} (hP : P.StaticAsserts)
    (hle : P.MinTextureSize ≤ P.MaxTextureSize) {cfg : AtlasConfig} (h : cfg.Inv P)
    {width height ceil : Nat} (hc : bit_ceil (max width height) = some ceil)
    (hmax : ¬ ceil > P.MaxTextureSize) {manager : ChunkManager}
    (hm : cfg.atlas.managers[TextureAtlas.managerIndex P (TextureAtlas.chunkletSize P ceil)]?
      = some manager)
    {ps : List Nat} {back : Nat} (hps : manager.PartialChunks = ps ++ [back]) :
    ∃ (chunk : Chunk) (av : List Nat) (id x y : Nat),
      cfg.atlas.chunks[back]? = some chunk ∧ chunk.AvailableChunkletIDs = av ++ [id] ∧
      TextureAtlas.getChunkletCoordinates P (TextureAtlas.chunkletSize P ceil) back id
        = some (x, y) ∧
      ∀ f, TextureAtlas.AllocateAux P (f + 1) cfg.atlas width height =
        .returned ⟨back, id, x, y, width, height, TextureAtlas.chunkletSize P ceil⟩
          { cfg.atlas with
            chunks := cfg.atlas.chunks.set back ⟨back, av⟩
            managers :=
              if av.isEmpty then
                cfg.atlas.managers.set
                  (TextureAtlas.managerIndex P (TextureAtlas.chunkletSize P ceil))
                  { manager with PartialChunks := ps }
              else cfg.atlas.managers } := by
  obtain ⟨hidx, hsize⟩ := P.size_facts hP hle hc hmax
  generalize hsz : TextureAtlas.chunkletSize P ceil = size at hm hidx hsize ⊢
  generalize hix : TextureAtlas.managerIndex P size = idx at hm hidx hsize ⊢
  have hback : back ∈ manager.PartialChunks := by rw [hps]; simp
  obtain ⟨-, -, chunk, hchunk, hne⟩ := h.partial_chunk idx manager back hm hback
  have hcid : chunk.ChunkID = back := h.chunk_id back chunk hchunk
  have hblt : back < P.chunkCount := by
    have := getElem?_lt hchunk
    rw [h.chunks_length] at this; exact this
  obtain ⟨av, id, hav⟩ : ∃ av id, chunk.AvailableChunkletIDs = av ++ [id] := by
    rcases List.eq_nil_or_concat chunk.AvailableChunkletIDs with h0 | ⟨av, id, h0⟩
    · exact absurd h0 hne
    · exact ⟨av, id, by rw [h0]; simp⟩
  have hms : manager.Size = size := by rw [h.manager_size idx manager hm, hsize]
  obtain ⟨-, hs1, -, -, hs2⟩ := P.manager_facts hP hle hidx
  rw [hsize] at hs1 hs2
  obtain ⟨-, hrow, -, -⟩ := P.chunk_facts hP hblt
  have hcoord : ∃ x y, TextureAtlas.getChunkletCoordinates P size back id = some (x, y) := by
    unfold TextureAtlas.getChunkletCoordinates
    rw [if_neg (by omega)]
    exact ⟨_, _, rfl⟩
  obtain ⟨x, y, hxy⟩ := hcoord
  refine ⟨chunk, av, id, x, y, hchunk, hav, hxy, ?_⟩
  intro f
  have hne' : manager.PartialChunks.isEmpty = false := by rw [hps]; simp
  have hchunk' : chunk = ⟨back, av ++ [id]⟩ := by
    cases chunk; simp only at hcid hav; rw [hcid, hav]
  subst hchunk'
  have hlast : manager.PartialChunks.getLast? = some back := by rw [hps]; simp
  have hdrop : manager.PartialChunks.dropLast = ps := by rw [hps]; simp
  have hlast' : (av ++ [id]).getLast? = some id := by simp
  rw [TextureAtlas.AllocateAux, hc]
  simp only [hmax, if_false, hsz, hix, hm, hne', Bool.not_false, if_true,
    TextureAtlas.allocateFromPartialChunk, hlast, hdrop, hchunk, hlast',
    List.dropLast_concat, hms, hxy]

/-- The second branch of `Allocate` calls `Allocate` again: in a state with the invariant, a
request whose manager has no partial chunk claims the chunk on top of `freeChunks`. -/
theorem AtlasConfig.Inv.allocate_claims {P : AtlasParams} {cfg : AtlasConfig} (h : cfg.Inv P)
    {width height ceil : Nat} (hc : bit_ceil (max width height) = some ceil)
    (hmax : ¬ ceil > P.MaxTextureSize) {manager : ChunkManager}
    (hm : cfg.atlas.managers[TextureAtlas.managerIndex P (TextureAtlas.chunkletSize P ceil)]?
      = some manager)
    (hemp : manager.PartialChunks = []) {top : Nat} {rest : List Nat}
    (hfree : cfg.atlas.freeChunks = top :: rest) :
    ∃ chunk : Chunk, cfg.atlas.chunks[top]? = some chunk ∧
      ∀ f, TextureAtlas.AllocateAux P (f + 1) cfg.atlas width height =
        TextureAtlas.AllocateAux P f
          (TextureAtlas.claimFreeChunk P cfg.atlas
            (TextureAtlas.managerIndex P (TextureAtlas.chunkletSize P ceil)) manager top rest
            chunk (TextureAtlas.chunkletSize P ceil)) width height := by
  have htop : top < P.chunkCount := h.free_lt top (by rw [hfree]; simp)
  obtain ⟨chunk, hchunk⟩ : ∃ chunk, cfg.atlas.chunks[top]? = some chunk :=
    ⟨_, List.getElem?_eq_getElem (by rw [h.chunks_length]; exact htop)⟩
  have hcid : chunk.ChunkID = top := h.chunk_id top chunk hchunk
  refine ⟨chunk, hchunk, ?_⟩
  intro f
  have hlt : chunk.ChunkID < cfg.atlas.chunkAssignments.length := by
    rw [hcid, h.assignments_length]; exact htop
  rw [TextureAtlas.AllocateAux, hc]
  simp only [hmax, if_false, hm, hemp, List.isEmpty_nil, Bool.not_true, Bool.false_eq_true,
    hfree, hchunk, hlt, if_true]

/-- The outcome of `Allocate` for a request that `std::bit_ceil` accepts, in a state with the
invariant: fatal when the rounded size exceeds `MaxTextureSize` or when the manager has no
partial chunk and no chunk is free, a chunklet otherwise. -/
theorem AtlasConfig.Inv.allocate_outcome {P : AtlasParams} (hP : P.StaticAsserts)
    (hle : P.MinTextureSize ≤ P.MaxTextureSize) {cfg : AtlasConfig} (h : cfg.Inv P)
    {width height ceil : Nat} (hc : bit_ceil (max width height) = some ceil) :
    (ceil > P.MaxTextureSize → TextureAtlas.Allocate P cfg.atlas width height = .fatal) ∧
    (¬ ceil > P.MaxTextureSize →
      ∃ manager : ChunkManager,
        cfg.atlas.managers[TextureAtlas.managerIndex P (TextureAtlas.chunkletSize P ceil)]?
          = some manager ∧
        (manager.PartialChunks = [] → cfg.atlas.freeChunks = [] →
          TextureAtlas.Allocate P cfg.atlas width height = .fatal) ∧
        (¬ (manager.PartialChunks = [] ∧ cfg.atlas.freeChunks = []) →
          ∃ c atlas', TextureAtlas.Allocate P cfg.atlas width height = .returned c atlas')) := by
  constructor
  · intro hgt
    rw [TextureAtlas.Allocate, TextureAtlas.AllocateAux, hc]
    simp only [hgt, if_true]
  · intro hmax
    obtain ⟨hidx, hsize⟩ := P.size_facts hP hle hc hmax
    obtain ⟨manager, hm⟩ :
        ∃ manager, cfg.atlas.managers[TextureAtlas.managerIndex P
          (TextureAtlas.chunkletSize P ceil)]? = some manager :=
      ⟨_, List.getElem?_eq_getElem (by rw [h.managers_length]; exact hidx)⟩
    refine ⟨manager, hm, ?_, ?_⟩
    · intro hemp hfree
      rw [TextureAtlas.Allocate, TextureAtlas.AllocateAux, hc]
      simp only [hmax, if_false, hm, hemp, List.isEmpty_nil, Bool.not_true,
        Bool.false_eq_true, hfree]
    · intro hnot
      rcases List.eq_nil_or_concat manager.PartialChunks with hemp | ⟨ps, back, hps⟩
      · cases hfree : cfg.atlas.freeChunks with
        | nil => exact absurd ⟨hemp, hfree⟩ hnot
        | cons top rest =>
          obtain ⟨chunk, hchunk, hstep⟩ := h.allocate_claims hc hmax hm hemp hfree
          have hn := (P.manager_facts hP hle hidx).2.2.2.2
          have hclaim := h.claim hm hemp hfree hchunk hn
          rw [hsize] at hclaim
          obtain ⟨hinv', hm'⟩ := hclaim
          obtain ⟨chunk', av, id, x, y, -, -, -, hret⟩ :=
            AtlasConfig.Inv.allocate_from_partial hP hle hinv' hc hmax hm'
              (show _ = [] ++ [top] from rfl)
          exact ⟨_, _, by rw [TextureAtlas.Allocate, hstep 1, hret 0]⟩
      · have hps' : manager.PartialChunks = ps ++ [back] := by rw [hps]; simp
        obtain ⟨chunk', av, id, x, y, -, -, -, hret⟩ :=
          h.allocate_from_partial hP hle hc hmax hm hps'
        exact ⟨_, _, by rw [TextureAtlas.Allocate, hret 1]⟩

theorem liveCount_of_all {live : List Chunklet} {c : Nat} (h : ∀ k ∈ live, k.ChunkID = c) :
    liveCount live c = live.length := by
  unfold liveCount
  rw [List.countP_eq_length]
  intro k hk
  simp [h k hk]

/-- One more chunklet of the chunk that is being handed out. -/
theorem AtlasConfig.Filling.allocate_next {P : AtlasParams} (hP : P.StaticAsserts)
    (hle : P.MinTextureSize ≤ P.MaxTextureSize) {cfg : AtlasConfig} {c idx : Nat}
    {rest : List Nat} (h : cfg.Filling P c idx rest)
    {width height ceil : Nat} (hc : bit_ceil (max width height) = some ceil)
    (hmax : ¬ ceil > P.MaxTextureSize)
    (hidx : TextureAtlas.managerIndex P (TextureAtlas.chunkletSize P ceil) = idx)
    (hroom : cfg.live.length < P.chunkletsOf idx) :
    ∃ (k : Chunklet) (atlas' : TextureAtlas),
      (∀ f, TextureAtlas.AllocateAux P (f + 1) cfg.atlas width height = .returned k atlas') ∧
      k.ChunkID = c ∧ k.Size = TextureAtlas.chunkletSize P ceil ∧ k.Width = width ∧
      k.Height = height ∧ AtlasConfig.Filling P ⟨atlas', k :: cfg.live⟩ c idx rest := by
  obtain ⟨chunk, hchunk, hids⟩ := h.ids
  have hlen := congrArg List.length hids
  rw [List.length_append, List.length_map, TextureAtlas.pushedChunkletIDs_length] at hlen
  have hne : chunk.AvailableChunkletIDs ≠ [] := by
    intro h0; rw [h0] at hlen; simp at hlen; omega
  have hcf : c ∉ cfg.atlas.freeChunks := by rw [h.free]; exact h.not_free
  obtain ⟨j, manager, hj, hm, -, -, hpart⟩ := h.inv.assigned c chunk hchunk hcf
  have hji : j = idx := by
    rw [h.assigned] at hj
    simp only [Option.some.injEq] at hj
    exact hj.symm
  subst hji
  have hmem := hpart hne
  obtain ⟨ps, back, hps⟩ : ∃ ps back, manager.PartialChunks = ps ++ [back] := by
    rcases List.eq_nil_or_concat manager.PartialChunks with h0 | ⟨ps, back, h0⟩
    · rw [h0] at hmem; simp at hmem
    · exact ⟨ps, back, by rw [h0]; simp⟩
  have hback : back = c := h.partials _ manager back hm (by rw [hps]; simp)
  subst hback
  rw [← hidx] at hm
  obtain ⟨chunk', av, id, x, y, hchunk', hav, hxy, hret⟩ :=
    h.inv.allocate_from_partial hP hle hc hmax hm hps
  rw [hchunk] at hchunk'
  simp only [Option.some.injEq] at hchunk'
  subst hchunk'
  obtain ⟨hinv', -⟩ := AtlasConfig.Inv.allocateAux hP hle 1 cfg _ _ h.inv (hret 0)
  refine ⟨_, _, hret, rfl, rfl, rfl, rfl, ?_⟩
  refine { inv := hinv', free := h.free, not_free := h.not_free, assigned := h.assigned,
           partials := ?_, live_chunk := ?_, ids := ?_, coords := ?_ }
  · intro j m d hjm hd
    simp only at hjm
    by_cases hempty : av.isEmpty = true
    · rw [if_pos hempty] at hjm
      rcases getElem?_set_some hjm with ⟨-, rfl⟩ | ⟨-, hold⟩
      · exact h.partials _ manager d hm (by rw [hps]; simp at hd ⊢; exact Or.inl hd)
      · exact h.partials j m d hold hd
    · rw [if_neg hempty] at hjm
      exact h.partials j m d hjm hd
  · intro k hk
    rcases List.mem_cons.1 hk with rfl | hk
    · rfl
    · exact h.live_chunk k hk
  · refine ⟨⟨back, av⟩, getElem?_set_same hchunk, ?_⟩
    rw [← hids, hav]
    simp
  · intro k hk
    rcases List.mem_cons.1 hk with rfl | hk
    · exact hxy
    · exact h.coords k hk

/-- The first chunklet of a chunk: in an idle atlas, `Allocate` claims the chunk on top of the
stack for the manager of the request and returns a chunklet of it. -/
theorem AtlasConfig.Idle.allocate_first {P : AtlasParams} (hP : P.StaticAsserts)
    (hle : P.MinTextureSize ≤ P.MaxTextureSize) {cfg : AtlasConfig} {c : Nat}
    {rest : List Nat} (h : cfg.Idle P c rest)
    {width height ceil : Nat} (hc : bit_ceil (max width height) = some ceil)
    (hmax : ¬ ceil > P.MaxTextureSize) :
    ∃ (k : Chunklet) (atlas' : TextureAtlas),
      TextureAtlas.Allocate P cfg.atlas width height = .returned k atlas' ∧
      k.ChunkID = c ∧ k.Size = TextureAtlas.chunkletSize P ceil ∧ k.Width = width ∧
      k.Height = height ∧
      AtlasConfig.Filling P ⟨atlas', [k]⟩ c
        (TextureAtlas.managerIndex P (TextureAtlas.chunkletSize P ceil)) rest := by
  obtain ⟨hidx, hsize⟩ := P.size_facts hP hle hc hmax
  obtain ⟨manager, hm⟩ :
      ∃ manager, cfg.atlas.managers[TextureAtlas.managerIndex P
        (TextureAtlas.chunkletSize P ceil)]? = some manager :=
    ⟨_, List.getElem?_eq_getElem (by rw [h.inv.managers_length]; exact hidx)⟩
  have hemp := h.partials _ manager hm
  obtain ⟨chunk, hchunk, hstep⟩ := h.inv.allocate_claims hc hmax hm hemp h.free
  have hn := (P.manager_facts hP hle hidx).2.2.2.2
  obtain ⟨hinv', hm'⟩ := h.inv.claim hm hemp h.free hchunk hn
  rw [hsize] at hinv' hm'
  have hcid : chunk.ChunkID = c := h.inv.chunk_id c chunk hchunk
  have hclt : c < P.chunkCount := h.inv.free_lt c (by rw [h.free]; simp)
  have hav : chunk.AvailableChunkletIDs = [] :=
    h.inv.free_available c chunk (by rw [h.free]; simp) hchunk
  have hnd := h.inv.free_nodup
  rw [h.free] at hnd
  have hfill : AtlasConfig.Filling P
      ⟨TextureAtlas.claimFreeChunk P cfg.atlas
        (TextureAtlas.managerIndex P (TextureAtlas.chunkletSize P ceil)) manager c rest chunk
        (TextureAtlas.chunkletSize P ceil), cfg.live⟩ c
      (TextureAtlas.managerIndex P (TextureAtlas.chunkletSize P ceil)) rest := by
    refine { inv := hinv', free := rfl, not_free := (List.nodup_cons.1 hnd).1, assigned := ?_,
             partials := ?_, live_chunk := ?_, ids := ?_, coords := ?_ }
    · simp only [TextureAtlas.claimFreeChunk, hcid]
      have : c < cfg.atlas.chunkAssignments.length := by
        rw [h.inv.assignments_length]; exact hclt
      rw [List.getElem?_set_self this]
    · intro j m d hjm hd
      simp only [TextureAtlas.claimFreeChunk] at hjm
      rcases getElem?_set_some hjm with ⟨-, rfl⟩ | ⟨-, hold⟩
      · simp only [hemp, List.nil_append, List.mem_singleton] at hd
        rw [hd, hcid]
      · rw [h.partials j m hold] at hd; simp at hd
    · intro k hk; rw [h.live] at hk; simp at hk
    · refine ⟨_, getElem?_set_same hchunk, ?_⟩
      simp only [h.live, List.map_nil, List.append_nil, hav, List.nil_append]
      rw [AtlasParams.chunkletsOf, hsize]
    · intro k hk; rw [h.live] at hk; simp at hk
  have hroom : (0 : Nat) < P.chunkletsOf
      (TextureAtlas.managerIndex P (TextureAtlas.chunkletSize P ceil)) := by
    unfold AtlasParams.chunkletsOf
    exact Nat.mul_pos hn hn
  obtain ⟨k, atlas', hret, h1, h2, h3, h4, hfill'⟩ :=
    hfill.allocate_next hP hle hc hmax rfl (by simp only [h.live, List.length_nil]; exact hroom)
  refine ⟨k, atlas', by rw [TextureAtlas.Allocate, hstep 1, hret 0], h1, h2, h3, h4, ?_⟩
  simp only [h.live] at hfill'
  exact hfill'

/-- A run of `Allocate` calls of one size class that the chunk in use has room for. -/
theorem AtlasConfig.Filling.run_allocates {P : AtlasParams} (hP : P.StaticAsserts)
    (hle : P.MinTextureSize ≤ P.MaxTextureSize) {c idx : Nat} {rest : List Nat} :
    ∀ (reqs : List (Nat × Nat)) (cfg : AtlasConfig), cfg.Filling P c idx rest →
      (∀ r ∈ reqs, P.InClass idx r.1 r.2) →
      cfg.live.length + reqs.length ≤ P.chunkletsOf idx →
      ∃ cfg', AtlasConfig.run P cfg (reqs.map fun r => .allocate r.1 r.2) = some cfg' ∧
        cfg'.Filling P c idx rest ∧
        cfg'.live.map (fun k => (k.Width, k.Height))
          = reqs.reverse ++ cfg.live.map (fun k => (k.Width, k.Height)) := by
  intro reqs
  induction reqs with
  | nil => intro cfg h _ _; exact ⟨cfg, rfl, h, by simp⟩
  | cons r reqs ih =>
    intro cfg h hclass hroom
    obtain ⟨ceil, hc, hmax, hidx⟩ := hclass r (by simp)
    simp only [List.length_cons] at hroom
    obtain ⟨k, atlas', hret, -, -, hw, hh, hfill⟩ :=
      h.allocate_next hP hle hc hmax hidx (by omega)
    obtain ⟨cfg', hrun, hfill', hwh⟩ := ih ⟨atlas', k :: cfg.live⟩ hfill
      (fun r' hr' => hclass r' (List.mem_cons_of_mem _ hr'))
      (by simp only [List.length_cons]; omega)
    refine ⟨cfg', ?_, hfill', ?_⟩
    · simp only [List.map_cons, AtlasConfig.run, AtlasConfig.step, TextureAtlas.Allocate,
        hret 1]
      exact hrun
    · rw [hwh]
      simp [hw, hh]

/-- A run of `Allocate` calls of one size class on an idle atlas: the chunk on top of the stack
serves them all, as long as it has room. -/
theorem AtlasConfig.Idle.run_fresh_chunk {P : AtlasParams} (hP : P.StaticAsserts)
    (hle : P.MinTextureSize ≤ P.MaxTextureSize) {c idx : Nat} {rest : List Nat}
    {cfg : AtlasConfig} (h : cfg.Idle P c rest) {reqs : List (Nat × Nat)}
    (hne : reqs ≠ []) (hclass : ∀ r ∈ reqs, P.InClass idx r.1 r.2)
    (hroom : reqs.length ≤ P.chunkletsOf idx) :
    ∃ cfg', AtlasConfig.run P cfg (reqs.map fun r => .allocate r.1 r.2) = some cfg' ∧
      cfg'.Filling P c idx rest ∧
      cfg'.live.map (fun k => (k.Width, k.Height)) = reqs.reverse := by
  cases reqs with
  | nil => exact absurd rfl hne
  | cons r reqs =>
    obtain ⟨ceil, hc, hmax, hidx⟩ := hclass r (by simp)
    obtain ⟨k, atlas', hret, -, -, hw, hh, hfill⟩ := h.allocate_first hP hle hc hmax
    rw [hidx] at hfill
    simp only [List.length_cons] at hroom
    obtain ⟨cfg', hrun, hfill', hwh⟩ := AtlasConfig.Filling.run_allocates hP hle reqs
      ⟨atlas', [k]⟩ hfill (fun r' hr' => hclass r' (List.mem_cons_of_mem _ hr'))
      (by simp only [List.length_singleton]; omega)
    refine ⟨cfg', ?_, hfill', ?_⟩
    · simp only [List.map_cons, AtlasConfig.run, AtlasConfig.step, hret, h.live]
      exact hrun
    · rw [hwh]
      simp [hw, hh]

/-- A fresh atlas that has a chunk is idle, with chunk 0 on top of the stack. -/
theorem AtlasConfig.Idle_start {P : AtlasParams} (hP : P.StaticAsserts)
    (hle : P.MinTextureSize ≤ P.MaxTextureSize) (hchunk : 1 ≤ P.chunkCount) :
    ∃ rest, (AtlasConfig.start P).Idle P 0 rest := by
  obtain ⟨n, hn⟩ : ∃ n, P.chunkCount = n + 1 := ⟨P.chunkCount - 1, by omega⟩
  refine ⟨(List.range n).map Nat.succ, ?_⟩
  refine { inv := AtlasConfig.atlas_inv_start hP hle, live := rfl, free := ?_, partials := ?_ }
  · simp only [AtlasConfig.start, TextureAtlas.construct, hn]
    exact List.range_succ_eq_map n
  · intro j m hjm
    simp only [AtlasConfig.start, TextureAtlas.construct, List.getElem?_map] at hjm
    cases hr : (List.range P.managerCount)[j]? with
    | none => rw [hr] at hjm; simp at hjm
    | some i =>
      rw [hr] at hjm
      simp only [Option.map_some', Option.some.injEq] at hjm
      rw [← hjm]

/-- One `Deallocate` while a single chunk is in use: the chunk goes back on the stack with the
last live chunklet, and stays in use before. -/
theorem AtlasConfig.Solo.deallocate_one {P : AtlasParams} (hP : P.StaticAsserts)
    (hle : P.MinTextureSize ≤ P.MaxTextureSize) {cfg : AtlasConfig} {c idx : Nat}
    {rest : List Nat} (h : cfg.Solo P c idx rest) {k : Chunklet} (hk : k ∈ cfg.live) :
    ∃ atlas', TextureAtlas.Deallocate P cfg.atlas k = some atlas' ∧
      (cfg.live.erase k = [] → AtlasConfig.Idle P ⟨atlas', []⟩ c rest) ∧
      (cfg.live.erase k ≠ [] → AtlasConfig.Solo P ⟨atlas', cfg.live.erase k⟩ c idx rest) := by
  obtain ⟨atlas', hd, hinv'⟩ := h.inv.deallocate_inv hP hle hk
  have hkc : k.ChunkID = c := h.live_chunk k hk
  have hclt : c < P.chunkCount := by rw [← hkc]; exact (h.inv.live_chunklet k hk).1
  obtain ⟨chunk, hchunk⟩ : ∃ chunk, cfg.atlas.chunks[c]? = some chunk :=
    ⟨_, List.getElem?_eq_getElem (by rw [h.inv.chunks_length]; exact hclt)⟩
  have hcf : c ∉ cfg.atlas.freeChunks := by rw [h.free]; exact h.not_free
  obtain ⟨j, manager, hj, hm, hcount, -, -⟩ := h.inv.assigned c chunk hchunk hcf
  have hjlt : j < P.managerCount := by
    have := getElem?_lt hm
    rw [h.inv.managers_length] at this; exact this
  have hpos := (P.manager_facts hP hle hjlt).2.1
  have heq := TextureAtlas.Deallocate_eq (P := P) (k := k) (by rw [hkc]; exact hj) hm
    (by rw [hkc]; exact hchunk) (h.inv.manager_size j manager hm) hpos
  rw [hd] at heq
  rw [liveCount_of_all h.live_chunk] at hcount
  have hlen : cfg.live.length = (cfg.live.erase k).length + 1 := by
    rw [List.length_erase_of_mem hk]
    have := List.length_pos_of_mem hk
    omega
  have hsub : ∀ x, x ∈ cfg.live.erase k → x ∈ cfg.live := fun x hx => List.mem_of_mem_erase hx
  refine ⟨atlas', hd, ?_, ?_⟩
  · intro hnil
    rw [hnil] at hlen hinv'
    have hfull : chunk.AvailableChunkletIDs.length + 1 = P.chunkletsOf j := by
      simp only [List.length_nil] at hlen; omega
    rw [if_pos hfull] at heq
    simp only [Option.some.injEq] at heq
    have hfree' : atlas'.freeChunks = c :: rest := by rw [heq, hkc, h.free]
    refine { inv := hinv', live := rfl, free := hfree', partials := ?_ }
    intro j' m hjm
    rcases List.eq_nil_or_concat m.PartialChunks with h0 | ⟨ps, d, h0⟩
    · exact h0
    · exfalso
      have hdm : d ∈ m.PartialChunks := by rw [h0]; simp
      have hnotfree := (hinv'.partial_chunk j' m d hjm hdm).1
      have hdc : d = c := by
        rw [heq] at hjm
        simp only at hjm
        rcases getElem?_set_some hjm with ⟨-, rfl⟩ | ⟨-, hold⟩
        · exact h.partials j manager d hm (List.mem_of_mem_erase hdm)
        · exact h.partials j' m d hold hdm
      apply hnotfree
      simp only [hfree', hdc, List.mem_cons, true_or]
  · intro hnn
    have hpos' : 0 < (cfg.live.erase k).length := List.length_pos.2 hnn
    have hnotfull : ¬ chunk.AvailableChunkletIDs.length + 1 = P.chunkletsOf j := by omega
    rw [if_neg hnotfull] at heq
    refine { inv := hinv', free := ?_, not_free := h.not_free, assigned := ?_, partials := ?_,
             live_chunk := fun x hx => h.live_chunk x (hsub x hx) }
    · split at heq <;> simp only [Option.some.injEq] at heq <;> rw [heq] <;> exact h.free
    · split at heq <;> simp only [Option.some.injEq] at heq <;> rw [heq] <;> exact h.assigned
    · intro j' m d hjm hdm
      split at heq
      · simp only [Option.some.injEq] at heq
        rw [heq] at hjm
        simp only at hjm
        rcases getElem?_set_some hjm with ⟨-, rfl⟩ | ⟨-, hold⟩
        · simp only [List.mem_append, List.mem_singleton] at hdm
          rcases hdm with hdm | hdm
          · exact h.partials j manager d hm hdm
          · rw [hdm, hkc]
        · exact h.partials j' m d hold hdm
      · simp only [Option.some.injEq] at heq
        rw [heq] at hjm
        exact h.partials j' m d hjm hdm

/-- Deallocating every live chunklet, in any order, while a single chunk is in use, puts the
chunk back on top of the stack and leaves the atlas idle. -/
theorem AtlasConfig.Solo.deallocate_all {P : AtlasParams} (hP : P.StaticAsserts)
    (hle : P.MinTextureSize ≤ P.MaxTextureSize) {c idx : Nat} {rest : List Nat} :
    ∀ (order : List Chunklet) (cfg : AtlasConfig), cfg.Solo P c idx rest →
      order.Perm cfg.live → order ≠ [] →
      ∃ cfg', AtlasConfig.run P cfg (order.map .deallocate) = some cfg' ∧
        cfg'.Idle P c rest := by
  intro order
  induction order with
  | nil => intro cfg _ _ hne; exact absurd rfl hne
  | cons k order ih =>
    intro cfg h hperm _
    have hk : k ∈ cfg.live := hperm.subset (by simp)
    obtain ⟨atlas', hd, hidle, hsolo⟩ := h.deallocate_one hP hle hk
    have hperm' : order.Perm (cfg.live.erase k) :=
      List.Perm.cons_inv (hperm.trans (List.perm_cons_erase hk))
    have hstep : AtlasConfig.step P cfg (.deallocate k)
        = some ⟨atlas', cfg.live.erase k⟩ := by
      simp only [AtlasConfig.step, hk, if_true, hd]
    by_cases hnil : order = []
    · subst hnil
      have he : cfg.live.erase k = [] := List.Perm.eq_nil hperm'.symm
      refine ⟨⟨atlas', []⟩, ?_, hidle he⟩
      simp only [List.map_cons, List.map_nil, AtlasConfig.run, hstep, he]
    · have he : cfg.live.erase k ≠ [] := by
        intro h0
        rw [h0] at hperm'
        exact hnil (List.Perm.eq_nil hperm')
      obtain ⟨cfg', hrun, hidle'⟩ := ih ⟨atlas', cfg.live.erase k⟩ (hsolo he) hperm' hnil
      refine ⟨cfg', ?_, hidle'⟩
      simp only [List.map_cons, AtlasConfig.run, hstep]
      exact hrun

theorem TextureAtlas.pushedChunkletIDs_succ (n : Nat) :
    TextureAtlas.pushedChunkletIDs (n + 1) = u16 n :: TextureAtlas.pushedChunkletIDs n := by
  simp [TextureAtlas.pushedChunkletIDs, List.range_succ]

/-- The tail of the vector that a claim fills is the vector that a smaller claim fills. -/
theorem TextureAtlas.pushedChunkletIDs_suffix :
    ∀ (d : Nat) (a b : List Nat) (m : Nat), b.length = m → a.length = d →
      a ++ b = TextureAtlas.pushedChunkletIDs (m + d) →
      b = TextureAtlas.pushedChunkletIDs m := by
  intro d
  induction d with
  | zero =>
    intro a b m _ ha h
    have : a = [] := List.length_eq_zero.1 ha
    subst this
    simpa using h
  | succ d ih =>
    intro a b m hb ha h
    cases a with
    | nil => simp at ha
    | cons x a =>
      have hsucc : m + (d + 1) = (m + d) + 1 := by omega
      rw [hsucc, TextureAtlas.pushedChunkletIDs_succ, List.cons_append] at h
      simp only [List.cons.injEq] at h
      exact ih a b m hb (by simpa using ha) h.2

theorem TextureAtlas.pushedChunkletIDs_nodup {n : Nat} (h : n ≤ 65536) :
    (TextureAtlas.pushedChunkletIDs n).Nodup := by
  unfold TextureAtlas.pushedChunkletIDs
  apply List.Nodup.map_on
  · intro x hx y hy hxy
    simp only [List.mem_reverse, List.mem_range] at hx hy
    simp only [u16] at hxy
    omega
  · exact List.nodup_reverse.2 (List.nodup_range n)

/-- While a chunk is handed out, the IDs of the live chunklets, most recent first, count down
from the number of live chunklets, each converted to 16 bits. -/
theorem AtlasConfig.Filling.live_ids {P : AtlasParams} {cfg : AtlasConfig} {c idx : Nat}
    {rest : List Nat} (h : cfg.Filling P c idx rest) :
    cfg.live.map (fun k => k.ChunkletID) = TextureAtlas.pushedChunkletIDs cfg.live.length ∧
    cfg.live.length ≤ P.chunkletsOf idx ∧
    (cfg.live.length = P.chunkletsOf idx → ∃ chunk : Chunk,
      cfg.atlas.chunks[c]? = some chunk ∧ chunk.AvailableChunkletIDs = []) := by
  obtain ⟨chunk, hchunk, hids⟩ := h.ids
  have hlen := congrArg List.length hids
  rw [List.length_append, List.length_map, TextureAtlas.pushedChunkletIDs_length] at hlen
  refine ⟨?_, by omega, ?_⟩
  · apply TextureAtlas.pushedChunkletIDs_suffix chunk.AvailableChunkletIDs.length
      chunk.AvailableChunkletIDs _ cfg.live.length (by simp) rfl
    rw [hids]; congr 1; omega
  · intro hfull
    exact ⟨chunk, hchunk, List.length_eq_zero.1 (by omega)⟩

/-- While a single chunk is in use, every live chunklet has the size of the chunk's manager. -/
theorem AtlasConfig.Solo.live_size {P : AtlasParams} {cfg : AtlasConfig} {c idx : Nat}
    {rest : List Nat} (h : cfg.Solo P c idx rest) {k : Chunklet} (hk : k ∈ cfg.live) :
    k.Size = P.managerSize idx := by
  obtain ⟨-, j, hj, -, hs, -⟩ := h.inv.live_chunklet k hk
  rw [h.live_chunk k hk, h.assigned] at hj
  simp only [Option.some.injEq] at hj
  rw [hs, hj]

/-- The manager with index 0 has the size `MinTextureSize`, and requests of at most that size
are served by it. -/
theorem AtlasParams.min_class {P : AtlasParams} (hP : P.StaticAsserts)
    (hle : P.MinTextureSize ≤ P.MaxTextureSize) :
    P.managerSize 0 = P.MinTextureSize ∧
    P.chunkletsOf 0 = (P.MaxTextureSize / P.MinTextureSize)
      * (P.MaxTextureSize / P.MinTextureSize) ∧
    TextureAtlas.managerIndex P P.MinTextureSize = 0 ∧
    ∀ width height, max width height ≤ P.MinTextureSize → P.InClass 0 width height := by
  obtain ⟨a, m, n, ha, hm, hn, hA, hM, hN, hmaxw, hminw⟩ := P.widths hP
  have hsize : P.managerSize 0 = P.MinTextureSize := by
    simp [AtlasParams.managerSize, hminw, hN]
  have hidx : TextureAtlas.managerIndex P P.MinTextureSize = 0 := by
    rw [hN]
    simp only [TextureAtlas.managerIndex, bit_width_pow hn, hminw, u8]; omega
  refine ⟨hsize, by rw [AtlasParams.chunkletsOf, hsize], hidx, ?_⟩
  intro width height hwh
  have hmin : P.MinTextureSize ≤ 32768 := by
    rw [hN]
    have : (2 : Nat) ^ n ≤ 2 ^ 15 := pow_two_le_iff.2 hn
    omega
  obtain ⟨ceil, hc⟩ := bit_ceil_defined (x := max width height) (by omega)
  have hcm : ceil ≤ P.MinTextureSize := (bit_ceil_isNext hc).2.2 _ ⟨n, hN⟩ hwh
  refine ⟨ceil, hc, by omega, ?_⟩
  have : TextureAtlas.chunkletSize P ceil = P.MinTextureSize := by
    unfold TextureAtlas.chunkletSize
    split <;> omega
  rw [this, hidx]

/-- On a `TextureAtlas<1024, 1024, 2>`, `n` calls `Allocate(2, 2)` and then `Allocate(1, 2)`,
at most 262144 calls together, all return chunklets of chunk 0; when `n` is a positive multiple
of 65536 the last one has the `ChunkletID` 0 of the first. -/
theorem AtlasConfig.wrapped_chunklet_id (n : Nat) (hn : n + 1 ≤ 262144) (hpos : 0 < n)
    (hwrap : u16 n = 0) :
    ∃ cfg : AtlasConfig,
      AtlasConfig.run ⟨1024, 1024, 2⟩ (AtlasConfig.start ⟨1024, 1024, 2⟩)
        (List.replicate n (.allocate 2 2) ++ [.allocate 1 2]) = some cfg ∧
      cfg.live.head? = some ⟨0, 0, 0, 0, 1, 2, 2⟩ ∧
      (⟨0, 0, 0, 0, 2, 2, 2⟩ : Chunklet) ∈ cfg.live.tail := by
  have hP : AtlasParams.StaticAsserts ⟨1024, 1024, 2⟩ :=
    ⟨⟨10, by decide, by decide⟩, ⟨10, by decide, by decide⟩, ⟨1, by decide, by decide⟩⟩
  have hle : (⟨1024, 1024, 2⟩ : AtlasParams).MinTextureSize
      ≤ (⟨1024, 1024, 2⟩ : AtlasParams).MaxTextureSize := by decide
  obtain ⟨hms, hco, -, hcls⟩ := AtlasParams.min_class hP hle
  obtain ⟨rest, hidle⟩ := AtlasConfig.Idle_start hP hle (by decide)
  have hreqs : ∀ r ∈ List.replicate n ((2 : Nat), (2 : Nat)) ++ [(1, 2)],
      AtlasParams.InClass ⟨1024, 1024, 2⟩ 0 r.1 r.2 := by
    intro r hr
    apply hcls
    rcases List.mem_append.1 hr with hr | hr
    · rw [List.eq_of_mem_replicate hr]; decide
    · rw [List.mem_singleton.1 hr]; decide
  have hco' : AtlasParams.chunkletsOf ⟨1024, 1024, 2⟩ 0 = 262144 := by rw [hco]; decide
  obtain ⟨cfg, hrun, hfill, hwh⟩ := hidle.run_fresh_chunk hP hle (by simp) hreqs
    (by rw [hco']
        simp only [List.length_append, List.length_replicate, List.length_singleton]
        exact hn)
  have hcalls : List.map (fun r : Nat × Nat => AtlasCall.allocate r.1 r.2)
      (List.replicate n ((2 : Nat), (2 : Nat)) ++ [(1, 2)])
      = List.replicate n (.allocate 2 2) ++ [.allocate 1 2] := by
    simp
  rw [hcalls] at hrun
  rw [List.reverse_append, List.reverse_replicate] at hwh
  simp only [List.reverse_cons, List.reverse_nil, List.nil_append, List.singleton_append]
    at hwh
  have hfield : ∀ k ∈ cfg.live, k.ChunkletID = 0 →
      k = ⟨0, 0, 0, 0, k.Width, k.Height, 2⟩ := by
    intro k hk hid
    have h1 := hfill.live_chunk k hk
    have h2 : k.Size = 2 := by rw [hfill.toSolo.live_size hk, hms]
    have h3 := hfill.coords k hk
    rw [h1, h2, hid] at h3
    have h4 : TextureAtlas.getChunkletCoordinates ⟨1024, 1024, 2⟩ 2 0 0 = some (0, 0) := by
      decide
    rw [h4] at h3
    simp only [Option.some.injEq, Prod.mk.injEq] at h3
    cases k
    simp only at h1 h2 hid h3
    simp only [Chunklet.mk.injEq, and_true, true_and]
    exact ⟨h1, hid, h3.1.symm, h3.2.symm, h2⟩
  obtain ⟨hids, -, -⟩ := hfill.live_ids
  have hlen : cfg.live.length = n + 1 := by
    have := congrArg List.length hwh
    simpa using this
  rw [hlen, TextureAtlas.pushedChunkletIDs_succ] at hids
  cases hl : cfg.live with
  | nil => rw [hl] at hlen; simp at hlen
  | cons a tl =>
    rw [hl] at hwh hids
    simp only [List.map_cons, List.cons.injEq, Prod.mk.injEq] at hwh hids
    obtain ⟨⟨haw, hah⟩, htl⟩ := hwh
    obtain ⟨haid, htlid⟩ := hids
    have ha := hfield a (by rw [hl]; simp) (by rw [haid]; exact hwrap)
    rw [haw, hah] at ha
    have h0 : (0 : Nat) ∈ tl.map (fun k => k.ChunkletID) := by
      rw [htlid]
      simp only [TextureAtlas.pushedChunkletIDs, List.mem_map, List.mem_reverse, List.mem_range]
      exact ⟨0, hpos, by decide⟩
    obtain ⟨b, hb, hbid⟩ := List.mem_map.1 h0
    have hbwh : (b.Width, b.Height) ∈ tl.map (fun k => (k.Width, k.Height)) :=
      List.mem_map.2 ⟨b, hb, rfl⟩
    rw [htl] at hbwh
    have hbwh' := List.eq_of_mem_replicate hbwh
    simp only [Prod.mk.injEq] at hbwh'
    have hb' := hfield b (by rw [hl]; exact List.mem_cons_of_mem _ hb) hbid
    rw [hbwh'.1, hbwh'.2] at hb'
    refine ⟨cfg, hrun, ?_, ?_⟩
    · rw [hl, List.head?_cons, ← ha]
    · rw [hl, List.tail_cons, ← hb']; exact hb

/-- The walk of `Deallocate` passes every node whose `Index` is below `s.Index`. -/
theorem FreeList.deallocateAfter_walk (s : Section) (rest : List Section) :
    ∀ (mid : List Section) (previous last : Section),
      (∀ x ∈ mid ++ [last], x.Index < s.Index) →
      FreeList.deallocateAfter s previous (mid ++ last :: rest)
        = previous :: mid ++ FreeList.deallocateAfter s last rest := by
  intro mid
  induction mid with
  | nil =>
    intro previous last h
    have hl : s.Index > last.Index := h last (by simp)
    simp [FreeList.deallocateAfter, hl]
  | cons m mid ih =>
    intro previous last h
    have hm : s.Index > m.Index := h m (by simp)
    have := ih m last (fun x hx => h x (by simp at hx ⊢; tauto))
    rw [List.cons_append, FreeList.deallocateAfter, if_pos hm, this]
    rfl

/-- When the walk of `Deallocate` stops behind the node `P`, the list up to `P` stays and the
branches with `previous != nullptr` decide about the rest. -/
theorem FreeList.deallocateList_walk (s : Section) (before : List Section) (P : Section)
    (rest : List Section) (h : ∀ x ∈ before ++ [P], x.Index < s.Index) :
    FreeList.deallocateList s (before ++ P :: rest)
      = .ok (before ++ FreeList.deallocateAfter s P rest) := by
  cases before with
  | nil =>
    have hP : s.Index > P.Index := h P (by simp)
    simp [FreeList.deallocateList, hP]
  | cons b before =>
    have hb : s.Index > b.Index := h b (by simp)
    have := FreeList.deallocateAfter_walk s rest before b P
      (fun x hx => h x (by simp at hx ⊢; tauto))
    rw [List.cons_append, FreeList.deallocateList, if_pos hb, this]

theorem Balanced.add_empty {items : List Section} {total : Nat} (head live : List Section)
    (hitems : items = head ++ live) (h : Balanced items total) :
    Balanced (head ++ ⟨0, 0⟩ :: live) total := by
  subst hitems
  refine ⟨?_, ?_⟩
  · have := h.1
    simp only [countSum_append, countSum_cons] at *
    omega
  · intro x hx
    have hold : x = ⟨0, 0⟩ ∨ x ∈ head ++ live := by
      simp only [List.mem_append, List.mem_cons] at hx ⊢
      tauto
    rcases hold with rfl | hold
    · exact Nat.zero_le _
    · have := h.2 x hold
      simp only [massBelow_append, massBelow_cons] at this ⊢
      omega

/-- One call of a valid call sequence on a `FreeListNonBacking` keeps the sections balanced
against the capacity. -/
theorem TrackerConfig.balanced_step {total : Nat} {cfg next : TrackerConfig} {call : Call}
    (h : Balanced (cfg.fl.head ++ cfg.live) total)
    (hs : TrackerConfig.step cfg call = some next) :
    Balanced (next.fl.head ++ next.live) total := by
  cases call with
  | allocate count =>
    simp only [TrackerConfig.step, FreeListNonBacking.Allocate] at hs
    by_cases hc : count ≤ 0
    · simp only [hc, if_true, Option.some.injEq] at hs
      subst hs
      exact Balanced.add_empty cfg.fl.head cfg.live rfl h
    · simp only [hc, if_false, FreeListNonBacking.search_eq] at hs
      cases hsr : FreeList.search count false cfg.fl.head with
      | none => rw [hsr] at hs; simp at hs
      | some r =>
        obtain ⟨ret, rest⟩ := r
        rw [hsr] at hs
        simp only [Option.some.injEq] at hs
        subst hs
        exact h.carve hsr
  | deallocate s =>
    simp only [TrackerConfig.step] at hs
    by_cases hm : s ∈ cfg.live
    · simp only [hm, if_true, FreeListNonBacking.Deallocate,
        FreeListNonBacking.deallocateList_eq] at hs
      cases hd : FreeList.deallocateList s cfg.fl.head with
      | error e => rw [hd] at hs; simp at hs
      | ok rest =>
        rw [hd] at hs
        simp only [Option.some.injEq] at hs
        subst hs
        exact h.deallocate hm hd
    · simp [hm] at hs

theorem TrackerConfig.balanced_run {total : Nat} :
    ∀ (calls : List Call) (cfg final : TrackerConfig),
      Balanced (cfg.fl.head ++ cfg.live) total → TrackerConfig.run cfg calls = some final →
      Balanced (final.fl.head ++ final.live) total := by
  intro calls
  induction calls with
  | nil =>
    intro cfg final h hr
    simp only [TrackerConfig.run, Option.some.injEq] at hr
    subst hr; exact h
  | cons call calls ih =>
    intro cfg final h hr
    simp only [TrackerConfig.run] at hr
    cases hs : TrackerConfig.step cfg call with
    | none => rw [hs] at hr; simp at hr
    | some next =>
      rw [hs] at hr
      exact ih next final (TrackerConfig.balanced_step h hs) hr

theorem TrackerConfig.balanced_start (N : Nat) :
    Balanced ((TrackerConfig.start N).fl.head ++ (TrackerConfig.start N).live) N := by
  refine ⟨?_, ?_⟩
  · simp [TrackerConfig.start, FreeListNonBacking.construct, countSum]
  · intro x hx
    simp [TrackerConfig.start, FreeListNonBacking.construct] at hx
    subst hx
    simp

/-- A scan of `Allocate` that starts at `head` never leaves the list empty. -/
theorem FreeList.search_ne_nil {count : Nat} {l rest : List Section} {ret : Section}
    (h : FreeList.search count false l = some (ret, rest)) : rest ≠ [] := by
  obtain ⟨before, n, after, hl, hb, hn, -, -⟩ := FreeList.search_some l false ret rest h
  have h' := FreeList.search_first count n after hn before false hb
  rw [← hl, h] at h'
  simp only [Option.some.injEq, Prod.mk.injEq] at h'
  rw [h'.2]
  by_cases hc : n.Count = count ∧ (false = true ∨ before ≠ [] ∨ after ≠ [])
  · rw [if_pos hc]
    rcases hc.2 with hf | hb' | ha'
    · simp at hf
    · simp [hb']
    · simp [ha']
  · rw [if_neg hc]; simp

theorem FreeList.allocateLoop_ne_nil {T : Type} {count : Nat} :
    ∀ (fuel : Nat) (fl fl' : FreeList T) (ret : Section),
      FreeList.allocateLoop count fuel fl = .ok (ret, fl') → fl'.head ≠ [] := by
  intro fuel
  induction fuel with
  | zero => intro fl fl' ret h; simp [FreeList.allocateLoop] at h
  | succ f ih =>
    intro fl fl' ret h
    rw [FreeList.allocateLoop] at h
    cases hs : FreeList.search count false fl.head with
    | some r =>
      obtain ⟨ret', rest⟩ := r
      rw [hs] at h
      simp only [Except.ok.injEq, Prod.mk.injEq] at h
      obtain ⟨-, rfl⟩ := h
      exact FreeList.search_ne_nil hs
    | none =>
      rw [hs] at h
      cases hg : FreeList.extendLast fl.totalCount fl.head with
      | none => rw [hg] at h; simp at h
      | some grown =>
        rw [hg] at h
        exact ih _ fl' ret h

theorem FreeList.deallocateAfter_ne_nil (s : Section) :
    ∀ (l : List Section) (previous : Section), FreeList.deallocateAfter s previous l ≠ [] := by
  intro l
  cases l with
  | nil =>
    intro previous
    simp only [FreeList.deallocateAfter]
    split <;> simp
  | cons c l =>
    intro previous
    simp only [FreeList.deallocateAfter]
    split
    · simp
    · split
      · simp
      · split <;> simp

theorem FreeList.deallocateList_ne_nil {s : Section} {l rest : List Section}
    (h : FreeList.deallocateList s l = .ok rest) : rest ≠ [] := by
  cases l with
  | nil => simp [FreeList.deallocateList] at h
  | cons c l =>
    simp only [FreeList.deallocateList] at h
    split at h
    · simp only [Except.ok.injEq] at h
      rw [← h]; exact FreeList.deallocateAfter_ne_nil s l c
    · split at h <;> simp only [Except.ok.injEq] at h <;> rw [← h] <;> simp

/-- The free-range list of a `FreeList` is never empty: `head` is never a null pointer. -/
theorem Config.head_ne_nil {T : Type} {fuel : Nat} :
    ∀ (calls : List Call) (cfg final : Config T),
      cfg.fl.head ≠ [] → Config.run fuel cfg calls = some final → final.fl.head ≠ [] := by
  intro calls
  induction calls with
  | nil =>
    intro cfg final h hr
    simp only [Config.run, Option.some.injEq] at hr
    subst hr; exact h
  | cons call calls ih =>
    intro cfg final h hr
    simp only [Config.run] at hr
    cases hs : Config.step fuel cfg call with
    | none => rw [hs] at hr; simp at hr
    | some next =>
      rw [hs] at hr
      refine ih next final ?_ hr
      cases call with
      | allocate count =>
        simp only [Config.step] at hs
        cases ha : FreeList.Allocate fuel cfg.fl count with
        | error e => rw [ha] at hs; simp at hs
        | ok r =>
          obtain ⟨ret, fl⟩ := r
          rw [ha] at hs
          simp only [Option.some.injEq] at hs
          subst hs
          unfold FreeList.Allocate at ha
          by_cases hc : count = 0
          · simp only [hc, if_true, Except.ok.injEq, Prod.mk.injEq] at ha
            rw [← ha.2]; exact h
          · simp only [hc, if_false] at ha
            exact FreeList.allocateLoop_ne_nil fuel cfg.fl fl ret ha
      | deallocate s =>
        simp only [Config.step] at hs
        by_cases hm : s ∈ cfg.live
        · simp only [hm, if_true, FreeList.Deallocate] at hs
          cases hd : FreeList.deallocateList s cfg.fl.head with
          | error e => rw [hd] at hs; simp at hs
          | ok rest =>
            rw [hd] at hs
            simp only [Option.some.injEq] at hs
            subst hs
            exact FreeList.deallocateList_ne_nil hd
        · simp [hm] at hs

/-- The `while (true)` loop of `Allocate` when no node fits: it doubles the capacity `k` times,
where `k` is the first number of doublings after which the last node, which has received the
capacities `C`, `2 * C`, ..., fits the request, and then carves the request from that node. -/
theorem FreeList.allocateLoop_doubles {T : Type} {count : Nat} (f : Nat) :
    ∀ (k : Nat) (fl : FreeList T) (init : List Section) (last : Section),
      fl.head = init ++ [last] → (∀ m ∈ init, m.Count < count) →
      (∀ j, j < k → last.Count + 2 ^ j * fl.totalCount < count + fl.totalCount) →
      count + fl.totalCount ≤ last.Count + 2 ^ k * fl.totalCount →
      ∃ fl' : FreeList T,
        FreeList.allocateLoop count (f + k + 1) fl = .ok (⟨last.Index, count⟩, fl') ∧
        fl'.totalCount = 2 ^ k * fl.totalCount := by
  intro k
  induction k with
  | zero =>
    intro fl init last hhead hinit _ hfit
    simp only [pow_zero, Nat.one_mul] at hfit
    refine ⟨_, FreeList.allocateLoop_first fl f count init last [] hhead hinit (by omega), ?_⟩
    simp
  | succ k ih =>
    intro fl init last hhead hinit hsmall hfit
    have h0 := hsmall 0 (by omega)
    simp only [pow_zero, Nat.one_mul] at h0
    have hnone : FreeList.search count false fl.head = none := by
      rw [FreeList.search_eq_none, hhead]
      intro n hn
      rcases List.mem_append.1 hn with hn | hn
      · exact hinit n hn
      · rw [List.mem_singleton.1 hn]; omega
    have hgrow := FreeList.extendLast_concat fl.totalCount last init
    rw [← hhead] at hgrow
    have hfuel : f + (k + 1) + 1 = (f + k + 1) + 1 := by omega
    rw [hfuel, FreeList.allocateLoop, hnone, hgrow]
    simp only
    have hpow : ∀ j : Nat, 2 ^ (j + 1) * fl.totalCount = 2 ^ j * (fl.totalCount * 2) := by
      intro j; rw [pow_succ]; ring
    obtain ⟨fl', hret, htot⟩ := ih
      { head := init ++ [⟨last.Index, last.Count + fl.totalCount⟩]
        data := FreeList.growData fl.data fl.totalCount
        totalCount := fl.totalCount * 2 }
      init ⟨last.Index, last.Count + fl.totalCount⟩ rfl hinit
      (by
        intro j hj
        have := hsmall (j + 1) (by omega)
        rw [hpow] at this
        simp only
        omega)
      (by
        rw [hpow] at hfit
        simp only
        omega)
    refine ⟨fl', hret, ?_⟩
    rw [htot, hpow]

/-- Some number of doublings makes the last node fit, when the capacity is not 0. -/
theorem FreeList.doublings_exist (count last C : Nat) (hC : 1 ≤ C) :
    ∃ k, count + C ≤ last + 2 ^ k * C := by
  refine ⟨count, ?_⟩
  have h1 : count + 1 ≤ 2 ^ count := Nat.lt_two_pow count
  have h2 : (count + 1) * C ≤ 2 ^ count * C := Nat.mul_le_mul_right C h1
  have h3 : count ≤ count * C := Nat.le_mul_of_pos_right count hC
  have h4 : (count + 1) * C = count * C + C := by ring
  omega

/-- Writing the `next` member of a slot that is not in a list leaves the list as it is. -/
theorem PoolHeap.LinkedAs_store {next : Nat → Nat} {a v : Nat} :
    ∀ (l : List Nat) (start : Nat), a ∉ l →
      (PoolHeap.LinkedAs (PoolHeap.store next a v) start l ↔ PoolHeap.LinkedAs next start l) := by
  intro l
  induction l with
  | nil => intro start _; simp [PoolHeap.LinkedAs]
  | cons b rest ih =>
    intro start ha
    have hba : b ≠ a := fun e => ha (by rw [e]; simp)
    have hrest : a ∉ rest := fun e => ha (List.mem_cons_of_mem _ e)
    simp only [PoolHeap.LinkedAs, PoolHeap.store, hba, if_false]
    have := ih (next b) hrest
    simp only [PoolHeap.store] at this
    rw [this]

/-- A list that ends with a null pointer is what `chain` reads, given fuel for its length. -/
theorem PoolHeap.chain_of_linkedAs {next : Nat → Nat} (extra : Nat) :
    ∀ (l : List Nat) (start : Nat), PoolHeap.LinkedAs next start l →
      PoolHeap.chain next (l.length + extra) start = l := by
  intro l
  induction l with
  | nil =>
    intro start h
    simp only [PoolHeap.LinkedAs] at h
    subst h
    cases extra <;> simp [PoolHeap.chain]
  | cons b rest ih =>
    intro start h
    simp only [PoolHeap.LinkedAs] at h
    obtain ⟨rfl, hb, hrest⟩ := h
    have hfuel : (start :: rest).length + extra = (rest.length + extra) + 1 := by
      simp only [List.length_cons]; omega
    rw [hfuel, PoolHeap.chain, if_neg hb, ih _ hrest]

theorem PoolHeap.Allocate_of_free (L : PoolLayout) {h : PoolHeap} (hne : h.freeSlots_ ≠ 0) :
    PoolHeap.Allocate L h = (h.freeSlots_, { h with freeSlots_ := h.next h.freeSlots_ }) := by
  simp only [PoolHeap.Allocate, hne, ne_eq, not_false_eq_true, if_true]

theorem PoolHeap.Allocate_of_no_free (L : PoolLayout) {h : PoolHeap} (h0 : h.freeSlots_ = 0) :
    PoolHeap.Allocate L h
      = ((if h.currentSlot_ ≥ h.lastSlot_ then PoolHeap.allocateBlock L h else h).currentSlot_,
          { (if h.currentSlot_ ≥ h.lastSlot_ then PoolHeap.allocateBlock L h else h) with
            currentSlot_ :=
              (if h.currentSlot_ ≥ h.lastSlot_ then PoolHeap.allocateBlock L h
                else h).currentSlot_ + L.slotSize }) := by
  simp only [PoolHeap.Allocate, h0, ne_eq, not_true_eq_false, if_false]

theorem MemoryPool.Allocate_pop (L : PoolLayout) {pool : MemoryPool} {r : Nat}
    {rest : List Nat} (h : pool.freeSlots_ = r :: rest) :
    MemoryPool.Allocate L pool = (r, { pool with freeSlots_ := rest }) := by
  simp only [MemoryPool.Allocate, h]

theorem MemoryPool.Allocate_bump (L : PoolLayout) {pool : MemoryPool}
    (h : pool.freeSlots_ = []) :
    MemoryPool.Allocate L pool
      = ((if pool.currentSlot_ ≥ pool.lastSlot_ then MemoryPool.allocateBlock L pool
            else pool).currentSlot_,
          { (if pool.currentSlot_ ≥ pool.lastSlot_ then MemoryPool.allocateBlock L pool
              else pool) with
            currentSlot_ :=
              (if pool.currentSlot_ ≥ pool.lastSlot_ then MemoryPool.allocateBlock L pool
                else pool).currentSlot_ + L.slotSize }) := by
  simp only [MemoryPool.Allocate, h]

/-- One call of a valid call sequence does the same to the pool of pointers and to the pool of
lists. -/
theorem HeapConfig.Matches.step_matches {L : PoolLayout} {hc next : HeapConfig}
    {pc : PoolConfig} (hm : hc.Matches pc) (hinv : pc.Inv L) {call : PoolCall}
    (hs : HeapConfig.step L hc call = some next) :
    ∃ pnext, PoolConfig.step L pc call = some pnext ∧ next.Matches pnext := by
  obtain ⟨hlive, hfree, hlinked, hcur, hlast, hlen⟩ := hm
  cases call with
  | allocate =>
    simp only [HeapConfig.step, Option.some.injEq] at hs
    subst hs
    refine ⟨_, rfl, ?_⟩
    cases hf : hc.freed with
    | nil =>
      rw [hf] at hlinked hfree
      simp only [PoolHeap.LinkedAs] at hlinked
      rw [MemoryPool.Allocate_bump L hfree, PoolHeap.Allocate_of_no_free L hlinked]
      by_cases hg : hc.heap.currentSlot_ ≥ hc.heap.lastSlot_
      · have hg' : pc.pool.currentSlot_ ≥ pc.pool.lastSlot_ := by rw [hcur, hlast]; exact hg
        rw [if_pos hg, if_pos hg']
        refine ⟨?_, ?_, ?_, ?_, ?_, ?_⟩
        · simp only [MemoryPool.allocateBlock, PoolHeap.allocateBlock, hlen, hlive]
        · simp only [MemoryPool.allocateBlock, hfree, List.erase_nil]
        · simp only [PoolHeap.allocateBlock, hlinked, List.erase_nil, PoolHeap.LinkedAs]
        · simp only [MemoryPool.allocateBlock, PoolHeap.allocateBlock, hlen]
        · simp only [MemoryPool.allocateBlock, PoolHeap.allocateBlock, hlen]
        · simp only [MemoryPool.allocateBlock, PoolHeap.allocateBlock, hlen, List.length_cons]
      · have hg' : ¬ pc.pool.currentSlot_ ≥ pc.pool.lastSlot_ := by
          rw [hcur, hlast]; exact hg
        rw [if_neg hg, if_neg hg']
        refine ⟨?_, ?_, ?_, ?_, hlast, hlen⟩
        · simp only [hlive, hcur]
        · simp only [hfree, List.erase_nil]
        · simp only [hlinked, List.erase_nil, PoolHeap.LinkedAs]
        · simp only [hcur]
    | cons r rest =>
      rw [hf] at hlinked hfree
      simp only [PoolHeap.LinkedAs] at hlinked
      obtain ⟨hhead, hr, hrest⟩ := hlinked
      have hne : hc.heap.freeSlots_ ≠ 0 := by rw [hhead]; exact hr
      rw [MemoryPool.Allocate_pop L hfree, PoolHeap.Allocate_of_free L hne]
      refine ⟨?_, ?_, ?_, hcur, hlast, hlen⟩
      · simp only [hlive, hhead]
      · simp only [hhead, List.erase_cons_head]
      · simp only [hhead, List.erase_cons_head]
        exact hrest
  | deallocate p =>
    simp only [HeapConfig.step] at hs
    by_cases hc' : p ≠ 0 ∧ p ∈ hc.live
    · rw [if_pos hc'] at hs
      simp only [Option.some.injEq] at hs
      subst hs
      have hc'' : p ≠ 0 ∧ p ∈ pc.live := by rw [hlive]; exact hc'
      refine ⟨_, by rw [PoolConfig.step, if_pos hc''], ?_⟩
      have hp0 : p ≠ 0 := hc'.1
      have hnot : p ∉ hc.freed := by
        rw [← hfree]
        intro hmem
        have hnd := hinv.1
        exact (List.nodup_append.1 hnd).2.2 hc''.2 hmem
      have hD : MemoryPool.Deallocate pc.pool p
          = { pc.pool with freeSlots_ := p :: pc.pool.freeSlots_ } := by
        simp only [MemoryPool.Deallocate, hp0, ne_eq, not_false_eq_true, if_true]
      have hD' : PoolHeap.Deallocate hc.heap p
          = { hc.heap with next := PoolHeap.store hc.heap.next p hc.heap.freeSlots_
                           freeSlots_ := p } := by
        simp only [PoolHeap.Deallocate, hp0, ne_eq, not_false_eq_true, if_true]
      rw [hD, hD']
      refine ⟨by simp only [hlive], by simp only [hfree], ?_, hcur, hlast, hlen⟩
      refine ⟨rfl, hp0, ?_⟩
      have hstore : PoolHeap.store hc.heap.next p hc.heap.freeSlots_ p = hc.heap.freeSlots_ := by
        simp [PoolHeap.store]
      show PoolHeap.LinkedAs (PoolHeap.store hc.heap.next p hc.heap.freeSlots_)
        (PoolHeap.store hc.heap.next p hc.heap.freeSlots_ p) hc.freed
      rw [hstore]
      exact (PoolHeap.LinkedAs_store hc.freed hc.heap.freeSlots_ hnot).2 hlinked
    · rw [if_neg hc'] at hs; simp at hs

/-- A valid call sequence does the same to the pool of pointers and to the pool of lists. -/
theorem HeapConfig.Matches.run_matches {L : PoolLayout} (hL : L.Sound) :
    ∀ (calls : List PoolCall) (hc final : HeapConfig) (pc : PoolConfig),
      hc.Matches pc → pc.Inv L → HeapConfig.run L hc calls = some final →
      ∃ pfinal, PoolConfig.run L pc calls = some pfinal ∧ final.Matches pfinal ∧
        pfinal.Inv L := by
  intro calls
  induction calls with
  | nil =>
    intro hc final pc hm hinv hr
    simp only [HeapConfig.run, Option.some.injEq] at hr
    subst hr
    exact ⟨pc, rfl, hm, hinv⟩
  | cons call calls ih =>
    intro hc final pc hm hinv hr
    simp only [HeapConfig.run] at hr
    cases hs : HeapConfig.step L hc call with
    | none => rw [hs] at hr; simp at hr
    | some next =>
      rw [hs] at hr
      obtain ⟨pnext, hps, hm'⟩ := hm.step_matches hinv hs
      obtain ⟨pfinal, hpr, hm'', hinv''⟩ := ih next final pnext hm'
        (PoolConfig.inv_of_step hL hinv hps) hr
      exact ⟨pfinal, by simp only [PoolConfig.run, hps]; exact hpr, hm'', hinv''⟩

theorem HeapConfig.matches_start (heap : Nat → Nat) :
    (HeapConfig.start heap).Matches PoolConfig.start := by
  simp [HeapConfig.Matches, HeapConfig.start, PoolConfig.start, PoolHeap.construct,
    MemoryPool.construct, PoolHeap.LinkedAs]

/-- A block that holds `K >= 1` slots: the `K`-th slot ends inside the block and one more slot
would not. -/
theorem PoolLayout.slots_bound {L : PoolLayout} {k K : Nat} (hs : 1 ≤ L.slotSize)
    (hK : L.slotsInBlock k = K) (hK1 : 1 ≤ K) :
    L.firstSlot k + K * L.slotSize ≤ L.operatorNew k + L.BlockSize ∧
    L.operatorNew k + L.BlockSize < L.firstSlot k + K * L.slotSize + L.slotSize := by
  unfold PoolLayout.slotsInBlock at hK
  have h1 := Nat.div_mul_le_self (L.operatorNew k + L.BlockSize - L.firstSlot k) L.slotSize
  have h2 := Nat.lt_div_mul_add (a := L.operatorNew k + L.BlockSize - L.firstSlot k)
    (b := L.slotSize) (by omega)
  rw [hK] at h1 h2
  have h3 : 1 * L.slotSize ≤ K * L.slotSize := Nat.mul_le_mul_right _ hK1
  omega

/-- What `Allocate` does when the free-slot list is empty and every block holds `K >= 1` slots:
it takes the first block, or the next slot of the current block, or a new block when `K` slots
of the current block have been handed out. -/
theorem PoolConfig.Fill.bump {L : PoolLayout} {K : Nat} {cfg : PoolConfig}
    (hs : 1 ≤ L.slotSize) (hK1 : 1 ≤ K) (hslots : ∀ k, L.slotsInBlock k = K)
    (h : cfg.Fill L K) (hf : cfg.pool.freeSlots_ = []) :
    (cfg.pool.currentBlock_ = [] ∧
      MemoryPool.Allocate L cfg.pool =
        (L.firstSlot 0,
          ⟨[L.operatorNew 0], L.firstSlot 0 + L.slotSize,
            L.operatorNew 0 + L.BlockSize - L.slotSize + 1, []⟩)) ∨
    (∃ k j, cfg.pool.currentBlock_.length = k + 1 ∧ 1 ≤ j ∧ j < K ∧
      cfg.pool.currentSlot_ = L.firstSlot k + j * L.slotSize ∧
      MemoryPool.Allocate L cfg.pool =
        (L.firstSlot k + j * L.slotSize,
          { cfg.pool with currentSlot_ := L.firstSlot k + (j + 1) * L.slotSize })) ∨
    (∃ k, cfg.pool.currentBlock_.length = k + 1 ∧
      cfg.pool.currentSlot_ = L.firstSlot k + K * L.slotSize ∧
      MemoryPool.Allocate L cfg.pool =
        (L.firstSlot (k + 1),
          ⟨L.operatorNew (k + 1) :: cfg.pool.currentBlock_,
            L.firstSlot (k + 1) + L.slotSize,
            L.operatorNew (k + 1) + L.BlockSize - L.slotSize + 1, []⟩)) := by
  rw [MemoryPool.Allocate_bump L hf]
  rcases h with ⟨hnil, hcur, hlast⟩ | ⟨k, j, hlen, hj1, hjK, hcur, hlast⟩
  · left
    refine ⟨hnil, ?_⟩
    have hg : cfg.pool.currentSlot_ ≥ cfg.pool.lastSlot_ := by omega
    rw [if_pos hg]
    simp only [MemoryPool.allocateBlock, hnil, List.length_nil, hf, PoolLayout.firstSlot]
  · obtain ⟨hb1, hb2⟩ := PoolLayout.slots_bound (k := k) hs (hslots k) hK1
    have hmul : (j + 1) * L.slotSize = j * L.slotSize + L.slotSize := by ring
    by_cases hlt : j < K
    · right; left
      refine ⟨k, j, hlen, hj1, hlt, hcur, ?_⟩
      have hle : (j + 1) * L.slotSize ≤ K * L.slotSize := Nat.mul_le_mul_right _ hlt
      rw [hmul] at hle
      have hg : ¬ cfg.pool.currentSlot_ ≥ cfg.pool.lastSlot_ := by
        rw [hcur, hlast]; omega
      rw [if_neg hg, hcur, hmul]
      simp only [Nat.add_assoc]
    · right; right
      have hjK' : j = K := by omega
      subst hjK'
      refine ⟨k, hlen, hcur, ?_⟩
      have hpos : 1 * L.slotSize ≤ j * L.slotSize := Nat.mul_le_mul_right _ hj1
      have hg : cfg.pool.currentSlot_ ≥ cfg.pool.lastSlot_ := by
        rw [hcur, hlast]; omega
      rw [if_pos hg]
      simp only [MemoryPool.allocateBlock, hlen, hf, PoolLayout.firstSlot]

/-- The number of slots handed out of the current block, read off `currentSlot_`. -/
theorem MemoryPool.issued_eq {L : PoolLayout} {cfg : PoolConfig}
    (hs : 1 ≤ L.slotSize) {k j : Nat} (hlen : cfg.pool.currentBlock_.length = k + 1)
    (hcur : cfg.pool.currentSlot_ = L.firstSlot k + j * L.slotSize) :
    MemoryPool.issued L cfg.pool = j := by
  unfold MemoryPool.issued
  rw [hlen, hcur, Nat.add_sub_cancel, Nat.add_sub_cancel_left]
  exact Nat.mul_div_cancel j (by omega)

/-- One call of a valid call sequence keeps `currentSlot_` where `Fill` says. -/
theorem PoolConfig.Fill.step_fill {L : PoolLayout} {K : Nat} {cfg next : PoolConfig}
    (hs : 1 ≤ L.slotSize) (hK1 : 1 ≤ K) (hslots : ∀ k, L.slotsInBlock k = K)
    (h : cfg.Fill L K) {call : PoolCall} (hstep : PoolConfig.step L cfg call = some next) :
    next.Fill L K := by
  cases call with
  | allocate =>
    simp only [PoolConfig.step, Option.some.injEq] at hstep
    subst hstep
    cases hf : cfg.pool.freeSlots_ with
    | cons r rest =>
      rw [MemoryPool.Allocate_pop L hf]
      exact h
    | nil =>
      rcases h.bump hs hK1 hslots hf with ⟨-, hA⟩ | ⟨k, j, hlen, hj1, hjK, hcur, hA⟩ |
        ⟨k, hlen, hcur, hA⟩
      · rw [hA]
        right
        exact ⟨0, 1, rfl, le_refl _, hK1, by simp only [Nat.one_mul], rfl⟩
      · rw [hA]
        right
        rcases h with ⟨hnil, -, -⟩ | ⟨k', j', hlen', -, -, -, hlast'⟩
        · rw [hnil] at hlen; simp at hlen
        · have hkk : k' = k := by omega
          subst hkk
          exact ⟨k', j + 1, hlen, by omega, by omega, rfl, hlast'⟩
      · rw [hA]
        right
        exact ⟨k + 1, 1, by simp only [List.length_cons, hlen], le_refl _, hK1,
          by simp only [Nat.one_mul], rfl⟩
  | deallocate p =>
    simp only [PoolConfig.step] at hstep
    by_cases hc : p ≠ 0 ∧ p ∈ cfg.live
    · rw [if_pos hc] at hstep
      simp only [Option.some.injEq] at hstep
      subst hstep
      simp only [PoolConfig.Fill, MemoryPool.Deallocate, hc.1, ne_eq, not_false_eq_true,
        if_true]
      exact h
    · rw [if_neg hc] at hstep; simp at hstep

theorem PoolConfig.Fill.run_fill {L : PoolLayout} {K : Nat}
    (hs : 1 ≤ L.slotSize) (hK1 : 1 ≤ K) (hslots : ∀ k, L.slotsInBlock k = K) :
    ∀ (calls : List PoolCall) (cfg final : PoolConfig),
      cfg.Fill L K → PoolConfig.run L cfg calls = some final → final.Fill L K := by
  intro calls
  induction calls with
  | nil =>
    intro cfg final h hr
    simp only [PoolConfig.run, Option.some.injEq] at hr
    subst hr; exact h
  | cons call calls ih =>
    intro cfg final h hr
    simp only [PoolConfig.run] at hr
    cases hstep : PoolConfig.step L cfg call with
    | none => rw [hstep] at hr; simp at hr
    | some next =>
      rw [hstep] at hr
      exact ih next final (h.step_fill hs hK1 hslots hstep) hr

theorem PoolConfig.run_concat (L : PoolLayout) (call : PoolCall) :
    ∀ (calls : List PoolCall) (cfg mid : PoolConfig),
      PoolConfig.run L cfg calls = some mid →
      PoolConfig.run L cfg (calls ++ [call]) = PoolConfig.step L mid call := by
  intro calls
  induction calls with
  | nil =>
    intro cfg mid h
    simp only [PoolConfig.run, Option.some.injEq] at h
    subst h
    simp only [List.nil_append, PoolConfig.run]
    cases PoolConfig.step L cfg call <;> rfl
  | cons c calls ih =>
    intro cfg mid h
    simp only [PoolConfig.run, List.cons_append] at h ⊢
    cases hstep : PoolConfig.step L cfg c with
    | none => rw [hstep] at h; simp at h
    | some next =>
      rw [hstep] at h
      exact ih next mid h

/-- The pool after `n` calls of `Allocate` and no `Deallocate`, when every block holds `K >= 1`
slots: for `n = K * q + r + 1` with `r < K` there are `q + 1` blocks and `r + 1` slots of the
newest block are handed out. -/
theorem PoolConfig.run_of_allocates {L : PoolLayout} {K : Nat}
    (hs : 1 ≤ L.slotSize) (hK1 : 1 ≤ K) (hslots : ∀ k, L.slotsInBlock k = K) :
    ∀ n, ∃ cfg, PoolConfig.run L PoolConfig.start (List.replicate n .allocate) = some cfg ∧
      cfg.pool.freeSlots_ = [] ∧ cfg.live.length = n ∧ cfg.Fill L K ∧
      (n = 0 → cfg.pool.currentBlock_ = []) ∧
      (1 ≤ n → ∃ q r, r < K ∧ n = K * q + r + 1 ∧ cfg.pool.currentBlock_.length = q + 1 ∧
        cfg.pool.currentSlot_ = L.firstSlot q + (r + 1) * L.slotSize) := by
  intro n
  induction n with
  | zero =>
    refine ⟨PoolConfig.start, rfl, rfl, rfl, Or.inl ⟨rfl, rfl, rfl⟩, fun _ => rfl, ?_⟩
    intro h; omega
  | succ n ih =>
    obtain ⟨cfg, hrun, hf, hlive, hfill, h0, h1⟩ := ih
    have hrun' := PoolConfig.run_concat L .allocate _ _ cfg hrun
    rw [← List.replicate_succ'] at hrun'
    have hstep : PoolConfig.step L cfg .allocate
        = some ⟨(MemoryPool.Allocate L cfg.pool).2,
            (MemoryPool.Allocate L cfg.pool).1 :: cfg.live⟩ := rfl
    have hfill' := hfill.step_fill hs hK1 hslots hstep
    refine ⟨_, hrun'.trans hstep, ?_, by simp only [List.length_cons, hlive], hfill',
      fun h => by omega, fun _ => ?_⟩
    · rcases hfill.bump hs hK1 hslots hf with ⟨-, hA⟩ | ⟨k, j, -, -, -, -, hA⟩ | ⟨k, -, -, hA⟩
      · rw [hA]
      · rw [hA]; exact hf
      · rw [hA]
    · rcases hfill.bump hs hK1 hslots hf with ⟨hnil, hA⟩ | ⟨k, j, hlen, hj1, hjK, hcur, hA⟩ |
        ⟨k, hlen, hcur, hA⟩
      · have hn0 : n = 0 := by
          by_contra hne
          obtain ⟨q, r, -, -, hlen, -⟩ := h1 (by omega)
          rw [hnil] at hlen; simp at hlen
        subst hn0
        rw [hA]
        exact ⟨0, 0, by omega, by omega, rfl, by simp⟩
      · have hn1 : 1 ≤ n := by
          by_contra hlt
          have := h0 (by omega)
          rw [this] at hlen; simp at hlen
        obtain ⟨q, r, hr, hn, hlen', hcur'⟩ := h1 hn1
        have hkq : k = q := by omega
        subst hkq
        have hjr : j = r + 1 := by
          rw [hcur] at hcur'
          have := Nat.add_left_cancel hcur'
          exact Nat.eq_of_mul_eq_mul_right (by omega) this
        subst hjr
        rw [hA]
        exact ⟨k, r + 1, hjK, by omega, hlen, rfl⟩
      · have hn1 : 1 ≤ n := by
          by_contra hlt
          have := h0 (by omega)
          rw [this] at hlen; simp at hlen
        obtain ⟨q, r, hr, hn, hlen', hcur'⟩ := h1 hn1
        have hkq : k = q := by omega
        subst hkq
        have hjr : K = r + 1 := by
          rw [hcur] at hcur'
          have := Nat.add_left_cancel hcur'
          exact Nat.eq_of_mul_eq_mul_right (by omega) this
        rw [hA]
        refine ⟨k + 1, 0, by omega, ?_, by simp only [List.length_cons, hlen],
          by simp only [Nat.zero_add, Nat.one_mul]⟩
        have : K * (k + 1) = K * k + K := by ring
        omega

/-- The number of blocks after `n` calls of `Allocate` is `n / K` rounded up. -/
theorem PoolLayout.blocks_formula {K n q r : Nat} (hr : r < K) (hn : n = K * q + r + 1) :
    (n + K - 1) / K = q + 1 := by
  have h1 : n + K - 1 = r + K * (q + 1) := by
    have : K * (q + 1) = K * q + K := by ring
    omega
  rw [h1, Nat.add_mul_div_left _ _ (by omega), Nat.div_eq_of_lt hr]
  omega

/-- A chunklet that the first branch of `Allocate` took from a chunk with another live chunklet
goes back where it was: `Deallocate` restores the atlas. -/
theorem AtlasConfig.Inv.partial_round_trip {P : AtlasParams} (hP : P.StaticAsserts)
    (hle : P.MinTextureSize ≤ P.MaxTextureSize) {cfg : AtlasConfig} (h : cfg.Inv P)
    {idx : Nat} {manager : ChunkManager} (hm : cfg.atlas.managers[idx]? = some manager)
    (hidx : idx < P.managerCount) {ps : List Nat} {back : Nat}
    (hps : manager.PartialChunks = ps ++ [back]) {chunk : Chunk}
    (hchunk : cfg.atlas.chunks[back]? = some chunk) {av : List Nat} {id : Nat}
    (hav : chunk.AvailableChunkletIDs = av ++ [id])
    (hnotfull : av.length + 1 ≠ P.chunkletsOf idx) (x y width height size : Nat) :
    TextureAtlas.Deallocate P
      { cfg.atlas with
        chunks := cfg.atlas.chunks.set back ⟨back, av⟩
        managers :=
          if av.isEmpty then cfg.atlas.managers.set idx { manager with PartialChunks := ps }
          else cfg.atlas.managers }
      ⟨back, id, x, y, width, height, size⟩ = some cfg.atlas := by
  have hback : back ∈ manager.PartialChunks := by rw [hps]; simp
  obtain ⟨-, hassign, -⟩ := h.partial_chunk idx manager back hm hback
  have hcid : chunk.ChunkID = back := h.chunk_id back chunk hchunk
  have hchunk_eq : chunk = ⟨back, av ++ [id]⟩ := by
    cases chunk; simp only at hcid hav; rw [hcid, hav]
  have hmanager_eq : manager = { manager with PartialChunks := ps ++ [back] } := by
    cases manager; simp only at hps; rw [hps]
  have hpos := (P.manager_facts hP hle hidx).2.1
  have hsize := h.manager_size idx manager hm
  by_cases hempty : av = []
  · subst hempty
    have hD := @TextureAtlas.Deallocate_eq P
      ({ cfg.atlas with
         chunks := cfg.atlas.chunks.set back ⟨back, []⟩,
         managers := cfg.atlas.managers.set idx { manager with PartialChunks := ps } })
      (⟨back, id, x, y, width, height, size⟩) (idx)
      ({ manager with PartialChunks := ps }) (⟨back, []⟩)
      hassign (getElem?_set_same hm) (getElem?_set_same hchunk) hsize hpos
    simp only [List.isEmpty_nil, if_true]
    rw [hD]
    simp only [List.length_nil, Nat.zero_add] at hnotfull ⊢
    rw [if_neg hnotfull]
    simp only [if_true, List.set_set, Option.some.injEq]
    rw [← hmanager_eq, set_getElem?_self hm]
    have : cfg.atlas.chunks.set back ⟨back, [id]⟩ = cfg.atlas.chunks := by
      have := set_getElem?_self hchunk
      rw [hchunk_eq] at this
      exact this
    rw [this]
  · have hne : av.isEmpty = false := by
      cases av with
      | nil => exact absurd rfl hempty
      | cons a l => rfl
    have hD := @TextureAtlas.Deallocate_eq P
      ({ cfg.atlas with chunks := cfg.atlas.chunks.set back ⟨back, av⟩ })
      (⟨back, id, x, y, width, height, size⟩) (idx)
      (manager) (⟨back, av⟩)
      hassign hm (getElem?_set_same hchunk) hsize hpos
    simp only [hne, Bool.false_eq_true, if_false]
    rw [hD]
    simp only
    rw [if_neg hnotfull, if_neg hempty]
    simp only [List.set_set, Option.some.injEq]
    have : cfg.atlas.chunks.set back ⟨back, av ++ [id]⟩ = cfg.atlas.chunks := by
      have := set_getElem?_self hchunk
      rw [hchunk_eq] at this
      exact this
    rw [this]

/-- The first chunklet of a chunk that `Allocate` has just claimed goes back with its chunk:
`Deallocate` puts the chunk back on top of the stack and restores the chunks and the managers;
only the entry of the chunk in `chunkAssignments` stays written. -/
theorem AtlasConfig.Inv.claim_round_trip {P : AtlasParams} (hP : P.StaticAsserts)
    (hle : P.MinTextureSize ≤ P.MaxTextureSize) {cfg : AtlasConfig} (h : cfg.Inv P)
    {idx : Nat} {manager : ChunkManager} (hm : cfg.atlas.managers[idx]? = some manager)
    (hidx : idx < P.managerCount) (hemp : manager.PartialChunks = [])
    {top : Nat} {rest : List Nat} (hfree : cfg.atlas.freeChunks = top :: rest)
    {chunk : Chunk} (hchunk : cfg.atlas.chunks[top]? = some chunk) {av : List Nat} {id : Nat}
    (hpush : (TextureAtlas.claimFreeChunk P cfg.atlas idx manager top rest chunk
        (P.managerSize idx)).chunks[top]? = some ⟨top, av ++ [id]⟩)
    (x y width height size : Nat) :
    TextureAtlas.Deallocate P
      { TextureAtlas.claimFreeChunk P cfg.atlas idx manager top rest chunk
          (P.managerSize idx) with
        chunks := (TextureAtlas.claimFreeChunk P cfg.atlas idx manager top rest chunk
          (P.managerSize idx)).chunks.set top ⟨top, av⟩
        managers :=
          if av.isEmpty then
            (TextureAtlas.claimFreeChunk P cfg.atlas idx manager top rest chunk
              (P.managerSize idx)).managers.set idx
              { ({ manager with PartialChunks := [top] } : ChunkManager) with
                PartialChunks := [] }
          else (TextureAtlas.claimFreeChunk P cfg.atlas idx manager top rest chunk
            (P.managerSize idx)).managers }
      ⟨top, id, x, y, width, height, size⟩
      = some { cfg.atlas with
          chunkAssignments := cfg.atlas.chunkAssignments.set top (some idx) } := by
  have htop_mem : top ∈ cfg.atlas.freeChunks := by rw [hfree]; simp
  have hcid : chunk.ChunkID = top := h.chunk_id top chunk hchunk
  have hav0 : chunk.AvailableChunkletIDs = [] := h.free_available top chunk htop_mem hchunk
  have htlt : top < P.chunkCount := h.free_lt top htop_mem
  have hchunk_eq : chunk = ⟨top, []⟩ := by
    cases chunk; simp only at hcid hav0; rw [hcid, hav0]
  have hmanager_eq : manager = { manager with PartialChunks := [] } := by
    cases manager; simp only at hemp; rw [hemp]
  have hpos := (P.manager_facts hP hle hidx).2.1
  have hsize := h.manager_size idx manager hm
  have hpushed : TextureAtlas.pushedChunkletIDs (P.chunkletsOf idx) = av ++ [id] := by
    simp only [TextureAtlas.claimFreeChunk, getElem?_set_same hchunk, Option.some.injEq,
      Chunk.mk.injEq, hav0, List.nil_append] at hpush
    exact hpush.2
  have hfull : av.length + 1 = P.chunkletsOf idx := by
    have := congrArg List.length hpushed
    rw [TextureAtlas.pushedChunkletIDs_length] at this
    simp only [List.length_append, List.length_singleton] at this
    exact this.symm
  have hassign : (cfg.atlas.chunkAssignments.set chunk.ChunkID (some idx))[top]?
      = some (some idx) := by
    rw [hcid, List.getElem?_set_self (by rw [h.assignments_length]; exact htlt)]
  have hchunks_back : cfg.atlas.chunks.set top ⟨top, []⟩ = cfg.atlas.chunks := by
    have := set_getElem?_self hchunk
    rw [hchunk_eq] at this
    exact this
  simp only [TextureAtlas.claimFreeChunk, List.set_set]
  by_cases hempty : av = []
  · subst hempty
    simp only [List.isEmpty_nil, if_true, List.set_set]
    have hD := @TextureAtlas.Deallocate_eq P
      ({ chunks := cfg.atlas.chunks.set top ⟨top, []⟩,
         managers := cfg.atlas.managers.set idx
           { Size := manager.Size, PartialChunks := [] },
         chunkAssignments := cfg.atlas.chunkAssignments.set chunk.ChunkID (some idx),
         freeChunks := rest })
      (⟨top, id, x, y, width, height, size⟩) (idx)
      ({ Size := manager.Size, PartialChunks := [] }) (⟨top, []⟩)
      hassign (getElem?_set_same hm) (getElem?_set_same hchunk) hsize hpos
    rw [hD]
    simp only [List.length_nil, Nat.zero_add] at hfull ⊢
    rw [if_pos hfull]
    simp only [List.set_set, List.erase_nil, Option.some.injEq, hcid]
    rw [hchunks_back, ← hmanager_eq, set_getElem?_self hm, hfree]
  · have hne : av.isEmpty = false := by
      cases av with
      | nil => exact absurd rfl hempty
      | cons a l => rfl
    simp only [hne, Bool.false_eq_true, if_false]
    have hD := @TextureAtlas.Deallocate_eq P
      ({ chunks := cfg.atlas.chunks.set top ⟨top, av⟩,
         managers := cfg.atlas.managers.set idx
           { Size := manager.Size,
             PartialChunks := manager.PartialChunks ++ [chunk.ChunkID] },
         chunkAssignments := cfg.atlas.chunkAssignments.set chunk.ChunkID (some idx),
         freeChunks := rest })
      (⟨top, id, x, y, width, height, size⟩) (idx)
      ({ Size := manager.Size, PartialChunks := manager.PartialChunks ++ [chunk.ChunkID] })
      (⟨top, av⟩)
      hassign (getElem?_set_same hm) (getElem?_set_same hchunk) hsize hpos
    rw [hD]
    simp only
    rw [if_pos hfull]
    simp only [List.set_set, Option.some.injEq, hcid, hemp, List.nil_append,
      List.erase_cons_head]
    rw [hchunks_back, ← hmanager_eq, set_getElem?_self hm, hfree]

/-- What a call of `Allocate` that returns has done to the stack and the chunk array, and that
`Deallocate` of the returned chunklet undoes it when every chunk in use holds a live chunklet:
the stack, the managers and the chunks are as before the `Allocate`. -/
theorem AtlasConfig.Inv.allocate_round_trip {P : AtlasParams} (hP : P.StaticAsserts)
    (hle : P.MinTextureSize ≤ P.MaxTextureSize) {cfg : AtlasConfig} (h : cfg.Inv P)
    {width height : Nat} {c : Chunklet} {atlas' : TextureAtlas}
    (ha : TextureAtlas.Allocate P cfg.atlas width height = .returned c atlas') :
    atlas'.chunks.length = cfg.atlas.chunks.length ∧
    (atlas'.freeChunks = cfg.atlas.freeChunks ∨
      cfg.atlas.freeChunks = c.ChunkID :: atlas'.freeChunks) ∧
    (cfg.Busy → ∃ atlas'', TextureAtlas.Deallocate P atlas' c = some atlas'' ∧
      atlas''.freeChunks = cfg.atlas.freeChunks ∧ atlas''.managers = cfg.atlas.managers ∧
      atlas''.chunks = cfg.atlas.chunks) := by
  cases hc : bit_ceil (max width height) with
  | none =>
    rw [TextureAtlas.Allocate, TextureAtlas.AllocateAux, hc] at ha
    simp at ha
  | some ceil =>
    by_cases hmax : ceil > P.MaxTextureSize
    · rw [TextureAtlas.Allocate, TextureAtlas.AllocateAux, hc] at ha
      simp [hmax] at ha
    · obtain ⟨hidx, hsize⟩ := P.size_facts hP hle hc hmax
      obtain ⟨manager, hm⟩ :
          ∃ manager, cfg.atlas.managers[TextureAtlas.managerIndex P
            (TextureAtlas.chunkletSize P ceil)]? = some manager :=
        ⟨_, List.getElem?_eq_getElem (by rw [h.managers_length]; exact hidx)⟩
      rcases List.eq_nil_or_concat manager.PartialChunks with hemp | ⟨ps, back, hps⟩
      · cases hfree : cfg.atlas.freeChunks with
        | nil =>
          rw [TextureAtlas.Allocate, TextureAtlas.AllocateAux, hc] at ha
          simp [hmax, hm, hemp, hfree] at ha
        | cons top rest =>
          obtain ⟨chunk, hchunk, hstep⟩ := h.allocate_claims hc hmax hm hemp hfree
          have hn := (P.manager_facts hP hle hidx).2.2.2.2
          have hclaim := h.claim hm hemp hfree hchunk hn
          obtain ⟨hinv', hm'⟩ := hclaim
          rw [hsize] at hinv'
          obtain ⟨chunk', av, id, x, y, hchunk', hav, -, hret⟩ :=
            AtlasConfig.Inv.allocate_from_partial hP hle hinv' hc hmax
              (by rw [hsize] at hm'; exact hm') (show _ = [] ++ [top] from rfl)
          rw [TextureAtlas.Allocate, hstep 1, hret 0] at ha
          simp only [AtlasOutcome.returned.injEq] at ha
          obtain ⟨rfl, rfl⟩ := ha
          have hcid' : chunk'.ChunkID = top := hinv'.chunk_id top chunk' hchunk'
          have hchunk'' : (TextureAtlas.claimFreeChunk P cfg.atlas
              (TextureAtlas.managerIndex P (TextureAtlas.chunkletSize P ceil)) manager top rest
              chunk (P.managerSize (TextureAtlas.managerIndex P
                (TextureAtlas.chunkletSize P ceil)))).chunks[top]?
              = some ⟨top, av ++ [id]⟩ := by
            rw [hsize, hchunk']
            cases chunk'
            simp only at hcid' hav
            rw [hcid', hav]
          have htrip := h.claim_round_trip hP hle hm hidx hemp hfree hchunk hchunk''
            x y width height (TextureAtlas.chunkletSize P ceil)
          rw [hsize] at htrip
          refine ⟨?_, Or.inr rfl, fun _ => ⟨_, htrip, hfree, rfl, rfl⟩⟩
          simp [TextureAtlas.claimFreeChunk]
      · have hps' : manager.PartialChunks = ps ++ [back] := by rw [hps]; simp
        obtain ⟨chunk, av, id, x, y, hchunk, hav, -, hret⟩ :=
          h.allocate_from_partial hP hle hc hmax hm hps'
        rw [TextureAtlas.Allocate, hret 1] at ha
        simp only [AtlasOutcome.returned.injEq] at ha
        obtain ⟨rfl, rfl⟩ := ha
        refine ⟨by simp, Or.inl rfl, ?_⟩
        intro hbusy
        have hback : back ∈ manager.PartialChunks := by rw [hps']; simp
        obtain ⟨hnf, hassign, -⟩ := h.partial_chunk _ manager back hm hback
        obtain ⟨j, manager', hj, -, hcnt, -, -⟩ := h.assigned back chunk hchunk hnf
        have hji : j = TextureAtlas.managerIndex P (TextureAtlas.chunkletSize P ceil) := by
          rw [hassign] at hj
          simp only [Option.some.injEq] at hj
          exact hj.symm
        subst hji
        have hlive := hbusy back (getElem?_lt hchunk) hnf
        have hnotfull : av.length + 1
            ≠ P.chunkletsOf (TextureAtlas.managerIndex P (TextureAtlas.chunkletSize P ceil)) := by
          rw [hav] at hcnt
          simp only [List.length_append, List.length_singleton] at hcnt
          omega
        exact ⟨_, h.partial_round_trip hP hle hm hidx hps' hchunk hav hnotfull x y width height
          (TextureAtlas.chunkletSize P ceil), rfl, rfl, rfl⟩

theorem AtlasConfig.Busy.allocate_busy {P : AtlasParams} (hP : P.StaticAsserts)
    (hle : P.MinTextureSize ≤ P.MaxTextureSize) {cfg : AtlasConfig} (h : cfg.Inv P)
    (hb : cfg.Busy) {width height : Nat} {c : Chunklet} {atlas' : TextureAtlas}
    (ha : TextureAtlas.Allocate P cfg.atlas width height = .returned c atlas') :
    AtlasConfig.Busy ⟨atlas', c :: cfg.live⟩ := by
  obtain ⟨hlen, hfree, -⟩ := h.allocate_round_trip hP hle ha
  intro d hd hnf
  simp only at hd hnf
  rw [liveCount_cons]
  rw [hlen] at hd
  rcases hfree with hsame | hpop
  · rw [hsame] at hnf
    have := hb d hd hnf
    omega
  · by_cases hdc : c.ChunkID = d
    · simp only [hdc, if_true]; omega
    · have hnf' : d ∉ cfg.atlas.freeChunks := by
        rw [hpop]
        intro hmem
        rcases List.mem_cons.1 hmem with h' | h'
        · exact hdc h'.symm
        · exact hnf h'
      have := hb d hd hnf'
      omega

theorem AtlasConfig.Busy.deallocate_busy {P : AtlasParams} (hP : P.StaticAsserts)
    (hle : P.MinTextureSize ≤ P.MaxTextureSize) {cfg : AtlasConfig} (h : cfg.Inv P)
    (hb : cfg.Busy) {k : Chunklet} (hk : k ∈ cfg.live) {atlas' : TextureAtlas}
    (hd : TextureAtlas.Deallocate P cfg.atlas k = some atlas') :
    AtlasConfig.Busy ⟨atlas', cfg.live.erase k⟩ := by
  obtain ⟨hclt, j, ha, hj, hksize, hkid⟩ := h.live_chunklet k hk
  have hcf : k.ChunkID ∉ cfg.atlas.freeChunks := fun hc => h.free_live _ hc k hk rfl
  obtain ⟨chunk, hc⟩ : ∃ chunk, cfg.atlas.chunks[k.ChunkID]? = some chunk := by
    have : k.ChunkID < cfg.atlas.chunks.length := by rw [h.chunks_length]; exact hclt
    exact ⟨_, List.getElem?_eq_getElem this⟩
  obtain ⟨j', manager, ha', hm, hcnt, -, -⟩ := h.assigned _ chunk hc hcf
  have hjj : j' = j := by rw [ha] at ha'; simp at ha'; exact ha'.symm
  subst hjj
  have hfacts := P.manager_facts hP hle hj
  have hs := h.manager_size j' manager hm
  rw [TextureAtlas.Deallocate_eq ha hm hc hs hfacts.2.1] at hd
  have hlc := liveCount_erase hk k.ChunkID
  simp only [if_true] at hlc
  have hother : ∀ c', c' ≠ k.ChunkID →
      liveCount (cfg.live.erase k) c' = liveCount cfg.live c' := by
    intro c' hc'
    have := liveCount_erase hk c'
    have hne : ¬ k.ChunkID = c' := fun h' => hc' h'.symm
    simp only [hne, if_false, Nat.add_zero] at this
    exact this.symm
  by_cases h1 : chunk.AvailableChunkletIDs.length + 1 = P.chunkletsOf j'
  · rw [if_pos h1] at hd
    simp only [Option.some.injEq] at hd
    subst hd
    intro d hdlt hnf
    simp only [List.length_set, List.mem_cons, not_or] at hdlt hnf
    rw [hother d hnf.1]
    exact hb d hdlt hnf.2
  · rw [if_neg h1] at hd
    have key : ∀ d, d < cfg.atlas.chunks.length → d ∉ cfg.atlas.freeChunks →
        1 ≤ liveCount (cfg.live.erase k) d := by
      intro d hdlt hnf
      by_cases hdk : d = k.ChunkID
      · subst hdk; omega
      · rw [hother d hdk]; exact hb d hdlt hnf
    split at hd
    · simp only [Option.some.injEq] at hd
      subst hd
      intro d hdlt hnf
      simp only [List.length_set] at hdlt
      exact key d hdlt hnf
    · simp only [Option.some.injEq] at hd
      subst hd
      intro d hdlt hnf
      simp only [List.length_set] at hdlt
      exact key d hdlt hnf

/-- In every state a valid call sequence reaches, every chunk in use holds a live chunklet. -/
theorem AtlasConfig.Busy.run_busy {P : AtlasParams} (hP : P.StaticAsserts)
    (hle : P.MinTextureSize ≤ P.MaxTextureSize) :
    ∀ (calls : List AtlasCall) (cfg final : AtlasConfig),
      cfg.Inv P → cfg.Busy → AtlasConfig.run P cfg calls = some final → final.Busy := by
  intro calls
  induction calls with
  | nil =>
    intro cfg final _ hb hr
    simp only [AtlasConfig.run, Option.some.injEq] at hr
    subst hr; exact hb
  | cons call calls ih =>
    intro cfg final h hb hr
    simp only [AtlasConfig.run] at hr
    cases hs : AtlasConfig.step P cfg call with
    | none => rw [hs] at hr; simp at hr
    | some next =>
      rw [hs] at hr
      refine ih next final (AtlasConfig.atlas_inv_step hP hle h hs) ?_ hr
      cases call with
      | allocate width height =>
        simp only [AtlasConfig.step] at hs
        cases ha : TextureAtlas.Allocate P cfg.atlas width height with
        | returned c atlas' =>
          rw [ha] at hs
          simp only [Option.some.injEq] at hs
          subst hs
          exact hb.allocate_busy hP hle h ha
        | fatal => rw [ha] at hs; simp at hs
        | undefined => rw [ha] at hs; simp at hs
      | deallocate k =>
        simp only [AtlasConfig.step] at hs
        by_cases hk : k ∈ cfg.live
        · rw [if_pos hk] at hs
          cases hd : TextureAtlas.Deallocate P cfg.atlas k with
          | none => rw [hd] at hs; simp at hs
          | some atlas' =>
            rw [hd] at hs
            simp only [Option.some.injEq] at hs
            subst hs
            exact hb.deallocate_busy hP hle h hk hd
        · rw [if_neg hk] at hs; simp at hs

theorem AtlasConfig.busy_start (P : AtlasParams) : (AtlasConfig.start P).Busy := by
  intro d hd hnf
  exfalso
  apply hnf
  simp only [AtlasConfig.start, TextureAtlas.construct, List.length_map, List.length_range,
    List.mem_range] at hd ⊢
  exact hd

/-! The claims. -/

/-- C1 (fails on the code): on a `FreeList` built with capacity 4, after `Allocate(1)`,
`Allocate(1)`, `Deallocate({0,1})`, `Allocate(2)`, `Deallocate({2,2})` the section `{1,1}` is
still live, and the next `Allocate(2)` returns `{0,2}`, which overlaps it.  The tail branch of
`Deallocate` tests `previous.Index + section.Count == section.Index` and so merges `{2,2}` into
the node `{0,1}`, which is not adjacent to it. -/
theorem freeList_allocate_overlaps_live_section :
    ∃ (cfg : Config Nat) (fl : FreeList Nat),
      Config.run 1 (Config.start Nat 4)
          [.allocate 1, .allocate 1, .deallocate ⟨0, 1⟩, .allocate 2, .deallocate ⟨2, 2⟩]
        = some cfg ∧
      cfg.fl.head = [⟨0, 3⟩] ∧ cfg.live = [⟨1, 1⟩] ∧
      FreeList.Allocate 1 cfg.fl 2 = .ok (⟨0, 2⟩, fl) ∧
      Section.overlaps ⟨0, 2⟩ ⟨1, 1⟩ :=
  ⟨_, _, rfl, rfl, rfl, rfl, by decide⟩

/-- C2 (fails on the code): with capacity 3, after `Allocate(1)`, `Allocate(1)`,
`Deallocate({0,1})`, `Deallocate({1,1})` the free-range list of a `FreeList` and of a
`FreeListNonBacking` is `{0,1}, {1,2}`: two adjacent nodes.  `Deallocate` merges the section
with the following node and does not look at the preceding one. -/
theorem deallocate_leaves_adjacent_nodes :
    ∃ (cfg : Config Nat) (tr : TrackerConfig),
      Config.run 1 (Config.start Nat 3)
          [.allocate 1, .allocate 1, .deallocate ⟨0, 1⟩, .deallocate ⟨1, 1⟩] = some cfg ∧
      cfg.fl.head = [⟨0, 1⟩, ⟨1, 2⟩] ∧ hasAdjacentNodes cfg.fl.head = true ∧
      TrackerConfig.run (TrackerConfig.start 3)
          [.allocate 1, .allocate 1, .deallocate ⟨0, 1⟩, .deallocate ⟨1, 1⟩] = some tr ∧
      tr.fl.head = [⟨0, 1⟩, ⟨1, 2⟩] ∧ hasAdjacentNodes tr.fl.head = true :=
  ⟨_, _, rfl, rfl, rfl, rfl, rfl, rfl⟩

/-- C3 (fails on the code): with capacity 6, after `Allocate(1)`, `Allocate(2)`,
`Deallocate({0,1})`, `Allocate(3)`, `Deallocate({3,3})`, `Deallocate({1,2})` no section is live
and the free-range list of a `FreeList` and of a `FreeListNonBacking` is `{0,4}, {1,2}`: the
two ranges overlap.  The tail branch of `Deallocate` merged `{3,3}` into the node `{0,1}`. -/
theorem deallocate_leaves_overlapping_nodes :
    ∃ (cfg : Config Nat) (tr : TrackerConfig),
      Config.run 1 (Config.start Nat 6)
          [.allocate 1, .allocate 2, .deallocate ⟨0, 1⟩, .allocate 3, .deallocate ⟨3, 3⟩,
            .deallocate ⟨1, 2⟩] = some cfg ∧
      cfg.fl.head = [⟨0, 4⟩, ⟨1, 2⟩] ∧ cfg.live = [] ∧ isAscending cfg.fl.head = false ∧
      TrackerConfig.run (TrackerConfig.start 6)
          [.allocate 1, .allocate 2, .deallocate ⟨0, 1⟩, .allocate 3, .deallocate ⟨3, 3⟩,
            .deallocate ⟨1, 2⟩] = some tr ∧
      tr.fl.head = [⟨0, 4⟩, ⟨1, 2⟩] ∧ tr.live = [] ∧ isAscending tr.fl.head = false :=
  ⟨_, _, rfl, rfl, rfl, rfl, rfl, rfl, rfl, rfl⟩

/-- C4: for every capacity `N >= 1` and every contents of the `N` elements, `Allocate(N)` on a
fresh `FreeList` returns `{0, N}` and leaves the single node `{N, 0}`; the following
`Allocate(1)` returns `{N, 1}`, `NumberOfElements()` becomes `2 * N`, and every element below
`N` keeps its value. -/
theorem growth_keeps_contents {T : Type} (N fuel : Nat) (hN : 1 ≤ N)
    (contents : List (Option T)) (hlen : contents.length = N) :
    ∃ fl1 fl2 : FreeList T,
      FreeList.Allocate (fuel + 1) (FreeList.construct N) N = .ok (⟨0, N⟩, fl1) ∧
      fl1.head = [⟨N, 0⟩] ∧ fl1.NumberOfElements = N ∧
      FreeList.Allocate (fuel + 2) { fl1 with data := contents } 1 = .ok (⟨N, 1⟩, fl2) ∧
      fl2.NumberOfElements = 2 * N ∧
      ∀ i, i < N → fl2.data[i]? = contents[i]? := by
  have h := FreeList.Allocate_first (FreeList.construct N : FreeList T) fuel N [] ⟨0, N⟩ []
    (by omega) rfl (by simp) (le_refl _)
  simp only [List.nil_append, ne_eq, not_true_eq_false, or_self, and_false, if_false,
    Nat.sub_self, Nat.zero_add] at h
  refine ⟨_, _, h, rfl, rfl, FreeList.Allocate_after_full N fuel hN contents, ?_, ?_⟩
  · simp [FreeList.NumberOfElements]; omega
  · intro i hi
    subst hlen
    exact FreeList.growData_getElem? contents i hi

/-- C4 at capacity 4, where the capacity becomes 8. -/
theorem growth_keeps_contents_witness :
    1 ≤ 4 ∧ [some 10, some 20, some 30, some 40].length = 4 ∧
    ∃ fl1 fl2 : FreeList Nat,
      FreeList.Allocate (0 + 1) (FreeList.construct 4) 4 = .ok (⟨0, 4⟩, fl1) ∧
      fl1.head = [⟨4, 0⟩] ∧ fl1.NumberOfElements = 4 ∧
      FreeList.Allocate (0 + 2) { fl1 with data := [some 10, some 20, some 30, some 40] } 1
        = .ok (⟨4, 1⟩, fl2) ∧
      fl2.NumberOfElements = 2 * 4 ∧
      ∀ i, i < 4 → fl2.data[i]? = [some 10, some 20, some 30, some 40][i]? :=
  ⟨by decide, rfl, growth_keeps_contents 4 0 (by decide) [some 10, some 20, some 30, some 40] rfl⟩

/-- C5 (fails on the code): on a `FreeList` built with capacity 0, `Allocate(1)` does not
return, however many scans its loop is given: growing doubles a capacity of 0 to 0 and adds 0 to
the last node. -/
theorem allocate_on_zero_capacity_never_returns {T : Type} (fuel : Nat) :
    FreeList.Allocate fuel (FreeList.construct 0 : FreeList T) 1 = .error .outOfFuel := by
  have h : ∀ fuel, FreeList.allocateLoop 1 fuel (FreeList.construct 0 : FreeList T)
      = .error .outOfFuel := by
    intro fuel
    induction fuel with
    | zero => rfl
    | succ k ih =>
      simpa [FreeList.allocateLoop, FreeList.construct, FreeList.search, FreeList.extendLast,
        FreeList.growData] using ih
  simpa [FreeList.Allocate] using h fuel

/-- C6, as stated, fails: in the state reached by `Allocate(1)`, `Allocate(1)`,
`Deallocate({0,1})` with capacity 4 the list is `{0,1}, {2,2}`; `Allocate(1)` matches the first
node exactly, and afterwards the list is `{2,2}`: the matched node is not in the list any more,
so it does not describe `{1,0}`. -/
theorem first_fit_exact_fit_unlinks_node :
    ∃ (cfg : Config Nat) (fl : FreeList Nat),
      Config.run 1 (Config.start Nat 4) [.allocate 1, .allocate 1, .deallocate ⟨0, 1⟩]
        = some cfg ∧
      cfg.fl.head = [⟨0, 1⟩, ⟨2, 2⟩] ∧
      FreeList.Allocate 1 cfg.fl 1 = .ok (⟨0, 1⟩, fl) ∧
      fl.head = [⟨2, 2⟩] ∧ fl.head ≠ [⟨0 + 1, 1 - 1⟩, ⟨2, 2⟩] :=
  ⟨_, _, rfl, rfl, rfl, rfl, by decide⟩

/-- C6, amended: in every state and for every `count > 0`, when `n` is the first node with
`Count >= count`, `Allocate(count)` returns `{n.Index, count}`; afterwards `n` is unlinked when
`n.Count == count` and the list has another node, and describes
`{n.Index + count, n.Count - count}` otherwise; the nodes before and after `n`, the capacity and
the backing data are unchanged. -/
theorem first_fit_allocate {T : Type} (fl : FreeList T) (fuel count : Nat)
    (before : List Section) (n : Section) (after : List Section)
    (hcount : 0 < count)
    (hhead : fl.head = before ++ n :: after) (hbefore : ∀ m ∈ before, m.Count < count)
    (hn : count ≤ n.Count) :
    FreeList.Allocate (fuel + 1) fl count =
      .ok (⟨n.Index, count⟩,
        { head := before ++ (if n.Count = count ∧ (before ≠ [] ∨ after ≠ []) then after
            else ⟨n.Index + count, n.Count - count⟩ :: after)
          data := fl.data
          totalCount := fl.totalCount }) :=
  FreeList.Allocate_first fl fuel count before n after hcount hhead hbefore hn

/-- C6, amended, on the list `{0,1}, {2,5}` with `count = 2`: the second node is carved. -/
theorem first_fit_allocate_witness :
    0 < 2 ∧
    (⟨[⟨0, 1⟩, ⟨2, 5⟩], [], 8⟩ : FreeList Nat).head = [⟨0, 1⟩] ++ ⟨2, 5⟩ :: [] ∧
    (∀ m ∈ [(⟨0, 1⟩ : Section)], m.Count < 2) ∧ 2 ≤ (⟨2, 5⟩ : Section).Count ∧
    FreeList.Allocate (0 + 1) (⟨[⟨0, 1⟩, ⟨2, 5⟩], [], 8⟩ : FreeList Nat) 2 =
      .ok (⟨(⟨2, 5⟩ : Section).Index, 2⟩,
        { head := [⟨0, 1⟩] ++
            (if (⟨2, 5⟩ : Section).Count = 2 ∧ ([(⟨0, 1⟩ : Section)] ≠ [] ∨
                ([] : List Section) ≠ []) then []
              else ⟨(⟨2, 5⟩ : Section).Index + 2, (⟨2, 5⟩ : Section).Count - 2⟩ :: [])
          data := []
          totalCount := 8 }) :=
  ⟨by decide, rfl, by decide, by decide,
    first_fit_allocate ⟨[⟨0, 1⟩, ⟨2, 5⟩], [], 8⟩ 0 2 [⟨0, 1⟩] ⟨2, 5⟩ [] (by decide) rfl
      (by decide) (by decide)⟩

/-- C7: on a fresh `FreeList` of capacity `N`, for `1 <= c <= N`, `s = Allocate(c)` followed by
`Deallocate(s)` leaves the free-range list as it was before the pair: the single range
`{0, N}`. -/
theorem fresh_round_trip {T : Type} (N c fuel : Nat) (h1 : 1 ≤ c) (h2 : c ≤ N) :
    ∃ (s : Section) (fl1 fl2 : FreeList T),
      FreeList.Allocate (fuel + 1) (FreeList.construct N) c = .ok (s, fl1) ∧
      FreeList.Deallocate fl1 s = .ok fl2 ∧
      fl2.head = (FreeList.construct N : FreeList T).head ∧ fl2.head = [⟨0, N⟩] := by
  have h := FreeList.Allocate_first (FreeList.construct N : FreeList T) fuel c [] ⟨0, N⟩ []
    (by omega) rfl (by simp) h2
  have hd : ∀ fl1 : FreeList T, fl1.head = [⟨c, N - c⟩] →
      FreeList.Deallocate fl1 ⟨0, c⟩ = .ok { fl1 with head := [⟨0, N⟩] } := by
    intro fl1 hfl
    have e : N - c + c = N := by omega
    simp [FreeList.Deallocate, FreeList.deallocateList, hfl, h1, e]
  refine ⟨_, _, _, h, hd _ ?_, rfl, rfl⟩
  by_cases hc : N = c
  · subst hc; simp
  · simp [hc]

/-- C7 with `c = 5` on a capacity of 64. -/
theorem fresh_round_trip_witness :
    1 ≤ 5 ∧ 5 ≤ 64 ∧
    ∃ (s : Section) (fl1 fl2 : FreeList Nat),
      FreeList.Allocate (0 + 1) (FreeList.construct 64) 5 = .ok (s, fl1) ∧
      FreeList.Deallocate fl1 s = .ok fl2 ∧
      fl2.head = (FreeList.construct 64 : FreeList Nat).head ∧ fl2.head = [⟨0, 64⟩] :=
  ⟨by decide, by decide, fresh_round_trip 64 5 0 (by decide) (by decide)⟩

/-- C8: in every state of a `FreeList` and of a `FreeListNonBacking`, `Allocate(0)` returns
`{0, 0}` and leaves the allocator (free-range list, capacity, backing data) as it was. -/
theorem allocate_zero_is_noop {T : Type} (fuel : Nat) (fl : FreeList T)
    (tr : FreeListNonBacking) :
    FreeList.Allocate fuel fl 0 = .ok (⟨0, 0⟩, fl) ∧
    FreeListNonBacking.Allocate tr 0 = .returned ⟨0, 0⟩ tr := by
  constructor <;> simp [FreeList.Allocate, FreeListNonBacking.Allocate]

/-- C9: in every state a valid call sequence reaches from a fresh `FreeList`, every live
section `s` has `s.Index + s.Count <= NumberOfElements()` and `SectionData(s)` addresses
`s.Count` elements of the backing array; and after one more `Allocate`, growing or not, the
same holds of every section that was live before it. -/
theorem live_sections_inside_backing_array {T : Type} (N fuel : Nat) (calls : List Call)
    (cfg : Config T) (h : Config.run fuel (Config.start T N) calls = some cfg) :
    (∀ s ∈ cfg.live,
      s.Index + s.Count ≤ cfg.fl.NumberOfElements ∧
        ((cfg.fl.SectionData s).take s.Count).length = s.Count) ∧
    (∀ (fuel' count : Nat) (ret : Section) (fl : FreeList T),
      FreeList.Allocate fuel' cfg.fl count = .ok (ret, fl) →
      ∀ s ∈ cfg.live,
        s.Index + s.Count ≤ fl.NumberOfElements ∧
          ((fl.SectionData s).take s.Count).length = s.Count) := by
  have hinv := Config.Inv_run calls _ cfg (Config.Inv_start T N) h
  refine ⟨fun s hs => hinv.section_inside hs, ?_⟩
  intro fuel' count ret fl ha s hs
  have hinv' := Config.Inv_allocate hinv ha
  exact hinv'.section_inside (List.mem_cons_of_mem _ hs)

/-- C9 after `Allocate(4)`, `Allocate(1)` on a capacity of 4, which has grown to 8. -/
theorem live_sections_inside_backing_array_witness :
    Config.run 2 (Config.start Nat 4) [.allocate 4, .allocate 1]
      = some ⟨⟨[⟨5, 3⟩], List.replicate 8 none, 8⟩, [⟨4, 1⟩, ⟨0, 4⟩]⟩ ∧
    (∀ s ∈ [(⟨4, 1⟩ : Section), ⟨0, 4⟩],
      s.Index + s.Count ≤ (⟨[⟨5, 3⟩], List.replicate 8 none, 8⟩ : FreeList Nat).NumberOfElements ∧
        (((⟨[⟨5, 3⟩], List.replicate 8 none, 8⟩ : FreeList Nat).SectionData s).take
          s.Count).length = s.Count) :=
  ⟨rfl, (live_sections_inside_backing_array 4 2 [.allocate 4, .allocate 1]
    ⟨⟨[⟨5, 3⟩], List.replicate 8 none, 8⟩, [⟨4, 1⟩, ⟨0, 4⟩]⟩ rfl).1⟩

/-- C10: in every state of a `FreeListNonBacking` and for every `count > 0`, `Allocate(count)`
is fatal if and only if no free node has `Count >= count`; in the fatal case the allocator is
as it was; and when it returns, the section has `count` elements, taken out of the free ranges:
the free counts and the returned count add up to the free counts before. -/
theorem tracker_fatal_iff_no_fit (fl : FreeListNonBacking) (count : Nat) (hcount : 0 < count) :
    ((∃ fl', FreeListNonBacking.Allocate fl count = .fatal fl') ↔
      ∀ n ∈ fl.head, n.Count < count) ∧
    (∀ fl', FreeListNonBacking.Allocate fl count = .fatal fl' → fl' = fl) ∧
    (∀ ret fl', FreeListNonBacking.Allocate fl count = .returned ret fl' →
      ret.Count = count ∧ countSum fl'.head + ret.Count = countSum fl.head) := by
  have hc : ¬ count ≤ 0 := by omega
  unfold FreeListNonBacking.Allocate
  simp only [hc, if_false, FreeListNonBacking.search_eq]
  cases hs : FreeList.search count false fl.head with
  | none =>
    refine ⟨⟨fun _ => (FreeList.search_eq_none count fl.head false).1 hs, fun _ => ⟨fl, rfl⟩⟩,
      ?_, ?_⟩
    · intro fl' h; simp only [Outcome.fatal.injEq] at h; exact h.symm
    · intro ret fl' h; simp at h
  | some r =>
    obtain ⟨ret, rest⟩ := r
    have hne : ¬ ∀ n ∈ fl.head, n.Count < count := by
      intro hall
      have := (FreeList.search_eq_none count fl.head false).2 hall
      rw [hs] at this; simp at this
    refine ⟨⟨fun ⟨fl', h⟩ => by simp at h, fun h => absurd h hne⟩, ?_, ?_⟩
    · intro fl' h; simp at h
    · intro ret' fl' h
      simp only [Outcome.returned.injEq] at h
      obtain ⟨rfl, rfl⟩ := h
      obtain ⟨before, n, after, hl, -, hn, rfl, hrest⟩ := FreeList.search_some _ _ _ _ hs
      refine ⟨rfl, ?_⟩
      rw [hl]
      rcases hrest with ⟨rfl, hcn⟩ | rfl
      · simp only [countSum_append, countSum_cons]; omega
      · simp only [countSum_append, countSum_cons]; omega

/-- C10 on a tracker of capacity 4 asked for 5 elements: the call is fatal. -/
theorem tracker_fatal_iff_no_fit_witness :
    0 < 5 ∧
    ((∃ fl', FreeListNonBacking.Allocate (FreeListNonBacking.construct 4) 5 = .fatal fl') ↔
      ∀ n ∈ (FreeListNonBacking.construct 4).head, n.Count < 5) ∧
    (∀ fl', FreeListNonBacking.Allocate (FreeListNonBacking.construct 4) 5 = .fatal fl' →
      fl' = FreeListNonBacking.construct 4) ∧
    (∀ ret fl', FreeListNonBacking.Allocate (FreeListNonBacking.construct 4) 5
        = .returned ret fl' →
      ret.Count = 5 ∧ countSum fl'.head + ret.Count
        = countSum (FreeListNonBacking.construct 4).head) :=
  ⟨by decide, tracker_fatal_iff_no_fit (FreeListNonBacking.construct 4) 5 (by decide)⟩

/-- C11: for every capacity `N` and every call sequence that a `FreeList` of capacity `N`
answers without growing (one scan per `Allocate`), a `FreeListNonBacking` of capacity `N`
answers every prefix of the sequence too, and after every prefix both hold the same free-range
list and the same ledger of returned sections, so every `Allocate` returned the same section. -/
theorem tracker_matches_allocator {T : Type} (N : Nat) (calls : List Call) (cfg : Config T)
    (h : Config.run 1 (Config.start T N) calls = some cfg) :
    ∀ k, ∃ (mid : Config T) (tmid : TrackerConfig),
      Config.run 1 (Config.start T N) (calls.take k) = some mid ∧
      TrackerConfig.run (TrackerConfig.start N) (calls.take k) = some tmid ∧
      tmid.fl.head = mid.fl.head ∧ tmid.live = mid.live := by
  intro k
  obtain ⟨mid, hm⟩ := Config.run_take calls k _ cfg h
  obtain ⟨tmid, h1, h2, h3⟩ :=
    TrackerConfig.run_simulates (calls.take k) _ mid (TrackerConfig.start N) rfl rfl hm
  exact ⟨mid, tmid, hm, h1, h2, h3⟩

/-- C11 on capacity 4 with `Allocate(1)`, `Allocate(2)`, `Deallocate({0,1})`, whole sequence. -/
theorem tracker_matches_allocator_witness :
    Config.run 1 (Config.start Nat 4) [.allocate 1, .allocate 2, .deallocate ⟨0, 1⟩]
      = some ⟨⟨[⟨0, 1⟩, ⟨3, 1⟩], List.replicate 4 none, 4⟩, [⟨1, 2⟩]⟩ ∧
    ∃ (mid : Config Nat) (tmid : TrackerConfig),
      Config.run 1 (Config.start Nat 4)
        ([Call.allocate 1, .allocate 2, .deallocate ⟨0, 1⟩].take 3) = some mid ∧
      TrackerConfig.run (TrackerConfig.start 4)
        ([Call.allocate 1, .allocate 2, .deallocate ⟨0, 1⟩].take 3) = some tmid ∧
      tmid.fl.head = mid.fl.head ∧ tmid.live = mid.live :=
  ⟨rfl, tracker_matches_allocator 4 [.allocate 1, .allocate 2, .deallocate ⟨0, 1⟩]
    ⟨⟨[⟨0, 1⟩, ⟨3, 1⟩], List.replicate 4 none, 4⟩, [⟨1, 2⟩]⟩ rfl 3⟩

/-- A layout for examples: blocks of 64 bytes at 4096, 8192, ..., slots of 16 bytes. -/
theorem PoolLayout.example_sound :
    PoolLayout.Sound ⟨64, 16, 8, 8, fun k => 4096 * (k + 1)⟩ := by
  refine ⟨by decide, by decide, by decide, by decide, ?_⟩
  intro i j hij
  simp only
  omega

/-- C20: in every state a valid call sequence reaches on a `MemoryPool` (blocks from
`operator new` do not overlap), the handle `Allocate` returns differs from every live handle,
and a call leaves the live handles as they are: `Allocate` adds the returned one, `Deallocate(p)`
removes `p`. -/
theorem pool_allocate_returns_fresh_handle (L : PoolLayout) (hL : L.Sound)
    (calls : List PoolCall) (cfg : PoolConfig)
    (h : PoolConfig.run L PoolConfig.start calls = some cfg) :
    (MemoryPool.Allocate L cfg.pool).1 ∉ cfg.live ∧
    (∀ next, PoolConfig.step L cfg .allocate = some next →
      next.live = (MemoryPool.Allocate L cfg.pool).1 :: cfg.live) ∧
    (∀ p next, PoolConfig.step L cfg (.deallocate p) = some next →
      next.live = cfg.live.erase p ∧ ∀ q ∈ cfg.live, q ≠ p → q ∈ next.live) := by
  have hinv := PoolConfig.inv_of_run hL calls _ cfg (PoolConfig.inv_of_start L) h
  refine ⟨hinv.fresh hL, ?_, ?_⟩
  · intro next hs
    simp only [PoolConfig.step, Option.some.injEq] at hs
    subst hs; rfl
  · intro p next hs
    simp only [PoolConfig.step] at hs
    by_cases hc : p ≠ 0 ∧ p ∈ cfg.live
    · rw [if_pos hc] at hs
      simp only [Option.some.injEq] at hs
      subst hs
      refine ⟨rfl, ?_⟩
      intro q hq hqp
      exact (List.mem_erase_of_ne hqp).2 hq
    · rw [if_neg hc] at hs; simp at hs

/-- C20 after `Allocate`, `Allocate`, `Deallocate` of the first handle, `Allocate`, `Allocate`
on blocks of 64 bytes with slots of 16 bytes. -/
theorem pool_allocate_returns_fresh_handle_witness :
    PoolLayout.Sound ⟨64, 16, 8, 8, fun k => 4096 * (k + 1)⟩ ∧
    PoolConfig.run ⟨64, 16, 8, 8, fun k => 4096 * (k + 1)⟩ PoolConfig.start
        [.allocate, .allocate, .deallocate 4104, .allocate, .allocate]
      = some ⟨⟨[4096], 4152, 4145, []⟩, [4136, 4104, 4120]⟩ ∧
    (MemoryPool.Allocate ⟨64, 16, 8, 8, fun k => 4096 * (k + 1)⟩
        ⟨[4096], 4152, 4145, []⟩).1 ∉ [4136, 4104, 4120] :=
  ⟨PoolLayout.example_sound, by decide,
    (pool_allocate_returns_fresh_handle ⟨64, 16, 8, 8, fun k => 4096 * (k + 1)⟩
      PoolLayout.example_sound [.allocate, .allocate, .deallocate 4104, .allocate, .allocate]
      ⟨⟨[4096], 4152, 4145, []⟩, [4136, 4104, 4120]⟩ (by decide)).1⟩

/-- C13: in every state a valid call sequence reaches on a `TextureAtlas` whose sizes pass the
`static_assert`s, a chunklet `c` that `Allocate` returns lies in its chunk and in the atlas: with
the chunk origin `(MaxTextureSize * (c.ChunkID % chunksPerRow),
MaxTextureSize * (c.ChunkID / chunksPerRow))`, `origin.x <= c.X`,
`c.X + c.Size <= origin.x + MaxTextureSize`, the same for `Y`, and `c.X + c.Size <= AtlasSize`,
`c.Y + c.Size <= AtlasSize`. -/
theorem atlas_regions_in_bounds (P : AtlasParams) (hP : P.StaticAsserts)
    (calls : List AtlasCall) (cfg : AtlasConfig)
    (h : AtlasConfig.run P (AtlasConfig.start P) calls = some cfg)
    (width height : Nat) (c : Chunklet)
    (ha : (TextureAtlas.Allocate P cfg.atlas width height).chunklet? = some c) :
    P.MaxTextureSize * (c.ChunkID % P.chunksPerRow) ≤ c.X ∧
    c.X + c.Size ≤ P.MaxTextureSize * (c.ChunkID % P.chunksPerRow) + P.MaxTextureSize ∧
    P.MaxTextureSize * (c.ChunkID / P.chunksPerRow) ≤ c.Y ∧
    c.Y + c.Size ≤ P.MaxTextureSize * (c.ChunkID / P.chunksPerRow) + P.MaxTextureSize ∧
    c.X + c.Size ≤ P.AtlasSize ∧ c.Y + c.Size ≤ P.AtlasSize := by
  obtain ⟨atlas', ha'⟩ := AtlasOutcome.chunklet?_eq_some ha
  obtain ⟨hle, hans⟩ := AtlasConfig.reachable_allocate hP h ha'
  obtain ⟨hx, hy, h1, h2, h3, h4⟩ := hans.coordinates hP hle
  refine ⟨?_, h1, ?_, h2, h3, h4⟩
  · rw [hx]; exact Nat.le_add_right _ _
  · rw [hy]; exact Nat.le_add_right _ _

theorem AtlasParams.default_asserts : AtlasParams.StaticAsserts ⟨4096, 1024, 64⟩ :=
  ⟨⟨12, by decide, by decide⟩, ⟨10, by decide, by decide⟩, ⟨6, by decide, by decide⟩⟩

/-- C13 on `TextureAtlas<4096, 1024, 64>`: the second `Allocate(64, 64)` returns the chunklet at
`(64, 0)` of chunk 0, inside `[0, 1024)`. -/
theorem atlas_regions_in_bounds_witness :
    AtlasParams.StaticAsserts ⟨4096, 1024, 64⟩ ∧
    AtlasConfig.run ⟨4096, 1024, 64⟩ (AtlasConfig.start ⟨4096, 1024, 64⟩) []
      = some (AtlasConfig.start ⟨4096, 1024, 64⟩) ∧
    (TextureAtlas.Allocate ⟨4096, 1024, 64⟩ (AtlasConfig.start ⟨4096, 1024, 64⟩).atlas
      64 64).chunklet? = some ⟨0, 0, 0, 0, 64, 64, 64⟩ ∧
    (1024 * (0 % (⟨4096, 1024, 64⟩ : AtlasParams).chunksPerRow) ≤ 0 ∧
      0 + 64 ≤ 1024 * (0 % (⟨4096, 1024, 64⟩ : AtlasParams).chunksPerRow) + 1024 ∧
      1024 * (0 / (⟨4096, 1024, 64⟩ : AtlasParams).chunksPerRow) ≤ 0 ∧
      0 + 64 ≤ 1024 * (0 / (⟨4096, 1024, 64⟩ : AtlasParams).chunksPerRow) + 1024 ∧
      0 + 64 ≤ 4096 ∧ 0 + 64 ≤ 4096) :=
  ⟨AtlasParams.default_asserts, rfl, by decide,
    atlas_regions_in_bounds ⟨4096, 1024, 64⟩ AtlasParams.default_asserts []
      (AtlasConfig.start ⟨4096, 1024, 64⟩) rfl 64 64 ⟨0, 0, 0, 0, 64, 64, 64⟩ (by decide)⟩

/-- C14: in every state a valid call sequence reaches, when the next power of two `p` at or
above `max(width, height)` is at most `MaxTextureSize`, a chunklet that
`Allocate(width, height)` returns has `Size == max(MinTextureSize, p)`; `Size` is a power of two
with `MinTextureSize <= Size <= MaxTextureSize`, `Size >= width`, `Size >= height`, and
`Width == width`, `Height == height`. -/
theorem atlas_size_rounding (P : AtlasParams) (hP : P.StaticAsserts)
    (calls : List AtlasCall) (cfg : AtlasConfig)
    (h : AtlasConfig.run P (AtlasConfig.start P) calls = some cfg)
    (width height p : Nat) (hp : IsNextPowerOfTwo p (max width height))
    (hpm : p ≤ P.MaxTextureSize) (c : Chunklet)
    (ha : (TextureAtlas.Allocate P cfg.atlas width height).chunklet? = some c) :
    c.Size = max P.MinTextureSize p ∧ (∃ e, c.Size = 2 ^ e) ∧
    P.MinTextureSize ≤ c.Size ∧ c.Size ≤ P.MaxTextureSize ∧
    width ≤ c.Size ∧ height ≤ c.Size ∧ c.Width = width ∧ c.Height = height := by
  obtain ⟨atlas', ha'⟩ := AtlasOutcome.chunklet?_eq_some ha
  obtain ⟨hle, ceil, hc, -, hsize, -, -, -, -, -, hw, hh⟩ :=
    AtlasConfig.reachable_allocate hP h ha'
  obtain ⟨-, ⟨m, hm, hM⟩, ⟨n, hn, hN⟩⟩ := hP
  have hM' : P.MaxTextureSize ≤ 32768 := by
    rw [hM]
    have : (2 : Nat) ^ m ≤ 2 ^ 15 := pow_two_le_iff.2 hm
    omega
  have hcp : ceil = p := by
    have := bit_ceil_of_isNext hp (by omega)
    rw [hc] at this
    exact Option.some.inj this
  subst hcp
  have hsz : c.Size = max P.MinTextureSize ceil := by
    rw [hsize, TextureAtlas.chunkletSize]
    split <;> omega
  obtain ⟨⟨k, hk⟩, hxp, -⟩ := hp
  refine ⟨hsz, ?_, by omega, by omega, by omega, by omega, hw, hh⟩
  rw [hsz]
  by_cases hlt : ceil < P.MinTextureSize
  · exact ⟨n, by rw [← hN]; omega⟩
  · exact ⟨k, by rw [← hk]; omega⟩

/-- C14 with `MinTextureSize = 64`, `MaxTextureSize = 1024`: `Allocate(100, 50)` yields
`Size == 128`. -/
theorem atlas_size_rounding_witness :
    AtlasParams.StaticAsserts ⟨4096, 1024, 64⟩ ∧
    AtlasConfig.run ⟨4096, 1024, 64⟩ (AtlasConfig.start ⟨4096, 1024, 64⟩) []
      = some (AtlasConfig.start ⟨4096, 1024, 64⟩) ∧
    IsNextPowerOfTwo 128 (max 100 50) ∧ 128 ≤ 1024 ∧
    (TextureAtlas.Allocate ⟨4096, 1024, 64⟩ (AtlasConfig.start ⟨4096, 1024, 64⟩).atlas
      100 50).chunklet? = some ⟨0, 0, 0, 0, 100, 50, 128⟩ ∧
    ((128 : Nat) = max 64 128 ∧ (∃ e, (128 : Nat) = 2 ^ e) ∧ 64 ≤ 128 ∧ 128 ≤ 1024 ∧
      100 ≤ 128 ∧ 50 ≤ 128 ∧ (100 : Nat) = 100 ∧ (50 : Nat) = 50) :=
  ⟨AtlasParams.default_asserts, rfl, bit_ceil_isNext (by decide), by decide, by decide,
    atlas_size_rounding ⟨4096, 1024, 64⟩ AtlasParams.default_asserts []
      (AtlasConfig.start ⟨4096, 1024, 64⟩) rfl 100 50 128 (bit_ceil_isNext (by decide))
      (by decide) ⟨0, 0, 0, 0, 100, 50, 128⟩ (by decide)⟩

/-- C16: in every state a valid call sequence reaches, a chunklet `c` that `Allocate` returns
has `c.X == MaxTextureSize * (c.ChunkID % chunksPerRow)
+ c.Size * (c.ChunkletID % (MaxTextureSize / c.Size))` and
`c.Y == MaxTextureSize * (c.ChunkID / chunksPerRow)
+ c.Size * (c.ChunkletID / (MaxTextureSize / c.Size))` as natural numbers: the conversion of the
sums to 16 bits changes nothing. -/
theorem atlas_coordinates (P : AtlasParams) (hP : P.StaticAsserts)
    (calls : List AtlasCall) (cfg : AtlasConfig)
    (h : AtlasConfig.run P (AtlasConfig.start P) calls = some cfg)
    (width height : Nat) (c : Chunklet)
    (ha : (TextureAtlas.Allocate P cfg.atlas width height).chunklet? = some c) :
    c.X = P.MaxTextureSize * (c.ChunkID % P.chunksPerRow)
      + c.Size * (c.ChunkletID % (P.MaxTextureSize / c.Size)) ∧
    c.Y = P.MaxTextureSize * (c.ChunkID / P.chunksPerRow)
      + c.Size * (c.ChunkletID / (P.MaxTextureSize / c.Size)) := by
  obtain ⟨atlas', ha'⟩ := AtlasOutcome.chunklet?_eq_some ha
  obtain ⟨hle, hans⟩ := AtlasConfig.reachable_allocate hP h ha'
  obtain ⟨hx, hy, -⟩ := hans.coordinates hP hle
  exact ⟨hx, hy⟩

theorem AtlasParams.small_asserts : AtlasParams.StaticAsserts ⟨4, 2, 1⟩ :=
  ⟨⟨2, by decide, by decide⟩, ⟨1, by decide, by decide⟩, ⟨0, by decide, by decide⟩⟩

/-- C16 on `TextureAtlas<4, 2, 1>` after `Allocate(1, 1)`, `Allocate(2, 2)`, `Allocate(1, 1)`:
the next `Allocate(2, 1)` claims chunk 2 and returns its chunklet 0 at `(0, 2)`. -/
theorem atlas_coordinates_witness :
    AtlasParams.StaticAsserts ⟨4, 2, 1⟩ ∧
    AtlasConfig.run ⟨4, 2, 1⟩ (AtlasConfig.start ⟨4, 2, 1⟩)
        [.allocate 1 1, .allocate 2 2, .allocate 1 1]
      = some ⟨⟨[⟨0, [3, 2]⟩, ⟨1, []⟩, ⟨2, []⟩, ⟨3, []⟩], [⟨1, [0]⟩, ⟨2, []⟩],
            [some 0, some 1, none, none], [2, 3]⟩,
          [⟨0, 1, 1, 0, 1, 1, 1⟩, ⟨1, 0, 2, 0, 2, 2, 2⟩, ⟨0, 0, 0, 0, 1, 1, 1⟩]⟩ ∧
    (TextureAtlas.Allocate ⟨4, 2, 1⟩
        ⟨[⟨0, [3, 2]⟩, ⟨1, []⟩, ⟨2, []⟩, ⟨3, []⟩], [⟨1, [0]⟩, ⟨2, []⟩],
          [some 0, some 1, none, none], [2, 3]⟩ 2 1).chunklet?
      = some ⟨2, 0, 0, 2, 2, 1, 2⟩ ∧
    (0 = 2 * (2 % (⟨4, 2, 1⟩ : AtlasParams).chunksPerRow) + 2 * (0 % (2 / 2)) ∧
      2 = 2 * (2 / (⟨4, 2, 1⟩ : AtlasParams).chunksPerRow) + 2 * (0 / (2 / 2))) :=
  ⟨AtlasParams.small_asserts, by decide, by decide,
    atlas_coordinates ⟨4, 2, 1⟩ AtlasParams.small_asserts
      [.allocate 1 1, .allocate 2 2, .allocate 1 1]
      ⟨⟨[⟨0, [3, 2]⟩, ⟨1, []⟩, ⟨2, []⟩, ⟨3, []⟩], [⟨1, [0]⟩, ⟨2, []⟩],
          [some 0, some 1, none, none], [2, 3]⟩,
        [⟨0, 1, 1, 0, 1, 1, 1⟩, ⟨1, 0, 2, 0, 2, 2, 2⟩, ⟨0, 0, 0, 0, 1, 1, 1⟩]⟩
      (by decide) 2 1 ⟨2, 0, 0, 2, 2, 1, 2⟩ (by decide)⟩

/-- C19: in every state a valid call sequence reaches, live chunklets that share a `ChunkID`
have the same `Size`, and every live chunklet's chunk is assigned to a manager of that `Size`,
with the chunklet's `ChunkletID` below `(MaxTextureSize / Size)^2`. -/
theorem atlas_size_class_locking (P : AtlasParams) (hP : P.StaticAsserts)
    (calls : List AtlasCall) (cfg : AtlasConfig)
    (h : AtlasConfig.run P (AtlasConfig.start P) calls = some cfg) :
    (∀ a ∈ cfg.live, ∀ b ∈ cfg.live, a.ChunkID = b.ChunkID → a.Size = b.Size) ∧
    ∀ k ∈ cfg.live, ∃ j manager,
      cfg.atlas.chunkAssignments[k.ChunkID]? = some (some j) ∧
      cfg.atlas.managers[j]? = some manager ∧ k.Size = manager.Size ∧
      k.ChunkletID < (P.MaxTextureSize / k.Size) * (P.MaxTextureSize / k.Size) := by
  rcases AtlasConfig.reachable hP h with ⟨hle, hinv⟩ | ⟨hlt, rfl⟩
  · constructor
    · intro a ha b hb hab
      obtain ⟨-, ja, ha1, -, ha3, -⟩ := hinv.live_chunklet a ha
      obtain ⟨-, jb, hb1, -, hb3, -⟩ := hinv.live_chunklet b hb
      rw [hab, hb1] at ha1
      simp only [Option.some.injEq] at ha1
      rw [ha3, hb3, ha1]
    · intro k hk
      obtain ⟨-, j, h1, h2, h3, h4⟩ := hinv.live_chunklet k hk
      obtain ⟨manager, hm⟩ : ∃ manager, cfg.atlas.managers[j]? = some manager := by
        have : j < cfg.atlas.managers.length := by rw [hinv.managers_length]; exact h2
        exact ⟨_, List.getElem?_eq_getElem this⟩
      refine ⟨j, manager, h1, hm, by rw [h3, hinv.manager_size j manager hm], ?_⟩
      rw [h3]; exact h4
  · constructor
    · intro a ha; simp [AtlasConfig.start] at ha
    · intro k hk; simp [AtlasConfig.start] at hk

/-- C19 on `TextureAtlas<4, 2, 1>` after `Allocate(1, 1)`, `Allocate(2, 2)`, `Allocate(1, 1)`:
chunk 0 holds two live chunklets of size 1, chunk 1 one of size 2. -/
theorem atlas_size_class_locking_witness :
    AtlasParams.StaticAsserts ⟨4, 2, 1⟩ ∧
    AtlasConfig.run ⟨4, 2, 1⟩ (AtlasConfig.start ⟨4, 2, 1⟩)
        [.allocate 1 1, .allocate 2 2, .allocate 1 1]
      = some ⟨⟨[⟨0, [3, 2]⟩, ⟨1, []⟩, ⟨2, []⟩, ⟨3, []⟩], [⟨1, [0]⟩, ⟨2, []⟩],
            [some 0, some 1, none, none], [2, 3]⟩,
          [⟨0, 1, 1, 0, 1, 1, 1⟩, ⟨1, 0, 2, 0, 2, 2, 2⟩, ⟨0, 0, 0, 0, 1, 1, 1⟩]⟩ ∧
    (∀ a ∈ [(⟨0, 1, 1, 0, 1, 1, 1⟩ : Chunklet), ⟨1, 0, 2, 0, 2, 2, 2⟩, ⟨0, 0, 0, 0, 1, 1, 1⟩],
      ∀ b ∈ [(⟨0, 1, 1, 0, 1, 1, 1⟩ : Chunklet), ⟨1, 0, 2, 0, 2, 2, 2⟩,
        ⟨0, 0, 0, 0, 1, 1, 1⟩],
      a.ChunkID = b.ChunkID → a.Size = b.Size) :=
  ⟨AtlasParams.small_asserts, by decide,
    (atlas_size_class_locking ⟨4, 2, 1⟩ AtlasParams.small_asserts
      [.allocate 1 1, .allocate 2 2, .allocate 1 1]
      ⟨⟨[⟨0, [3, 2]⟩, ⟨1, []⟩, ⟨2, []⟩, ⟨3, []⟩], [⟨1, [0]⟩, ⟨2, []⟩],
          [some 0, some 1, none, none], [2, 3]⟩,
        [⟨0, 1, 1, 0, 1, 1, 1⟩, ⟨1, 0, 2, 0, 2, 2, 2⟩, ⟨0, 0, 0, 0, 1, 1, 1⟩]⟩
      (by decide)).1⟩

/-- C15: `Allocate(40000, 1)` is not fatal but undefined, in every state of every atlas: a
request with `max(width, height) > 32768` calls `std::bit_ceil` with a value whose next power of
two, 65536, is no `std::uint16_t`.  For `MinTextureSize <= MaxTextureSize` and every other
request, in every state a valid call sequence reaches, with `p` the next power of two at or
above `max(width, height)`: `Allocate` is fatal if and only if `p > MaxTextureSize`, or the
manager of the size class has no partial chunk and `freeChunks` is empty; when it is not fatal
it returns a chunklet. -/
theorem atlas_failure_conditions (P : AtlasParams) (hP : P.StaticAsserts)
    (hle : P.MinTextureSize ≤ P.MaxTextureSize)
    (calls : List AtlasCall) (cfg : AtlasConfig)
    (h : AtlasConfig.run P (AtlasConfig.start P) calls = some cfg) (width height : Nat) :
    (32768 < max width height →
      TextureAtlas.Allocate P cfg.atlas width height = .undefined) ∧
    (max width height ≤ 32768 → ∀ p, IsNextPowerOfTwo p (max width height) →
      (TextureAtlas.Allocate P cfg.atlas width height = .fatal ↔
        (P.MaxTextureSize < p ∨
          ((∀ manager : ChunkManager,
              cfg.atlas.managers[TextureAtlas.managerIndex P
                (TextureAtlas.chunkletSize P p)]? = some manager →
              manager.PartialChunks = []) ∧
            cfg.atlas.freeChunks = []))) ∧
      (TextureAtlas.Allocate P cfg.atlas width height ≠ .fatal →
        ∃ c, (TextureAtlas.Allocate P cfg.atlas width height).chunklet? = some c)) := by
  constructor
  · intro hbig
    rw [TextureAtlas.Allocate, TextureAtlas.AllocateAux, bit_ceil_undefined hbig]
  · intro hsmall p hp
    have hp' : p ≤ 32768 := hp.2.2 32768 ⟨15, by decide⟩ hsmall
    have hc := bit_ceil_of_isNext hp hp'
    have hinv : cfg.Inv P := by
      rcases AtlasConfig.reachable hP h with ⟨-, hinv⟩ | ⟨hlt, -⟩
      · exact hinv
      · omega
    obtain ⟨hfatal, hrest⟩ := hinv.allocate_outcome hP hle hc
    by_cases hmax : p > P.MaxTextureSize
    · have hf := hfatal hmax
      exact ⟨⟨fun _ => Or.inl hmax, fun _ => hf⟩, fun hne => absurd hf hne⟩
    · obtain ⟨manager, hm, hnone, hsome⟩ := hrest hmax
      by_cases hboth : manager.PartialChunks = [] ∧ cfg.atlas.freeChunks = []
      · have hf := hnone hboth.1 hboth.2
        refine ⟨⟨fun _ => Or.inr ⟨?_, hboth.2⟩, fun _ => hf⟩, fun hne => absurd hf hne⟩
        intro manager' hm'
        rw [hm] at hm'
        simp only [Option.some.injEq] at hm'
        rw [← hm']; exact hboth.1
      · obtain ⟨c, atlas', hret⟩ := hsome hboth
        refine ⟨⟨?_, ?_⟩, fun _ => ⟨c, by rw [hret]; rfl⟩⟩
        · intro hf; rw [hret] at hf; simp at hf
        · rintro (hgt | ⟨hall, hfree⟩)
          · exact absurd hgt hmax
          · exact absurd ⟨hall manager hm, hfree⟩ hboth

/-- C15 on a fresh `TextureAtlas<4096, 1024, 64>`: `Allocate(2000, 2000)` is fatal, since 2048
exceeds 1024, and `Allocate(40000, 1)` is undefined. -/
theorem atlas_failure_conditions_witness :
    AtlasParams.StaticAsserts ⟨4096, 1024, 64⟩ ∧ (64 : Nat) ≤ 1024 ∧
    AtlasConfig.run ⟨4096, 1024, 64⟩ (AtlasConfig.start ⟨4096, 1024, 64⟩) []
      = some (AtlasConfig.start ⟨4096, 1024, 64⟩) ∧
    TextureAtlas.Allocate ⟨4096, 1024, 64⟩ (AtlasConfig.start ⟨4096, 1024, 64⟩).atlas
      2000 2000 = .fatal ∧
    TextureAtlas.Allocate ⟨4096, 1024, 64⟩ (AtlasConfig.start ⟨4096, 1024, 64⟩).atlas
      40000 1 = .undefined :=
  ⟨AtlasParams.default_asserts, by decide, rfl,
    (((atlas_failure_conditions ⟨4096, 1024, 64⟩ AtlasParams.default_asserts (by decide) []
      (AtlasConfig.start ⟨4096, 1024, 64⟩) rfl 2000 2000).2 (by decide) 2048
      (bit_ceil_isNext (by decide))).1).2 (Or.inl (by decide)),
    (atlas_failure_conditions ⟨4096, 1024, 64⟩ AtlasParams.default_asserts (by decide) []
      (AtlasConfig.start ⟨4096, 1024, 64⟩) rfl 40000 1).1 (by decide)⟩

/-- C17, as claimed, fails on `TextureAtlas<512, 1024, 64>`: `MinTextureSize < MaxTextureSize`,
but the atlas is smaller than one chunk, `chunkCount` is 0, and the first `Allocate(64, 64)` on
the fresh atlas is fatal. -/
theorem atlas_without_chunk_first_allocate_fatal :
    AtlasParams.StaticAsserts ⟨512, 1024, 64⟩ ∧ (64 : Nat) < 1024 ∧
    AtlasParams.chunkCount ⟨512, 1024, 64⟩ = 0 ∧
    TextureAtlas.Allocate ⟨512, 1024, 64⟩ (TextureAtlas.construct ⟨512, 1024, 64⟩) 64 64
      = .fatal ∧
    AtlasConfig.run ⟨512, 1024, 64⟩ (AtlasConfig.start ⟨512, 1024, 64⟩) [.allocate 64 64]
      = none :=
  ⟨⟨⟨9, by decide, by decide⟩, ⟨10, by decide, by decide⟩, ⟨6, by decide, by decide⟩⟩,
    by decide, by decide, by decide, by decide⟩

/-- C17 (amended): for a `TextureAtlas` with `MinTextureSize < MaxTextureSize` that has at
least one chunk and whose `n = (MaxTextureSize / MinTextureSize)^2` is at most 65536, starting
from a fresh atlas, `n` consecutive `Allocate` calls with `max(width, height) <= MinTextureSize`
all return, with the same `ChunkID` `c`, `Size == MinTextureSize` and pairwise distinct
`ChunkletID`s, after which `c` is not in the partial list of that size class; deallocating all
`n` chunklets, in any order, returns `c` to `freeChunks`; and the next `Allocate` of a size
class `p > MinTextureSize` returns a chunklet with `ChunkID == c` and `Size == p`. -/
theorem atlas_chunk_lifecycle (P : AtlasParams) (hP : P.StaticAsserts)
    (hlt : P.MinTextureSize < P.MaxTextureSize) (hchunk : 1 ≤ P.chunkCount)
    (hids : (P.MaxTextureSize / P.MinTextureSize) * (P.MaxTextureSize / P.MinTextureSize)
      ≤ 65536)
    (reqs : List (Nat × Nat))
    (hlen : reqs.length
      = (P.MaxTextureSize / P.MinTextureSize) * (P.MaxTextureSize / P.MinTextureSize))
    (hclass : ∀ r ∈ reqs, max r.1 r.2 ≤ P.MinTextureSize) :
    ∃ (c : Nat) (cfg : AtlasConfig),
      AtlasConfig.run P (AtlasConfig.start P) (reqs.map fun r => .allocate r.1 r.2)
        = some cfg ∧
      cfg.live.length = reqs.length ∧
      (∀ k ∈ cfg.live, k.ChunkID = c ∧ k.Size = P.MinTextureSize) ∧
      (cfg.live.map fun k => k.ChunkletID).Nodup ∧
      (∀ manager : ChunkManager,
        cfg.atlas.managers[TextureAtlas.managerIndex P P.MinTextureSize]? = some manager →
        c ∉ manager.PartialChunks) ∧
      ∀ order : List Chunklet, order.Perm cfg.live →
        ∃ cfg', AtlasConfig.run P cfg (order.map .deallocate) = some cfg' ∧
          c ∈ cfg'.atlas.freeChunks ∧
          ∀ width height p, IsNextPowerOfTwo p (max width height) →
            P.MinTextureSize < p → p ≤ P.MaxTextureSize →
            ∃ k, (TextureAtlas.Allocate P cfg'.atlas width height).chunklet? = some k ∧
              k.ChunkID = c ∧ k.Size = p := by
  have hle : P.MinTextureSize ≤ P.MaxTextureSize := Nat.le_of_lt hlt
  obtain ⟨hms, hco, hmi, hcls⟩ := P.min_class hP hle
  obtain ⟨rest, hidle⟩ := AtlasConfig.Idle_start hP hle hchunk
  have hmpos : 0 < P.MinTextureSize := by
    obtain ⟨-, -, ⟨n, -, hN⟩⟩ := hP
    rw [hN]; exact Nat.pos_pow_of_pos n (by decide)
  have hdiv : 0 < P.MaxTextureSize / P.MinTextureSize := Nat.div_pos hle hmpos
  have hnpos : 0 < reqs.length := by rw [hlen]; exact Nat.mul_pos hdiv hdiv
  have hne : reqs ≠ [] := List.length_pos.1 hnpos
  obtain ⟨cfg, hrun, hfill, hwh⟩ := hidle.run_fresh_chunk hP hle hne
    (fun r hr => hcls r.1 r.2 (hclass r hr)) (by rw [hco, hlen])
  have hlive : cfg.live.length = reqs.length := by
    have := congrArg List.length hwh
    simpa using this
  obtain ⟨hidsEq, -, hfull⟩ := hfill.live_ids
  refine ⟨0, cfg, hrun, hlive, ?_, ?_, ?_, ?_⟩
  · intro k hk
    exact ⟨hfill.live_chunk k hk, by rw [hfill.toSolo.live_size hk, hms]⟩
  · rw [hidsEq]
    exact TextureAtlas.pushedChunkletIDs_nodup (by rw [hlive, hlen]; exact hids)
  · intro manager hm hmem
    obtain ⟨chunk, hchunk', hav⟩ := hfull (by rw [hlive, hlen, hco])
    obtain ⟨-, -, chunk', hchunk'', hne'⟩ := hfill.inv.partial_chunk _ manager 0 hm hmem
    rw [hchunk'] at hchunk''
    simp only [Option.some.injEq] at hchunk''
    rw [← hchunk''] at hne'
    exact hne' hav
  · intro order hperm
    have hone : order ≠ [] := by
      intro h0
      rw [h0] at hperm
      have := hperm.length_eq
      simp only [List.length_nil] at this
      omega
    obtain ⟨cfg', hrun', hidle'⟩ :=
      AtlasConfig.Solo.deallocate_all hP hle order cfg hfill.toSolo hperm hone
    refine ⟨cfg', hrun', by rw [hidle'.free]; simp, ?_⟩
    intro width height p hp hpmin hpmax
    have hM : P.MaxTextureSize ≤ 32768 := by
      obtain ⟨-, ⟨m, hm, hM⟩, -⟩ := hP
      rw [hM]
      have : (2 : Nat) ^ m ≤ 2 ^ 15 := pow_two_le_iff.2 hm
      omega
    have hc := bit_ceil_of_isNext hp (by omega)
    obtain ⟨k, atlas', hret, hk1, hk2, -, -, -⟩ :=
      hidle'.allocate_first hP hle hc (by omega)
    refine ⟨k, by rw [hret]; rfl, hk1, ?_⟩
    rw [hk2, TextureAtlas.chunkletSize, if_neg (by omega)]

/-- C17 (amended) on `TextureAtlas<4096, 1024, 64>` with 256 calls `Allocate(64, 64)`. -/
theorem atlas_chunk_lifecycle_witness :
    AtlasParams.StaticAsserts ⟨4096, 1024, 64⟩ ∧ (64 : Nat) < 1024 ∧
    1 ≤ AtlasParams.chunkCount ⟨4096, 1024, 64⟩ ∧ (1024 / 64) * (1024 / 64) ≤ 65536 ∧
    (List.replicate 256 ((64 : Nat), (64 : Nat))).length = (1024 / 64) * (1024 / 64) ∧
    (∀ r ∈ List.replicate 256 ((64 : Nat), (64 : Nat)), max r.1 r.2 ≤ 64) ∧
    ∃ (c : Nat) (cfg : AtlasConfig),
      AtlasConfig.run ⟨4096, 1024, 64⟩ (AtlasConfig.start ⟨4096, 1024, 64⟩)
        ((List.replicate 256 ((64 : Nat), (64 : Nat))).map fun r => .allocate r.1 r.2)
        = some cfg ∧
      cfg.live.length = (List.replicate 256 ((64 : Nat), (64 : Nat))).length ∧
      (∀ k ∈ cfg.live, k.ChunkID = c ∧ k.Size = 64) ∧
      (cfg.live.map fun k => k.ChunkletID).Nodup ∧
      (∀ manager : ChunkManager,
        cfg.atlas.managers[TextureAtlas.managerIndex ⟨4096, 1024, 64⟩ 64]? = some manager →
        c ∉ manager.PartialChunks) ∧
      ∀ order : List Chunklet, order.Perm cfg.live →
        ∃ cfg', AtlasConfig.run ⟨4096, 1024, 64⟩ cfg (order.map .deallocate) = some cfg' ∧
          c ∈ cfg'.atlas.freeChunks ∧
          ∀ width height p, IsNextPowerOfTwo p (max width height) →
            64 < p → p ≤ 1024 →
            ∃ k, (TextureAtlas.Allocate ⟨4096, 1024, 64⟩ cfg'.atlas width height).chunklet?
                = some k ∧
              k.ChunkID = c ∧ k.Size = p :=
  ⟨AtlasParams.default_asserts, by decide, by decide, by decide,
    (List.length_replicate _ _).trans (by decide),
    fun r hr => by rw [List.eq_of_mem_replicate hr]; decide,
    atlas_chunk_lifecycle ⟨4096, 1024, 64⟩ AtlasParams.default_asserts (by decide) (by decide)
      (by decide) (List.replicate 256 (64, 64))
      ((List.length_replicate _ _).trans (by decide))
      (fun r hr => by rw [List.eq_of_mem_replicate hr]; decide)⟩

set_option maxRecDepth 100000 in
/-- C18: on a fresh `TextureAtlas<4096, 1024, 64>` the first 256 calls `Allocate(64, 64)` all
return; the 256 chunklets have `Size == 64` and `ChunkID == 0`, with pairwise distinct `(X, Y)`;
and the 257th call `Allocate(64, 64)` returns a chunklet with `ChunkID == 1`. -/
theorem atlas_scenario_256_chunklets :
    ∃ cfg : AtlasConfig,
      AtlasConfig.run ⟨4096, 1024, 64⟩ (AtlasConfig.start ⟨4096, 1024, 64⟩)
        (List.replicate 256 (.allocate 64 64)) = some cfg ∧
      cfg.live.length = 256 ∧ (∀ k ∈ cfg.live, k.Size = 64 ∧ k.ChunkID = 0) ∧
      (cfg.live.map fun k => (k.X, k.Y)).Nodup ∧
      ∃ k, (TextureAtlas.Allocate ⟨4096, 1024, 64⟩ cfg.atlas 64 64).chunklet? = some k ∧
        k.ChunkID = 1 := by
  have h : (match AtlasConfig.run ⟨4096, 1024, 64⟩ (AtlasConfig.start ⟨4096, 1024, 64⟩)
        (List.replicate 256 (.allocate 64 64)) with
      | some cfg =>
        decide (cfg.live.length = 256 ∧ (∀ k ∈ cfg.live, k.Size = 64 ∧ k.ChunkID = 0) ∧
          (cfg.live.map fun k => (k.X, k.Y)).Nodup ∧
          ((TextureAtlas.Allocate ⟨4096, 1024, 64⟩ cfg.atlas 64 64).chunklet?.map
            fun k => k.ChunkID) = some 1)
      | none => false) = true := by decide!
  generalize AtlasConfig.run ⟨4096, 1024, 64⟩ (AtlasConfig.start ⟨4096, 1024, 64⟩)
    (List.replicate 256 (.allocate 64 64)) = o at h
  cases o with
  | none => simp at h
  | some cfg =>
    simp only [decide_eq_true_eq] at h
    obtain ⟨h1, h2, h3, h4⟩ := h
    refine ⟨cfg, rfl, h1, h2, h3, ?_⟩
    cases hk : (TextureAtlas.Allocate ⟨4096, 1024, 64⟩ cfg.atlas 64 64).chunklet? with
    | none => rw [hk] at h4; simp at h4
    | some k =>
      rw [hk] at h4
      simp only [Option.map_some', Option.some.injEq] at h4
      exact ⟨k, rfl, h4⟩

/-- C12: on a `TextureAtlas<1024, 1024, 2>` the call sequence of 65536 times `Allocate(2, 2)`
and then `Allocate(1, 2)` is valid and leaves two live chunklets on the same square: the chunk
has `512 * 512 = 262144` chunklets, whose IDs are stored in a vector of `std::uint16_t`, so the
65537th chunklet handed out has the `ChunkletID` 0 of the first one, at `(0, 0)` with
`Size == 2`. -/
theorem atlas_regions_overlap :
    ∃ cfg : AtlasConfig,
      AtlasConfig.run ⟨1024, 1024, 2⟩ (AtlasConfig.start ⟨1024, 1024, 2⟩)
        (List.replicate 65536 (.allocate 2 2) ++ [.allocate 1 2]) = some cfg ∧
      cfg.live.head? = some ⟨0, 0, 0, 0, 1, 2, 2⟩ ∧
      (⟨0, 0, 0, 0, 2, 2, 2⟩ : Chunklet) ∈ cfg.live.tail :=
  AtlasConfig.wrapped_chunklet_id 65536 (by decide) (by decide) (by decide)

/-- C23 (fails on the code): for every free-range list with consecutive nodes `P` and `Q`
behind which the walk of `Deallocate(s)` stops, with `P.Index + P.Count == s.Index` and
`s.Index + s.Count == Q.Index`, `Deallocate(s)` on a `FreeList` and on a `FreeListNonBacking`
keeps `P` and turns `Q` into `{s.Index, Q.Count + s.Count}`: the list keeps two adjacent nodes
where the claim has the single node `{P.Index, P.Count + s.Count + Q.Count}`. -/
theorem deallocate_between_neighbours_keeps_two_nodes (before after : List Section)
    (P Q s : Section) (hbefore : ∀ x ∈ before, x.Index < s.Index) (hcount : 0 < P.Count)
    (hP : P.Index + P.Count = s.Index) (hQ : s.Index + s.Count = Q.Index) :
    FreeList.deallocateList s (before ++ P :: Q :: after)
      = .ok (before ++ P :: ⟨s.Index, Q.Count + s.Count⟩ :: after) ∧
    FreeListNonBacking.deallocateList s (before ++ P :: Q :: after)
      = .ok (before ++ P :: ⟨s.Index, Q.Count + s.Count⟩ :: after) ∧
    before ++ P :: ⟨s.Index, Q.Count + s.Count⟩ :: after
      ≠ before ++ ⟨P.Index, P.Count + s.Count + Q.Count⟩ :: after ∧
    hasAdjacentNodes [P, ⟨s.Index, Q.Count + s.Count⟩] = true := by
  have hwalk : ∀ x ∈ before ++ [P], x.Index < s.Index := by
    intro x hx
    rcases List.mem_append.1 hx with hx | hx
    · exact hbefore x hx
    · rw [List.mem_singleton.1 hx]; omega
  have hstop : ¬ s.Index > Q.Index := by omega
  have h := FreeList.deallocateList_walk s before P (Q :: after) hwalk
  simp only [FreeList.deallocateAfter, hstop, if_false, hQ, if_true] at h
  refine ⟨h, by rw [FreeListNonBacking.deallocateList_eq]; exact h, ?_, ?_⟩
  · intro heq
    have := congrArg List.length heq
    simp at this
  · simp [hasAdjacentNodes, hP]

/-- C23 on the list `{0,1}, {2,1}` with `s = {1,1}`: the result is `{0,1}, {1,2}`, not
`{0,3}`. -/
theorem deallocate_between_neighbours_keeps_two_nodes_witness :
    (∀ x ∈ ([] : List Section), x.Index < (⟨1, 1⟩ : Section).Index) ∧
    0 < (⟨0, 1⟩ : Section).Count ∧
    (⟨0, 1⟩ : Section).Index + (⟨0, 1⟩ : Section).Count = (⟨1, 1⟩ : Section).Index ∧
    (⟨1, 1⟩ : Section).Index + (⟨1, 1⟩ : Section).Count = (⟨2, 1⟩ : Section).Index ∧
    FreeList.deallocateList ⟨1, 1⟩ [⟨0, 1⟩, ⟨2, 1⟩] = .ok [⟨0, 1⟩, ⟨1, 2⟩] ∧
    FreeListNonBacking.deallocateList ⟨1, 1⟩ [⟨0, 1⟩, ⟨2, 1⟩] = .ok [⟨0, 1⟩, ⟨1, 2⟩] :=
  ⟨by simp, by decide, rfl, rfl,
    (deallocate_between_neighbours_keeps_two_nodes [] [] ⟨0, 1⟩ ⟨2, 1⟩ ⟨1, 1⟩ (by simp)
      (by decide) rfl rfl).1,
    (deallocate_between_neighbours_keeps_two_nodes [] [] ⟨0, 1⟩ ⟨2, 1⟩ ⟨1, 1⟩ (by simp)
      (by decide) rfl rfl).2.1⟩

/-- C24 (fails on the code): for every free-range list whose last node is `P` and every
section `s` with `s.Index` above the `Index` of every node, `Deallocate(s)` on a `FreeList` and
on a `FreeListNonBacking` extends `P` to `{P.Index, P.Count + s.Count}` if and only if
`P.Index + s.Count == s.Index`, and appends `s` otherwise; the test does not read `P.Count`. -/
theorem deallocate_at_tail_tests_section_count (before : List Section) (P s : Section)
    (hwalk : ∀ x ∈ before ++ [P], x.Index < s.Index) :
    FreeList.deallocateList s (before ++ [P])
      = .ok (before ++ (if P.Index + s.Count = s.Index then [⟨P.Index, P.Count + s.Count⟩]
          else [P, s])) ∧
    FreeListNonBacking.deallocateList s (before ++ [P])
      = .ok (before ++ (if P.Index + s.Count = s.Index then [⟨P.Index, P.Count + s.Count⟩]
          else [P, s])) := by
  have h := FreeList.deallocateList_walk s before P [] hwalk
  simp only [FreeList.deallocateAfter] at h
  exact ⟨h, by rw [FreeListNonBacking.deallocateList_eq]; exact h⟩

/-- C24 on the list `{0,1}` with `s = {3,3}`: `P.Index + P.Count` is 1, not 3, and still `P`
is extended to `{0,4}`; and on the list `{0,2}` with `s = {2,1}`: `P.Index + P.Count` is 2, and
still `s` is appended.  Both lists are reached on capacity 6, with `s` live: the first after
`Allocate(1)`, `Allocate(2)`, `Deallocate({0,1})`, `Allocate(3)`, the second after
`Allocate(2)`, `Allocate(1)`, `Deallocate({0,2})`, `Allocate(3)`. -/
theorem deallocate_at_tail_tests_section_count_witness :
    (∀ x ∈ ([] : List Section) ++ [⟨0, 1⟩], x.Index < (⟨3, 3⟩ : Section).Index) ∧
    (⟨0, 1⟩ : Section).Index + (⟨0, 1⟩ : Section).Count ≠ (⟨3, 3⟩ : Section).Index ∧
    FreeList.deallocateList ⟨3, 3⟩ [⟨0, 1⟩] = .ok [⟨0, 4⟩] ∧
    FreeListNonBacking.deallocateList ⟨3, 3⟩ [⟨0, 1⟩] = .ok [⟨0, 4⟩] ∧
    (⟨0, 2⟩ : Section).Index + (⟨0, 2⟩ : Section).Count = (⟨2, 1⟩ : Section).Index ∧
    FreeList.deallocateList ⟨2, 1⟩ [⟨0, 2⟩] = .ok [⟨0, 2⟩, ⟨2, 1⟩] ∧
    Config.run 1 (Config.start Nat 6)
        [.allocate 1, .allocate 2, .deallocate ⟨0, 1⟩, .allocate 3]
      = some ⟨⟨[⟨0, 1⟩], List.replicate 6 none, 6⟩, [⟨3, 3⟩, ⟨1, 2⟩]⟩ ∧
    Config.run 1 (Config.start Nat 6)
        [.allocate 2, .allocate 1, .deallocate ⟨0, 2⟩, .allocate 3]
      = some ⟨⟨[⟨0, 2⟩], List.replicate 6 none, 6⟩, [⟨3, 3⟩, ⟨2, 1⟩]⟩ :=
  ⟨by decide, by decide,
    (deallocate_at_tail_tests_section_count [] ⟨0, 1⟩ ⟨3, 3⟩ (by decide)).1,
    (deallocate_at_tail_tests_section_count [] ⟨0, 1⟩ ⟨3, 3⟩ (by decide)).2,
    rfl, rfl, rfl, rfl⟩

/-- C25, as claimed, fails: immediately after `Allocate(4)` on a fresh `FreeList` of capacity 4
the free-range list is not empty; it is the single node `{4, 0}`, a listed node with
`Count == 0`. -/
theorem allocate_whole_range_keeps_only_node :
    ∃ fl : FreeList Nat,
      FreeList.Allocate 1 (FreeList.construct 4) 4 = .ok (⟨0, 4⟩, fl) ∧
      fl.head = [⟨4, 0⟩] ∧ fl.head ≠ [] :=
  ⟨_, rfl, rfl, by decide⟩

/-- C25 (amended): whenever `Allocate(count)` on a `FreeList` consumes the first fitting free
range `n` entirely (`n.Count == count`), the node is removed from the free-range list if the
list has another node, and it stays as the only node `{n.Index + count, 0}` otherwise; in
particular, for every `N >= 1`, immediately after `Allocate(N)` on a fresh `FreeList` of
capacity `N` the free-range list is the single node `{N, 0}`. -/
theorem emptied_range_unlinked_unless_only_node {T : Type} (fl : FreeList T)
    (fuel count : Nat) (before : List Section) (n : Section) (after : List Section)
    (hcount : 0 < count) (hhead : fl.head = before ++ n :: after)
    (hbefore : ∀ m ∈ before, m.Count < count) (hn : n.Count = count) :
    (∃ fl' : FreeList T,
      FreeList.Allocate (fuel + 1) fl count = .ok (⟨n.Index, count⟩, fl') ∧
      ((before ≠ [] ∨ after ≠ []) → fl'.head = before ++ after) ∧
      (before = [] ∧ after = [] → fl'.head = [⟨n.Index + count, 0⟩])) ∧
    (∀ N : Nat, 1 ≤ N → ∃ fl1 : FreeList T,
      FreeList.Allocate (fuel + 1) (FreeList.construct N) N = .ok (⟨0, N⟩, fl1) ∧
      fl1.head = [⟨N, 0⟩]) := by
  constructor
  · refine ⟨_, FreeList.Allocate_first fl fuel count before n after hcount hhead hbefore
      (by omega), ?_, ?_⟩
    · intro hother
      simp only [hn, hother, and_self, if_true]
    · rintro ⟨rfl, rfl⟩
      simp [hn]
  · intro N hN
    refine ⟨_, FreeList.Allocate_first (FreeList.construct N : FreeList T) fuel N [] ⟨0, N⟩ []
      (by omega) rfl (by simp) (le_refl _), ?_⟩
    simp

/-- C25 (amended) on the list `{0,1}, {2,2}` with `count = 2`: the second node is removed and
the list is `{0,1}`. -/
theorem emptied_range_unlinked_unless_only_node_witness :
    0 < 2 ∧
    (⟨[⟨0, 1⟩, ⟨2, 2⟩], [], 4⟩ : FreeList Nat).head = [⟨0, 1⟩] ++ ⟨2, 2⟩ :: [] ∧
    (∀ m ∈ [(⟨0, 1⟩ : Section)], m.Count < 2) ∧ (⟨2, 2⟩ : Section).Count = 2 ∧
    ∃ fl' : FreeList Nat,
      FreeList.Allocate (0 + 1) (⟨[⟨0, 1⟩, ⟨2, 2⟩], [], 4⟩ : FreeList Nat) 2
        = .ok (⟨(⟨2, 2⟩ : Section).Index, 2⟩, fl') ∧
      (([(⟨0, 1⟩ : Section)] ≠ [] ∨ ([] : List Section) ≠ []) →
        fl'.head = [⟨0, 1⟩] ++ []) ∧
      ([(⟨0, 1⟩ : Section)] = [] ∧ ([] : List Section) = [] →
        fl'.head = [⟨(⟨2, 2⟩ : Section).Index + 2, 0⟩]) :=
  ⟨by decide, rfl, by decide, rfl,
    (emptied_range_unlinked_unless_only_node ⟨[⟨0, 1⟩, ⟨2, 2⟩], [], 4⟩ 0 2 [⟨0, 1⟩] ⟨2, 2⟩ []
      (by decide) rfl (by decide) rfl).1⟩

/-- C26 (fails on the code): on a `FreeList` built with capacity 4, after `Allocate(1)`,
`Allocate(1)`, `Deallocate({0,1})`, `Allocate(2)` the free-range list is `{0,1}` and `{1,1}`,
`{2,2}` are live.  No node fits `Allocate(2)`, and the growth step, which adds the capacity 4
to the `Count` of the last node, makes the list `{0,5}`: the live indices 1, 2, 3 become free
and the new indices 5, 6, 7 do not. -/
theorem growth_extends_node_that_is_not_at_the_end :
    ∃ cfg : Config Nat,
      Config.run 1 (Config.start Nat 4)
          [.allocate 1, .allocate 1, .deallocate ⟨0, 1⟩, .allocate 2] = some cfg ∧
      cfg.fl.head = [⟨0, 1⟩] ∧ cfg.live = [⟨2, 2⟩, ⟨1, 1⟩] ∧ cfg.fl.NumberOfElements = 4 ∧
      FreeList.search 2 false cfg.fl.head = none ∧
      FreeList.extendLast cfg.fl.totalCount cfg.fl.head = some [⟨0, 5⟩] ∧
      isFreeIndex cfg.fl.head 1 = false ∧ isFreeIndex [⟨0, 5⟩] 1 = true ∧
      isFreeIndex [⟨0, 5⟩] 5 = false ∧
      ∃ fl : FreeList Nat, FreeList.Allocate 2 cfg.fl 2 = .ok (⟨0, 2⟩, fl) ∧
        fl.head = [⟨2, 3⟩] ∧ fl.NumberOfElements = 8 ∧ Section.overlaps ⟨0, 2⟩ ⟨1, 1⟩ :=
  ⟨_, rfl, rfl, rfl, rfl, rfl, rfl, rfl, rfl, rfl, _, rfl, rfl, rfl, by decide⟩

/-- C29 (fails on the code): `Deallocate({0, 0})` leaves the free-range list of a `FreeList` as
it was only when the first node has `Index == 0`; otherwise it puts a new node `{0, 0}` in
front of the list.  So on a `FreeList` built with capacity 4, after `Allocate(1)` and
`Allocate(0)`, which returns `{0, 0}`, the call `Deallocate({0, 0})` changes the list from
`{1,3}` to `{0,0}, {1,3}`. -/
theorem deallocate_empty_section_inserts_node :
    (∀ (n : Section) (rest : List Section),
      FreeList.deallocateList ⟨0, 0⟩ (n :: rest)
        = .ok (if n.Index = 0 then n :: rest else ⟨0, 0⟩ :: n :: rest)) ∧
    ∃ (cfg : Config Nat) (fl : FreeList Nat),
      Config.run 1 (Config.start Nat 4) [.allocate 1, .allocate 0] = some cfg ∧
      cfg.fl.head = [⟨1, 3⟩] ∧ cfg.live = [⟨0, 0⟩, ⟨0, 1⟩] ∧
      FreeList.Deallocate cfg.fl ⟨0, 0⟩ = .ok fl ∧
      fl.head = [⟨0, 0⟩, ⟨1, 3⟩] ∧ fl.head ≠ cfg.fl.head := by
  refine ⟨?_, _, _, rfl, rfl, rfl, rfl, rfl, by decide⟩
  intro n rest
  by_cases h : n.Index = 0
  · have h' : 0 = n.Index := h.symm
    cases n
    simp only at h h'
    subst h
    simp [FreeList.deallocateList]
  · have h' : ¬ 0 = n.Index := fun e => h e.symm
    simp [FreeList.deallocateList, h, h']

/-- C27, as claimed, fails: on a fresh `FreeList` of capacity 1 no free range fits
`Allocate(5)`, and the call does not return after one doubling; it doubles the capacity three
times and leaves `NumberOfElements() == 8`, not 2. -/
theorem allocate_doubles_more_than_once :
    FreeList.search 5 false (FreeList.construct 1 : FreeList Nat).head = none ∧
    FreeList.Allocate 2 (FreeList.construct 1 : FreeList Nat) 5 = .error .outOfFuel ∧
    ∃ fl : FreeList Nat,
      FreeList.Allocate 4 (FreeList.construct 1) 5 = .ok (⟨0, 5⟩, fl) ∧
      fl.NumberOfElements = 8 ∧ fl.NumberOfElements ≠ 2 * 1 :=
  ⟨rfl, rfl, _, rfl, rfl, by decide⟩

/-- C27 (amended): in every state a valid call sequence reaches on a `FreeList` of capacity
`C >= 1` and for every `count > 0`: if some free range has `Count >= count`, `Allocate(count)`
returns and leaves `NumberOfElements() == C`; otherwise it doubles the capacity `k >= 1` times
and returns with `NumberOfElements() == 2^k * C`, where `k` is the least number with
`count <= last.Count + (2^k - 1) * C` for the last node `last` of the list (written without
subtraction as `count + C <= last.Count + 2^k * C`); it doubles exactly once if and only if
`count <= last.Count + C`. -/
theorem capacity_doubles_until_fit {T : Type} (N fuel : Nat) (calls : List Call)
    (cfg : Config T) (h : Config.run fuel (Config.start T N) calls = some cfg)
    (hC : 1 ≤ cfg.fl.NumberOfElements) (count : Nat) (hcount : 0 < count) :
    ((∃ n ∈ cfg.fl.head, count ≤ n.Count) → ∀ f, ∃ (ret : Section) (fl' : FreeList T),
      FreeList.Allocate (f + 1) cfg.fl count = .ok (ret, fl') ∧
      fl'.NumberOfElements = cfg.fl.NumberOfElements) ∧
    ((∀ n ∈ cfg.fl.head, n.Count < count) → ∃ (last : Section) (k : Nat),
      cfg.fl.head.getLast? = some last ∧ 1 ≤ k ∧
      count + cfg.fl.NumberOfElements ≤ last.Count + 2 ^ k * cfg.fl.NumberOfElements ∧
      (∀ j, j < k →
        last.Count + 2 ^ j * cfg.fl.NumberOfElements < count + cfg.fl.NumberOfElements) ∧
      (k = 1 ↔ count ≤ last.Count + cfg.fl.NumberOfElements) ∧
      ∀ f, ∃ (ret : Section) (fl' : FreeList T),
        FreeList.Allocate (f + k + 1) cfg.fl count = .ok (ret, fl') ∧
        fl'.NumberOfElements = 2 ^ k * cfg.fl.NumberOfElements) := by
  have hc0 : count ≠ 0 := by omega
  constructor
  · rintro ⟨n, hn, hfit⟩ f
    cases hs : FreeList.search count false cfg.fl.head with
    | none =>
      have := (FreeList.search_eq_none count cfg.fl.head false).1 hs n hn
      omega
    | some r =>
      obtain ⟨ret, rest⟩ := r
      refine ⟨ret, { cfg.fl with head := rest }, ?_, rfl⟩
      simp only [FreeList.Allocate, hc0, if_false, FreeList.allocateLoop, hs]
  · intro hnone
    have hne : cfg.fl.head ≠ [] :=
      Config.head_ne_nil calls _ cfg (by simp [Config.start, FreeList.construct]) h
    obtain ⟨init, last, hhead⟩ : ∃ init last, cfg.fl.head = init ++ [last] := by
      rcases List.eq_nil_or_concat cfg.fl.head with h0 | ⟨init, last, h0⟩
      · exact absurd h0 hne
      · exact ⟨init, last, by rw [h0]; simp⟩
    have hlast : last.Count < count := hnone last (by rw [hhead]; simp)
    have hinit : ∀ m ∈ init, m.Count < count :=
      fun m hm => hnone m (by rw [hhead]; exact List.mem_append_left _ hm)
    have hex := FreeList.doublings_exist count last.Count cfg.fl.totalCount hC
    have hfit := Nat.find_spec hex
    have hmin : ∀ j, j < Nat.find hex →
        last.Count + 2 ^ j * cfg.fl.totalCount < count + cfg.fl.totalCount := by
      intro j hj
      have := Nat.find_min hex hj
      omega
    have hk : 1 ≤ Nat.find hex := by
      by_contra hlt
      have h0 : Nat.find hex = 0 := by omega
      rw [h0] at hfit
      simp only [pow_zero, Nat.one_mul] at hfit
      omega
    refine ⟨last, Nat.find hex, by rw [hhead]; simp, hk, hfit, hmin, ?_, ?_⟩
    · constructor
      · intro h1
        rw [h1] at hfit
        simp only [pow_one, FreeList.NumberOfElements] at hfit ⊢
        omega
      · intro hle
        by_contra hne1
        have := hmin 1 (by omega)
        simp only [pow_one, FreeList.NumberOfElements] at this hle
        omega
    · intro f
      obtain ⟨fl', hret, htot⟩ :=
        FreeList.allocateLoop_doubles f (Nat.find hex) cfg.fl init last hhead hinit hmin hfit
      refine ⟨⟨last.Index, count⟩, fl', ?_, htot⟩
      simp only [FreeList.Allocate, hc0, if_false]
      exact hret

/-- C27 (amended) on a `FreeList` of capacity 4 after `Allocate(4)`: the list is `{4, 0}`; no
node fits `Allocate(1)`, which doubles once, to 8, and no node fits `Allocate(9)`, which
doubles twice, to 16. -/
theorem capacity_doubles_until_fit_witness :
    Config.run 1 (Config.start Nat 4) [.allocate 4]
      = some ⟨⟨[⟨4, 0⟩], List.replicate 4 none, 4⟩, [⟨0, 4⟩]⟩ ∧
    1 ≤ (⟨[⟨4, 0⟩], List.replicate 4 none, 4⟩ : FreeList Nat).NumberOfElements ∧ 0 < 9 ∧
    (∀ n ∈ (⟨[⟨4, 0⟩], List.replicate 4 none, 4⟩ : FreeList Nat).head, n.Count < 9) ∧
    (∃ (last : Section) (k : Nat),
      (⟨[⟨4, 0⟩], List.replicate 4 none, 4⟩ : FreeList Nat).head.getLast? = some last ∧
      1 ≤ k ∧ 9 + 4 ≤ last.Count + 2 ^ k * 4 ∧
      (∀ j, j < k → last.Count + 2 ^ j * 4 < 9 + 4) ∧
      (k = 1 ↔ 9 ≤ last.Count + 4) ∧
      ∀ f, ∃ (ret : Section) (fl' : FreeList Nat),
        FreeList.Allocate (f + k + 1) ⟨[⟨4, 0⟩], List.replicate 4 none, 4⟩ 9
          = .ok (ret, fl') ∧
        fl'.NumberOfElements = 2 ^ k * 4) ∧
    ∃ fl : FreeList Nat,
      FreeList.Allocate 3 ⟨[⟨4, 0⟩], List.replicate 4 none, 4⟩ 9 = .ok (⟨4, 9⟩, fl) ∧
      fl.NumberOfElements = 16 :=
  ⟨rfl, by decide, by decide, by decide,
    (capacity_doubles_until_fit 4 1 [.allocate 4]
      ⟨⟨[⟨4, 0⟩], List.replicate 4 none, 4⟩, [⟨0, 4⟩]⟩ rfl (by decide) 9 (by decide)).2
      (by decide),
    _, rfl, rfl⟩

/-- C28: in every state a valid call sequence reaches, the `Count`s of the free-range nodes
and the `Count`s of the live sections add up to `NumberOfElements()` on a `FreeList`, growth
included, and to the capacity of the construction on a `FreeListNonBacking`. -/
theorem counts_are_conserved {T : Type} (N fuel : Nat) (calls : List Call) (cfg : Config T)
    (h : Config.run fuel (Config.start T N) calls = some cfg)
    (trackerCalls : List Call) (tracker : TrackerConfig)
    (ht : TrackerConfig.run (TrackerConfig.start N) trackerCalls = some tracker) :
    countSum cfg.fl.head + countSum cfg.live = cfg.fl.NumberOfElements ∧
    countSum tracker.fl.head + countSum tracker.live = N := by
  have hinv := Config.Inv_run calls _ cfg (Config.Inv_start T N) h
  have htr := TrackerConfig.balanced_run trackerCalls _ tracker
    (TrackerConfig.balanced_start N) ht
  have h1 := hinv.1.1
  have h2 := htr.1
  rw [countSum_append] at h1 h2
  exact ⟨h1, h2⟩

/-- C28 on capacity 4: a `FreeList` after `Allocate(4)`, `Allocate(1)`, which has grown to 8,
and a `FreeListNonBacking` after `Allocate(1)`, `Allocate(2)`, `Deallocate({0,1})`. -/
theorem counts_are_conserved_witness :
    Config.run 2 (Config.start Nat 4) [.allocate 4, .allocate 1]
      = some ⟨⟨[⟨5, 3⟩], List.replicate 8 none, 8⟩, [⟨4, 1⟩, ⟨0, 4⟩]⟩ ∧
    TrackerConfig.run (TrackerConfig.start 4) [.allocate 1, .allocate 2, .deallocate ⟨0, 1⟩]
      = some ⟨⟨[⟨0, 1⟩, ⟨3, 1⟩]⟩, [⟨1, 2⟩]⟩ ∧
    countSum [(⟨5, 3⟩ : Section)] + countSum [(⟨4, 1⟩ : Section), ⟨0, 4⟩]
      = (⟨[⟨5, 3⟩], List.replicate 8 none, 8⟩ : FreeList Nat).NumberOfElements ∧
    countSum [(⟨0, 1⟩ : Section), ⟨3, 1⟩] + countSum [(⟨1, 2⟩ : Section)] = 4 :=
  ⟨rfl, rfl,
    counts_are_conserved 4 2 [.allocate 4, .allocate 1]
      ⟨⟨[⟨5, 3⟩], List.replicate 8 none, 8⟩, [⟨4, 1⟩, ⟨0, 4⟩]⟩ rfl
      [.allocate 1, .allocate 2, .deallocate ⟨0, 1⟩] ⟨⟨[⟨0, 1⟩, ⟨3, 1⟩]⟩, [⟨1, 2⟩]⟩ rfl⟩

/-- C21, as claimed, fails for a handle that is in the free-slot list already: on blocks of 64
bytes with slots of 16 bytes, after `p = Allocate()` (4104) and `Deallocate(p)` the free-slot
list is `p`; a second `Deallocate(p)` followed by `Allocate()` returns `p`, but the list is not
as it was before that `Deallocate`: `p->next` is `p`, so the list is `p, p, p, ...`. -/
theorem double_free_leaves_cyclic_free_list :
    ∃ before : HeapConfig,
      HeapConfig.run ⟨64, 16, 8, 8, fun k => 4096 * (k + 1)⟩ (HeapConfig.start fun _ => 0)
        [.allocate, .deallocate 4104] = some before ∧
      before.heap.freeList 3 = [4104] ∧
      (PoolHeap.Allocate ⟨64, 16, 8, 8, fun k => 4096 * (k + 1)⟩
        (before.heap.Deallocate 4104)).1 = 4104 ∧
      (PoolHeap.Allocate ⟨64, 16, 8, 8, fun k => 4096 * (k + 1)⟩
        (before.heap.Deallocate 4104)).2.freeList 3 = [4104, 4104, 4104] :=
  ⟨_, rfl, by decide, by decide, by decide⟩

/-- C21 (amended): in every state of a `MemoryPool` whose free-slot list is `free`, for every
non-null handle `p` that is not in `free`, `Deallocate(p)` followed by `Allocate()` returns `p`,
calls `operator new` for no block, and leaves `freeSlots_` and the free-slot list `free` as
they were; and in every state a valid call sequence reaches, the free-slot list is the ledger of
the freed slots that have not been returned again, most recent first, and when it is not empty
`Allocate()` returns its first slot and allocates no block. -/
theorem pool_reuses_freed_slots_lifo (L : PoolLayout) (hL : L.Sound)
    (h : PoolHeap) (free : List Nat) (p : Nat)
    (hfree : PoolHeap.LinkedAs h.next h.freeSlots_ free) (hp : p ≠ 0) (hnew : p ∉ free)
    (heap : Nat → Nat) (calls : List PoolCall) (cfg : HeapConfig)
    (hrun : HeapConfig.run L (HeapConfig.start heap) calls = some cfg) :
    ((PoolHeap.Allocate L (h.Deallocate p)).1 = p ∧
      (PoolHeap.Allocate L (h.Deallocate p)).2.newCalls = h.newCalls ∧
      (PoolHeap.Allocate L (h.Deallocate p)).2.currentBlock_ = h.currentBlock_ ∧
      (PoolHeap.Allocate L (h.Deallocate p)).2.currentSlot_ = h.currentSlot_ ∧
      (PoolHeap.Allocate L (h.Deallocate p)).2.freeSlots_ = h.freeSlots_ ∧
      PoolHeap.LinkedAs (PoolHeap.Allocate L (h.Deallocate p)).2.next
        (PoolHeap.Allocate L (h.Deallocate p)).2.freeSlots_ free) ∧
    (PoolHeap.LinkedAs cfg.heap.next cfg.heap.freeSlots_ cfg.freed ∧
      ∀ r rest, cfg.freed = r :: rest →
        (PoolHeap.Allocate L cfg.heap).1 = r ∧
        (PoolHeap.Allocate L cfg.heap).2.newCalls = cfg.heap.newCalls) := by
  constructor
  · have hD : h.Deallocate p
        = { h with next := PoolHeap.store h.next p h.freeSlots_, freeSlots_ := p } := by
      simp only [PoolHeap.Deallocate, hp, ne_eq, not_false_eq_true, if_true]
    have hne : (h.Deallocate p).freeSlots_ ≠ 0 := by rw [hD]; exact hp
    rw [PoolHeap.Allocate_of_free L hne, hD]
    have hstore : PoolHeap.store h.next p h.freeSlots_ p = h.freeSlots_ := by
      simp [PoolHeap.store]
    refine ⟨rfl, rfl, rfl, rfl, hstore, ?_⟩
    show PoolHeap.LinkedAs (PoolHeap.store h.next p h.freeSlots_)
      (PoolHeap.store h.next p h.freeSlots_ p) free
    rw [hstore]
    exact (PoolHeap.LinkedAs_store free h.freeSlots_ hnew).2 hfree
  · obtain ⟨pfinal, -, hm, -⟩ := HeapConfig.Matches.run_matches hL calls _ cfg
      PoolConfig.start (HeapConfig.matches_start heap) (PoolConfig.inv_of_start L) hrun
    obtain ⟨-, -, hlinked, -, -, -⟩ := hm
    refine ⟨hlinked, ?_⟩
    intro r rest hf
    rw [hf] at hlinked
    simp only [PoolHeap.LinkedAs] at hlinked
    obtain ⟨hhead, hr, -⟩ := hlinked
    have hne : cfg.heap.freeSlots_ ≠ 0 := by rw [hhead]; exact hr
    rw [PoolHeap.Allocate_of_free L hne]
    exact ⟨hhead, rfl⟩

/-- C21 (amended) on blocks of 64 bytes with slots of 16 bytes, after `Allocate`, `Allocate`,
`Deallocate(4104)`: the free-slot list is 4104, the handle 4120 is live, and `Deallocate(4120)`
followed by `Allocate()` returns 4120. -/
theorem pool_reuses_freed_slots_lifo_witness :
    PoolLayout.Sound ⟨64, 16, 8, 8, fun k => 4096 * (k + 1)⟩ ∧
    HeapConfig.run ⟨64, 16, 8, 8, fun k => 4096 * (k + 1)⟩ (HeapConfig.start fun _ => 0)
        [.allocate, .allocate, .deallocate 4104]
      = some ⟨⟨4096, 4136, 4145, 4104,
          PoolHeap.store (PoolHeap.store (fun _ => 0) 4096 0) 4104 0, 1⟩, [4120], [4104]⟩ ∧
    PoolHeap.LinkedAs (PoolHeap.store (PoolHeap.store (fun _ => 0) 4096 0) 4104 0) 4104
      [4104] ∧
    (4120 : Nat) ≠ 0 ∧ (4120 : Nat) ∉ [4104] ∧
    (PoolHeap.Allocate ⟨64, 16, 8, 8, fun k => 4096 * (k + 1)⟩
      (PoolHeap.Deallocate ⟨4096, 4136, 4145, 4104,
        PoolHeap.store (PoolHeap.store (fun _ => 0) 4096 0) 4104 0, 1⟩ 4120)).1 = 4120 ∧
    (PoolHeap.Allocate ⟨64, 16, 8, 8, fun k => 4096 * (k + 1)⟩
      ⟨4096, 4136, 4145, 4104,
        PoolHeap.store (PoolHeap.store (fun _ => 0) 4096 0) 4104 0, 1⟩).1 = 4104 :=
  ⟨PoolLayout.example_sound, rfl, ⟨rfl, by decide, rfl⟩, by decide, by decide,
    (pool_reuses_freed_slots_lifo ⟨64, 16, 8, 8, fun k => 4096 * (k + 1)⟩
      PoolLayout.example_sound
      ⟨4096, 4136, 4145, 4104, PoolHeap.store (PoolHeap.store (fun _ => 0) 4096 0) 4104 0, 1⟩
      [4104] 4120 ⟨rfl, by decide, rfl⟩ (by decide) (by decide) (fun _ => 0)
      [.allocate, .allocate, .deallocate 4104]
      ⟨⟨4096, 4136, 4145, 4104,
          PoolHeap.store (PoolHeap.store (fun _ => 0) 4096 0) 4104 0, 1⟩, [4120], [4104]⟩
      rfl).1.1,
    ((pool_reuses_freed_slots_lifo ⟨64, 16, 8, 8, fun k => 4096 * (k + 1)⟩
      PoolLayout.example_sound
      ⟨4096, 4136, 4145, 4104, PoolHeap.store (PoolHeap.store (fun _ => 0) 4096 0) 4104 0, 1⟩
      [4104] 4120 ⟨rfl, by decide, rfl⟩ (by decide) (by decide) (fun _ => 0)
      [.allocate, .allocate, .deallocate 4104]
      ⟨⟨4096, 4136, 4145, 4104,
          PoolHeap.store (PoolHeap.store (fun _ => 0) 4096 0) 4104 0, 1⟩, [4120], [4104]⟩
      rfl).2.2 4104 [] rfl).1⟩

/-- C22: on a `MemoryPool` whose blocks each hold `K >= 1` slots (blocks from `operator new` do
not overlap), in every state a valid call sequence reaches with an empty free-slot list,
`Allocate` allocates a new block if and only if there is no block yet or `K` slots of the
current block have been handed out, and otherwise it leaves the blocks as they are and returns
the next slot of the current block; `n` calls of `Allocate` with no `Deallocate` leave
`(n + K - 1) / K` blocks, `n / K` rounded up, and return `n` pairwise distinct slots; and
`Deallocate` never changes the blocks. -/
theorem pool_block_growth (L : PoolLayout) (hL : L.Sound) (K : Nat) (hK : 1 ≤ K)
    (hslots : ∀ k, L.slotsInBlock k = K) :
    (∀ (calls : List PoolCall) (cfg : PoolConfig),
      PoolConfig.run L PoolConfig.start calls = some cfg → cfg.pool.freeSlots_ = [] →
      (((MemoryPool.Allocate L cfg.pool).2.currentBlock_.length
            = cfg.pool.currentBlock_.length + 1 ↔
          (cfg.pool.currentBlock_ = [] ∨ MemoryPool.issued L cfg.pool = K)) ∧
        (¬ (cfg.pool.currentBlock_ = [] ∨ MemoryPool.issued L cfg.pool = K) →
          (MemoryPool.Allocate L cfg.pool).2.currentBlock_ = cfg.pool.currentBlock_ ∧
          MemoryPool.issued L cfg.pool < K ∧
          (MemoryPool.Allocate L cfg.pool).1
            = L.firstSlot (cfg.pool.currentBlock_.length - 1)
              + MemoryPool.issued L cfg.pool * L.slotSize))) ∧
    (∀ n, ∃ cfg, PoolConfig.run L PoolConfig.start (List.replicate n .allocate) = some cfg ∧
      cfg.pool.currentBlock_.length = (n + K - 1) / K ∧ cfg.live.length = n ∧
      cfg.live.Nodup) ∧
    (∀ (pool : MemoryPool) (p : Nat),
      (MemoryPool.Deallocate pool p).currentBlock_ = pool.currentBlock_) := by
  have hs : 1 ≤ L.slotSize := by
    obtain ⟨h1, h2, -⟩ := hL
    omega
  refine ⟨?_, ?_, ?_⟩
  · intro calls cfg hrun hf
    have hfill : cfg.Fill L K :=
      PoolConfig.Fill.run_fill hs hK hslots calls _ cfg (Or.inl ⟨rfl, rfl, rfl⟩) hrun
    rcases hfill.bump hs hK hslots hf with ⟨hnil, hA⟩ | ⟨k, j, hlen, hj1, hjK, hcur, hA⟩ |
      ⟨k, hlen, hcur, hA⟩
    · rw [hA]
      refine ⟨⟨fun _ => Or.inl hnil, fun _ => by simp [hnil]⟩, fun hn => absurd (Or.inl hnil) hn⟩
    · have hiss : MemoryPool.issued L cfg.pool = j := MemoryPool.issued_eq hs hlen hcur
      have hne : cfg.pool.currentBlock_ ≠ [] := by
        intro h0; rw [h0] at hlen; simp at hlen
      rw [hA, hiss]
      refine ⟨⟨fun h => ?_, fun h => ?_⟩, fun _ => ⟨rfl, hjK, ?_⟩⟩
      · simp only at h; omega
      · rcases h with h | h
        · exact absurd h hne
        · omega
      · simp only [hlen, Nat.add_sub_cancel]
    · have hiss : MemoryPool.issued L cfg.pool = K := MemoryPool.issued_eq hs hlen hcur
      rw [hA]
      refine ⟨⟨fun _ => Or.inr hiss, fun _ => by simp⟩, fun hn => absurd (Or.inr hiss) hn⟩
  · intro n
    obtain ⟨cfg, hrun, hf, hlive, -, h0, h1⟩ := PoolConfig.run_of_allocates hs hK hslots n
    have hinv := PoolConfig.inv_of_run hL _ _ cfg (PoolConfig.inv_of_start L) hrun
    refine ⟨cfg, hrun, ?_, hlive, ?_⟩
    · by_cases hn : n = 0
      · rw [h0 hn, hn]
        simp only [List.length_nil, Nat.zero_add]
        exact (Nat.div_eq_of_lt (by omega)).symm
      · obtain ⟨q, r, hr, hnq, hlen, -⟩ := h1 (by omega)
        rw [hlen, PoolLayout.blocks_formula hr hnq]
    · have := hinv.1
      rw [hf, List.append_nil] at this
      exact this
  · intro pool p
    unfold MemoryPool.Deallocate
    split <;> rfl

/-- Every block of the example layout holds 3 slots: 8 bytes for the pointer to the previous
block, then 3 slots of 16 bytes, in 64 bytes. -/
theorem PoolLayout.example_slots (k : Nat) :
    PoolLayout.slotsInBlock ⟨64, 16, 8, 8, fun k => 4096 * (k + 1)⟩ k = 3 := by
  have hpad : MemoryPool.padPointer (4096 * (k + 1) + 8) 8 = 0 := by
    unfold MemoryPool.padPointer
    omega
  simp only [PoolLayout.slotsInBlock, PoolLayout.firstSlot, hpad]
  omega

/-- C22 on blocks of 64 bytes that hold 3 slots of 16 bytes: 7 calls of `Allocate` leave 3
blocks and return 7 distinct slots. -/
theorem pool_block_growth_witness :
    PoolLayout.Sound ⟨64, 16, 8, 8, fun k => 4096 * (k + 1)⟩ ∧ 1 ≤ 3 ∧
    (∀ k, PoolLayout.slotsInBlock ⟨64, 16, 8, 8, fun k => 4096 * (k + 1)⟩ k = 3) ∧
    ∃ cfg, PoolConfig.run ⟨64, 16, 8, 8, fun k => 4096 * (k + 1)⟩ PoolConfig.start
        (List.replicate 7 .allocate) = some cfg ∧
      cfg.pool.currentBlock_.length = (7 + 3 - 1) / 3 ∧ cfg.live.length = 7 ∧
      cfg.live.Nodup :=
  ⟨PoolLayout.example_sound, by decide, PoolLayout.example_slots,
    (pool_block_growth ⟨64, 16, 8, 8, fun k => 4096 * (k + 1)⟩ PoolLayout.example_sound 3
      (by decide) PoolLayout.example_slots).2.1 7⟩

/-- C30: in every state a valid call sequence reaches on a `TextureAtlas` whose sizes pass the
`static_assert`s, when `Allocate(width, height)` returns the chunklet `c`, the following
`Deallocate(c)` is defined and leaves the `freeChunks` stack, with its order, the managers with
their `PartialChunks`, and the chunks with their `AvailableChunkletIDs` as they were before the
`Allocate`. -/
theorem atlas_allocate_deallocate_round_trip (P : AtlasParams) (hP : P.StaticAsserts)
    (calls : List AtlasCall) (cfg : AtlasConfig)
    (h : AtlasConfig.run P (AtlasConfig.start P) calls = some cfg)
    (width height : Nat) (c : Chunklet) (atlas' : TextureAtlas)
    (ha : TextureAtlas.Allocate P cfg.atlas width height = .returned c atlas') :
    ∃ atlas'', TextureAtlas.Deallocate P atlas' c = some atlas'' ∧
      atlas''.freeChunks = cfg.atlas.freeChunks ∧ atlas''.managers = cfg.atlas.managers ∧
      atlas''.chunks = cfg.atlas.chunks := by
  obtain ⟨hle, -⟩ := AtlasConfig.reachable_allocate hP h ha
  have hinv : cfg.Inv P :=
    AtlasConfig.atlas_inv_run hP hle calls _ cfg (AtlasConfig.atlas_inv_start hP hle) h
  have hbusy : cfg.Busy :=
    AtlasConfig.Busy.run_busy hP hle calls _ cfg (AtlasConfig.atlas_inv_start hP hle)
      (AtlasConfig.busy_start P) h
  exact (hinv.allocate_round_trip hP hle ha).2.2 hbusy

/-- C30 on `TextureAtlas<4, 2, 1>` after `Allocate(1, 1)`, `Allocate(2, 2)`, `Allocate(1, 1)`:
`Allocate(2, 1)` claims chunk 2 from the stack `2, 3`, and `Deallocate` of its chunklet puts
chunk 2 back on top. -/
theorem atlas_allocate_deallocate_round_trip_witness :
    AtlasParams.StaticAsserts ⟨4, 2, 1⟩ ∧
    AtlasConfig.run ⟨4, 2, 1⟩ (AtlasConfig.start ⟨4, 2, 1⟩)
        [.allocate 1 1, .allocate 2 2, .allocate 1 1]
      = some ⟨⟨[⟨0, [3, 2]⟩, ⟨1, []⟩, ⟨2, []⟩, ⟨3, []⟩], [⟨1, [0]⟩, ⟨2, []⟩],
            [some 0, some 1, none, none], [2, 3]⟩,
          [⟨0, 1, 1, 0, 1, 1, 1⟩, ⟨1, 0, 2, 0, 2, 2, 2⟩, ⟨0, 0, 0, 0, 1, 1, 1⟩]⟩ ∧
    TextureAtlas.Allocate ⟨4, 2, 1⟩
        ⟨[⟨0, [3, 2]⟩, ⟨1, []⟩, ⟨2, []⟩, ⟨3, []⟩], [⟨1, [0]⟩, ⟨2, []⟩],
          [some 0, some 1, none, none], [2, 3]⟩ 2 1
      = .returned ⟨2, 0, 0, 2, 2, 1, 2⟩
          ⟨[⟨0, [3, 2]⟩, ⟨1, []⟩, ⟨2, []⟩, ⟨3, []⟩], [⟨1, [0]⟩, ⟨2, []⟩],
            [some 0, some 1, some 1, none], [3]⟩ ∧
    ∃ atlas'', TextureAtlas.Deallocate ⟨4, 2, 1⟩
        ⟨[⟨0, [3, 2]⟩, ⟨1, []⟩, ⟨2, []⟩, ⟨3, []⟩], [⟨1, [0]⟩, ⟨2, []⟩],
          [some 0, some 1, some 1, none], [3]⟩ ⟨2, 0, 0, 2, 2, 1, 2⟩ = some atlas'' ∧
      atlas''.freeChunks = [2, 3] ∧ atlas''.managers = [⟨1, [0]⟩, ⟨2, []⟩] ∧
      atlas''.chunks = [⟨0, [3, 2]⟩, ⟨1, []⟩, ⟨2, []⟩, ⟨3, []⟩] :=
  ⟨AtlasParams.small_asserts, by decide, by decide,
    atlas_allocate_deallocate_round_trip ⟨4, 2, 1⟩ AtlasParams.small_asserts
      [.allocate 1 1, .allocate 2 2, .allocate 1 1]
      ⟨⟨[⟨0, [3, 2]⟩, ⟨1, []⟩, ⟨2, []⟩, ⟨3, []⟩], [⟨1, [0]⟩, ⟨2, []⟩],
          [some 0, some 1, none, none], [2, 3]⟩,
        [⟨0, 1, 1, 0, 1, 1, 1⟩, ⟨1, 0, 2, 0, 2, 2, 2⟩, ⟨0, 0, 0, 0, 1, 1, 1⟩]⟩
      (by decide) 2 1 ⟨2, 0, 0, 2, 2, 1, 2⟩
      ⟨[⟨0, [3, 2]⟩, ⟨1, []⟩, ⟨2, []⟩, ⟨3, []⟩], [⟨1, [0]⟩, ⟨2, []⟩],
        [some 0, some 1, some 1, none], [3]⟩ (by decide)⟩

end engine.utils
